import Mathlib

/-!
Verification of the artimonist-core bit codec and entropy pipeline.

Bytes are modelled as natural numbers (values < 256 where it matters),
byte strings as `List Nat`.  External crates (scrypt, argon2, pbkdf2,
sha2, the bitcoin hash helpers and the xbits bit-packing crate) are not
part of this repository; their functions enter the embedding as explicit
function parameters, so every theorem quantifies over them unless a
concrete instance is needed.
-/

namespace Artimonist

/-- Big-endian 32-bit value assembled from four bytes, as
`u32::from_be_bytes` does. -/
def ofBe4 (a b c d : Nat) : Nat := ((a * 256 + b) * 256 + c) * 256 + d

/-- Embedding of `BitInner::window_value` (src/bits.rs, lines 13-26):
a 32-bit big-endian window starting at byte `i`, zero padded past the
end of the slice. -/
def windowValue (bs : List Nat) (i : Nat) : Nat :=
  if i + 3 < bs.length then
    ofBe4 (bs.getD i 0) (bs.getD (i+1) 0) (bs.getD (i+2) 0) (bs.getD (i+3) 0)
  else if i + 3 = bs.length then
    ofBe4 (bs.getD i 0) (bs.getD (i+1) 0) (bs.getD (i+2) 0) 0
  else if i + 2 = bs.length then
    ofBe4 (bs.getD i 0) (bs.getD (i+1) 0) 0 0
  else if i + 1 = bs.length then
    ofBe4 (bs.getD i 0) 0 0 0
  else
    ofBe4 0 0 0 0

/-- The `bit_mask` accumulator of `BitOperation::bit_chunks`
(src/bits.rs, line 59): `(0..n).fold(0, |acc, v| acc | (1 << v))`. -/
def bitMask (n : Nat) : Nat :=
  (List.range n).foldl (fun acc v => acc ||| (1 <<< v)) 0

/-- The inner `while` loop of `BitOperation::bit_chunks`
(src/bits.rs, lines 65-69) for block `i`.  Each iteration advances
`start` by `n`; `fuel` is a structural bound on the iteration count
(33 is enough for every reachable state with `1 <= n <= 16`).  With
`n = 0` the source loop never terminates; the model stops instead,
which is recorded where the claim about widths is settled. -/
def chunkWhile (bs : List Nat) (n i : Nat) : Nat → Nat → List Nat × Nat
  | 0, start => ([], start)
  | fuel+1, start =>
    if 0 < n ∧ start + n ≤ i * 8 + 32 ∧ i * 8 + 32 < bs.length * 8 + n then
      let start' := start + n
      let v := (windowValue bs i >>> (i * 8 + 32 - start')) &&& bitMask n
      let rest := chunkWhile bs n i fuel start'
      (v :: rest.1, rest.2)
    else ([], start)

/-- The outer `flat_map` of `BitOperation::bit_chunks` over block
indices, threading the bit-window `start` through the blocks.  The
boolean records whether every `assert!(i * 8 <= start && start <= i * 8
+ 32)` (src/bits.rs, line 62) held; a `false` means the source code
panics while iterating. -/
def chunkBlocks (bs : List Nat) (n : Nat) : List Nat → Nat → List Nat × Nat × Bool
  | [], start => ([], start, true)
  | i :: is, start =>
    let ok := decide (i * 8 ≤ start ∧ start ≤ i * 8 + 32)
    let step := chunkWhile bs n i 33 start
    let rest := chunkBlocks bs n is step.2
    (step.1 ++ rest.1, rest.2.1, ok && rest.2.2)

/-- Embedding of `BitOperation::bit_chunks` (src/bits.rs, lines 57-72):
the list of `n`-bit values the iterator yields when fully collected. -/
def bitChunks (bs : List Nat) (n : Nat) : List Nat :=
  (chunkBlocks bs n (List.range bs.length) 0).1

/-- Whether collecting `bit_chunks` runs through without an assertion
failure (the source iterator asserts on every block). -/
def bitChunksAssertsOk (bs : List Nat) (n : Nat) : Bool :=
  (chunkBlocks bs n (List.range bs.length) 0).2.2

/-- Bit `k` (MSB first) of a byte string, zero when `k` is past the
end: the bit stream that `bit_chunks` windows slide over. -/
def streamBit (bs : List Nat) (k : Nat) : Nat :=
  if k < bs.length * 8 then (bs.getD (k / 8) 0 >>> (7 - k % 8)) &&& 1 else 0

/-- The `n`-bit unsigned value made of stream bits
`start, start+1, ..., start+n-1`, MSB first. -/
def sliceVal (bs : List Nat) (start n : Nat) : Nat :=
  (List.range n).foldl (fun acc j => acc * 2 + streamBit bs (start + j)) 0

/-- All bytes of a byte string are below 256. -/
def ByteValid (bs : List Nat) : Prop := ∀ b ∈ bs, b < 256

/-! ## Entropy derivation (claim C1)

`scrypt::scrypt`, `pbkdf2::pbkdf2_hmac` and `argon2` are external
crates; each embedding takes the corresponding password-hashing
function as a parameter `(password, salt) -> 32 bytes`. -/

/-- In-place xor of the second buffer into the first, as
`s1.iter_mut().zip(s2.iter()).for_each(|(a, b)| *a ^= b)` does: bytes
of `s1` beyond the length of `s2` are kept unchanged. -/
def xorAssign (s1 s2 : List Nat) : List Nat :=
  List.zipWith (fun a b => a ^^^ b) s1 s2 ++ s1.drop s2.length

/-- Embedding of `Diagram::to_entropy` (src/diagram.rs, lines 64-83),
applied to the already encoded secret bytes: scrypt on
`secret || 0x01` and `salt || 0x01`, pbkdf2-hmac-sha256 on
`secret || 0x02` and `salt || 0x02`, xored together. -/
def diagramToEntropy (scryptF pbkdf2F : List Nat → List Nat → List Nat)
    (secret salt : List Nat) : List Nat :=
  let s1 := scryptF (secret ++ [1]) (salt ++ [1])
  let s2 := pbkdf2F (secret ++ [2]) (salt ++ [2])
  xorAssign s1 s2

/-- The fixed salt prefix of `GenericDiagram::to_entropy`
(src/diagram/generic.rs, line 4): the bytes of `b"Thanks Satoshi!"`. -/
def defaultSalt : List Nat :=
  [0x54, 0x68, 0x61, 0x6e, 0x6b, 0x73, 0x20, 0x53, 0x61, 0x74, 0x6f, 0x73, 0x68, 0x69, 0x21]

/-- Embedding of `GenericDiagram::to_entropy` (src/diagram/generic.rs,
lines 20-39), applied to the already encoded secret bytes: scrypt and
argon2, with the fixed default salt prepended to the caller salt in
both calls. -/
def genericToEntropy (scryptF argon2F : List Nat → List Nat → List Nat)
    (secret salt : List Nat) : List Nat :=
  let s1 := scryptF (secret ++ [1]) (defaultSalt ++ salt ++ [1])
  let s2 := argon2F (secret ++ [2]) (defaultSalt ++ salt ++ [2])
  xorAssign s1 s2

/-- Embedding of the seed computed inside `GenericDiagram::to_master_v1`
(src/diagram/generic.rs, lines 48-69), applied to the already encoded
secret bytes: scrypt on `secret || 0x01` / `salt || 0x01` and
pbkdf2-hmac-sha256 on `secret || 0x02` / `salt || 0x02`, xored.  The
final `Xpriv::new_master` call consumes the seed in an external crate
and is outside the embedding. -/
def toMasterV1Seed (scryptF pbkdf2F : List Nat → List Nat → List Nat)
    (secret salt : List Nat) : List Nat :=
  let s1 := scryptF (secret ++ [1]) (salt ++ [1])
  let s2 := pbkdf2F (secret ++ [2]) (salt ++ [2])
  xorAssign s1 s2

/-- The index of the last block that still emits values:
`8 * i + 32 < 8 * len + n` exactly when `i <= lastAdm`. -/
def lastAdm (len n : Nat) : Nat := (8 * len + n - 33) / 8

/-- The slice index reached after processing blocks
`i₀, i₀+1, ..., i₀+k-1` when the incoming state is slice index `m`. -/
def chunkTailCount (bs : List Nat) (n k i₀ m : Nat) : Nat :=
  if k ≠ 0 ∧ i₀ * 8 + 32 < bs.length * 8 + n then
    (8 * min (i₀ + k - 1) (lastAdm bs.length n) + 32) / n
  else m

/-! ## UTF-8 (model of the Rust std `String`/`char` machinery)

Rust strings store chars UTF-8 encoded; `String::from_utf8` validates
strictly (continuation bytes, no overlong forms, no surrogates, max
0x10FFFF).  Chars are Unicode scalar values, modelled as `Nat` with the
`ScalarValue` bound. -/

/-- A Unicode scalar value: the domain of the Rust `char` type. -/
def ScalarValue (c : Nat) : Prop := c < 0xD800 ∨ (0xE000 ≤ c ∧ c < 0x110000)

/-- UTF-8 encoding of one scalar value. -/
def utf8Char (c : Nat) : List Nat :=
  if c < 0x80 then [c]
  else if c < 0x800 then [0xC0 + c / 64, 0x80 + c % 64]
  else if c < 0x10000 then [0xE0 + c / 4096, 0x80 + c / 64 % 64, 0x80 + c % 64]
  else [0xF0 + c / 262144, 0x80 + c / 4096 % 64, 0x80 + c / 64 % 64, 0x80 + c % 64]

/-- UTF-8 encoding of a char sequence: what `String::as_bytes` exposes. -/
def utf8Encode (cs : List Nat) : List Nat := cs.flatMap utf8Char

/-- Strict UTF-8 decoding of one leading scalar value, returning it and
the remaining bytes.  Overlong encodings, surrogates and values above
0x10FFFF are rejected, as `String::from_utf8` does. -/
def utf8DecodeChar : List Nat → Option (Nat × List Nat)
  | [] => none
  | b :: rest =>
    if b < 0x80 then some (b, rest)
    else if b < 0xC2 then none
    else if b < 0xE0 then
      match rest with
      | b1 :: r1 =>
        if 0x80 ≤ b1 ∧ b1 < 0xC0 then some ((b - 0xC0) * 64 + (b1 - 0x80), r1) else none
      | _ => none
    else if b < 0xF0 then
      match rest with
      | b1 :: b2 :: r2 =>
        if 0x80 ≤ b1 ∧ b1 < 0xC0 ∧ 0x80 ≤ b2 ∧ b2 < 0xC0 then
          if 0x800 ≤ (b - 0xE0) * 4096 + (b1 - 0x80) * 64 + (b2 - 0x80) ∧
              ¬ (0xD800 ≤ (b - 0xE0) * 4096 + (b1 - 0x80) * 64 + (b2 - 0x80) ∧
                 (b - 0xE0) * 4096 + (b1 - 0x80) * 64 + (b2 - 0x80) < 0xE000) then
            some ((b - 0xE0) * 4096 + (b1 - 0x80) * 64 + (b2 - 0x80), r2)
          else none
        else none
      | _ => none
    else if b < 0xF5 then
      match rest with
      | b1 :: b2 :: b3 :: r3 =>
        if 0x80 ≤ b1 ∧ b1 < 0xC0 ∧ 0x80 ≤ b2 ∧ b2 < 0xC0 ∧ 0x80 ≤ b3 ∧ b3 < 0xC0 then
          if 0x10000 ≤ (b - 0xF0) * 262144 + (b1 - 0x80) * 4096 + (b2 - 0x80) * 64 + (b3 - 0x80) ∧
              (b - 0xF0) * 262144 + (b1 - 0x80) * 4096 + (b2 - 0x80) * 64 + (b3 - 0x80) < 0x110000 then
            some ((b - 0xF0) * 262144 + (b1 - 0x80) * 4096 + (b2 - 0x80) * 64 + (b3 - 0x80), r3)
          else none
        else none
      | _ => none
    else none

/-- Decode a whole byte string to its scalar values; `fuel` is a
structural bound (the byte count suffices, each step consumes at least
one byte). -/
def utf8DecodeAux : Nat → List Nat → Option (List Nat)
  | _, [] => some []
  | 0, _ :: _ => none
  | fuel+1, bs =>
    match utf8DecodeChar bs with
    | some (c, rest) => (utf8DecodeAux fuel rest).map (fun cs => c :: cs)
    | none => none

/-- Model of `String::from_utf8` followed by `.chars()`. -/
def utf8Decode (bs : List Nat) : Option (List Nat) := utf8DecodeAux bs.length bs

/-! ## The 7x7 diagram codecs -/

/-- The errors of src/diagram.rs `DiagramError` that the codecs can
produce (the static message payloads are dropped). -/
inductive DiagramError
  | overflows
  | invalidParameter
  | invalidVersion
  | emptyDiagram
deriving DecidableEq

/-- `INDICES_MASK` (src/diagram.rs, line 7): `INDICES_MASK[col]` is the
bit `1 << (6 - col)`. -/
def indicesMask : List Nat := [0x40, 0x20, 0x10, 0x08, 0x04, 0x02, 0x01]

/-- `VERSION_MASK` (src/diagram.rs, line 17). -/
def versionMask : Nat := 0x80

/-- The cell positions `(col, row)` in column-major ascending order;
the encoders traverse its reverse (columns 6..0, rows 6..0 inside each
column) and the decoders walk it forward. -/
def pairsCR : List (Nat × Nat) :=
  (List.range 7).flatMap (fun col => (List.range 7).map (fun row => (col, row)))

/-- A 7x7 grid of optional cells. -/
def GridWF {α : Type} (g : List (List (Option α))) : Prop :=
  g.length = 7 ∧ ∀ row ∈ g, row.length = 7

/-- Cell lookup. -/
def cellAt {α : Type} (g : List (List (Option α))) (row col : Nat) : Option α :=
  (g.getD row []).getD col none

/-- Cell store, as `data[row][col] = v`. -/
def setCell {α : Type} (g : List (List (Option α))) (row col : Nat) (v : Option α) :
    List (List (Option α)) :=
  g.set row ((g.getD row []).set col v)

/-- The all-empty 7x7 grid. -/
def emptyGrid {α : Type} : List (List (Option α)) :=
  List.replicate 7 (List.replicate 7 none)

/-- `SimpleDiagram::is_empty` (src/simple.rs, lines 63-65). -/
def simpleIsEmpty (g : List (List (Option Nat))) : Bool :=
  g.all (fun row => row.all (fun v => v.isNone))

/-- One step of the collection loop of `SimpleDiagram::to_secret`
(src/simple.rs, lines 160-167): on a populated cell, push its char and
or the column mask into the row byte. -/
def collectStep (g : List (List (Option Nat))) (acc : List Nat × List Nat)
    (p : Nat × Nat) : List Nat × List Nat :=
  match cellAt g p.2 p.1 with
  | some ch => (acc.1 ++ [ch], acc.2.set p.2 (acc.2.getD p.2 0 ||| indicesMask.getD p.1 0))
  | none => acc

/-- The full traversal of `to_secret`: columns 6..0, rows 6..0. -/
def simpleCollect (g : List (List (Option Nat))) : List Nat × List Nat :=
  pairsCR.reverse.foldl (collectStep g) ([], List.replicate 7 0)

/-- Embedding of `SimpleDiagram::to_secret` (src/simple.rs, lines
151-175).  `sha0` is the first SHA-256 byte (the `bitcoin` hash crate
is external). -/
def simpleToSecret (sha0 : List Nat → Nat) (g : List (List (Option Nat))) :
    Except DiagramError (List Nat) :=
  if simpleIsEmpty g then .error .emptyDiagram
  else
    let cs := simpleCollect g
    let secret := utf8Encode cs.1 ++ cs.2
    .ok (secret ++ [sha0 secret])

/-- The fill loop of `SimpleDiagram::from_secret` (src/simple.rs, lines
133-143): walk `(col, row)` positions forward, popping one char from
the back of `items` for every set indices bit.  `none` models the error
return on an exhausted `items`. -/
def simpleFill (indices : List Nat) :
    List (Nat × Nat) → List Nat → List (List (Option Nat)) →
      Option (List (List (Option Nat)) × List Nat)
  | [], items, g => some (g, items)
  | (col, row) :: ps, items, g =>
    if indices.getD row 0 &&& indicesMask.getD col 0 > 0 then
      match items.getLast? with
      | some ch => simpleFill indices ps items.dropLast (setCell g row col (some ch))
      | none => none
    else simpleFill indices ps items g

/-- Embedding of `SimpleDiagram::from_secret` (src/simple.rs, lines
108-148). -/
def simpleFromSecret (sha0 : List Nat → Nat) (secret : List Nat) :
    Except DiagramError (List (List (Option Nat))) :=
  if secret.length ≤ 8 then .error .invalidParameter
  else
    match secret.getLast? with
    | some check =>
      if check ≠ sha0 secret.dropLast then .error .invalidParameter
      else
        let body := secret.dropLast
        let indices := body.drop (body.length - 7)
        let front := body.take (body.length - 7)
        if indices.any (fun v => v &&& versionMask ≠ 0) then .error .invalidVersion
        else
          match utf8Decode front with
          | none => .error .invalidParameter
          | some items =>
            match simpleFill indices pairsCR items emptyGrid with
            | none => .error .invalidParameter
            | some (g, leftover) =>
              if ¬ leftover.isEmpty then .error .invalidParameter
              else .ok g
    | none => .error .invalidParameter


/-- The grid produced by writing every populated cell of `g` at the
positions `ps` into `g₀` (the functional effect of the decoder fill
loop). -/
def writeFold {α : Type} (g : List (List (Option α))) (ps : List (Nat × Nat))
    (g₀ : List (List (Option α))) : List (List (Option α)) :=
  ps.foldl (fun acc p =>
    match cellAt g p.2 p.1 with
    | some v => setCell acc p.2 p.1 (some v)
    | none => acc) g₀

/-- The indices bytes produced by or-ing the column mask of every
populated cell of `g` at the positions `ps` into `ind` (the indices
part of the encoder loop). -/
def orFold {α : Type} (g : List (List (Option α))) (ps : List (Nat × Nat))
    (ind : List Nat) : List Nat :=
  ps.foldl (fun ind p =>
    match cellAt g p.2 p.1 with
    | some _ => ind.set p.2 (ind.getD p.2 0 ||| indicesMask.getD p.1 0)
    | none => ind) ind


/-- Every populated cell holds a Unicode scalar value (automatic for
the Rust `char` type). -/
def CellsScalar (g : List (List (Option Nat))) : Prop :=
  ∀ r c v, cellAt g r c = some v → ScalarValue v


/-- `INDICES_ALL` (src/diagram.rs, line 16): the low seven bits. -/
def indicesAll : Nat := 0x7f

/-- `u8::count_ones` for byte values (all operands are below 256). -/
def onesCount (v : Nat) : Nat :=
  (List.range 8).foldl (fun acc i => acc + v / 2 ^ i % 2) 0

/-- `ComplexDiagram::is_empty` (src/complex.rs, lines 66-68); a cell
holding the empty string is the empty cell, modelled as `none`. -/
def complexIsEmpty (g : List (List (Option (List Nat)))) : Bool :=
  g.all (fun row => row.all (fun v => v.isNone))

/-- The collection loop of `ComplexDiagram::to_secret` (src/complex.rs,
lines 181-195): strings, their byte lengths (`s.len() as u8`, hence mod
256) and the indices bytes, over columns 6..0 and rows 6..0. -/
def complexCollect (g : List (List (Option (List Nat)))) :
    List (List Nat) × List Nat × List Nat :=
  pairsCR.reverse.foldl (fun acc p =>
    match cellAt g p.2 p.1 with
    | some s => (acc.1 ++ [s], acc.2.1 ++ [(utf8Encode s).length % 256],
        acc.2.2.set p.2 (acc.2.2.getD p.2 0 ||| indicesMask.getD p.1 0))
    | none => acc) ([], [], List.replicate 7 0)

/-- Embedding of `ComplexDiagram::to_secret` (src/complex.rs, lines
176-203): joined strings, length bytes, indices with the version bit on
`indices[0]`, and the checksum byte. -/
def complexToSecret (sha0 : List Nat → Nat) (g : List (List (Option (List Nat)))) :
    Except DiagramError (List Nat) :=
  if complexIsEmpty g then .error .emptyDiagram
  else
    let cs := complexCollect g
    let ind := cs.2.2.set 0 (cs.2.2.getD 0 0 ||| versionMask)
    let secret := (cs.1.map utf8Encode).flatten ++ cs.2.1 ++ ind
    .ok (secret ++ [sha0 secret])

/-- The `(version, item_count)` reduction of `ComplexDiagram::from_secret`
(src/complex.rs, lines 127-137): byte `i` contributes its top bit
shifted right by `7 - i` to the version and the popcount of its low
seven bits to the item count. -/
def versionItemCount (ind : List Nat) : Nat × Nat :=
  (List.range ind.length).foldl (fun acc i =>
    (acc.1 + ((ind.getD i 0 &&& versionMask) >>> (7 - i)),
     acc.2 + onesCount (ind.getD i 0 &&& indicesAll))) (0, 0)

/-- The fill loop of `ComplexDiagram::from_secret` (src/complex.rs,
lines 155-169): for every set indices bit pop a length byte from the
back of `lens` and split that many bytes off the back of `bytes`.
`none` models the invalid-utf8 error return.  (When `lens` runs dry the
source pops a default 0 and splits an empty string; the model mirrors
this with `getD 0`.) -/
def complexFill (ind : List Nat) :
    List (Nat × Nat) → List Nat → List Nat → List (List (Option (List Nat))) →
      Option (List (List (Option (List Nat))))
  | [], _, _, g => some g
  | (col, row) :: ps, lens, bytes, g =>
    if ind.getD row 0 &&& indicesMask.getD col 0 > 0 then
      let n := (lens.getLast?).getD 0
      let bs := bytes.drop (bytes.length - n)
      match utf8Decode bs with
      | some s => complexFill ind ps lens.dropLast (bytes.take (bytes.length - n))
          (setCell g row col (some s))
      | none => none
    else complexFill ind ps lens bytes g

/-- Validity of a Complex grid: every populated cell is a nonempty
string of at most 50 Unicode scalar values (the `char`s of the Rust
`String`; emptiness and the 50-char cap are enforced by
`ComplexDiagram::set`, src/complex.rs lines 77-95). -/
def ComplexCellsOk (g : List (List (Option (List Nat)))) : Prop :=
  ∀ r c s, cellAt g r c = some s →
    s ≠ [] ∧ s.length ≤ 50 ∧ ∀ ch ∈ s, ScalarValue ch

/-- Embedding of `ComplexDiagram::from_secret` (src/complex.rs, lines
113-171). -/
def complexFromSecret (sha0 : List Nat → Nat) (secret : List Nat) :
    Except DiagramError (List (List (Option (List Nat)))) :=
  if secret.length < 10 then .error .invalidParameter
  else
    match secret.getLast? with
    | some check =>
      if check ≠ sha0 secret.dropLast then .error .invalidParameter
      else
        let body := secret.dropLast
        let ind := body.drop (body.length - 7)
        let rest1 := body.take (body.length - 7)
        let vi := versionItemCount ind
        if vi.1 ≠ 1 then .error .invalidVersion
        else if vi.2 = 0 then .error .invalidParameter
        else
          let lens := rest1.drop (rest1.length - vi.2)
          let rest2 := rest1.take (rest1.length - vi.2)
          let amount := lens.foldl (fun a v => a + v) 0
          let hasZero := lens.any (fun v => v = 0)
          if lens.isEmpty ∨ hasZero ∨ amount ≠ rest2.length then .error .invalidParameter
          else
            match complexFill ind pairsCR lens rest2 emptyGrid with
            | some g => .ok g
            | none => .error .invalidParameter
    | none => .error .invalidParameter

/-- Embedding of `ComplexDiagram::set` (src/complex.rs, lines 92-100):
reject a string of more than `CELL_CHARS_LIMIT = 50` scalar values
(`Overflows`), otherwise store it; the Rust grid stores plain strings
and `get` reports an empty string as an empty cell, so storing the
empty string stores `none`. -/
def complexSet (g : List (List (Option (List Nat)))) (s : List Nat) (row col : Nat) :
    Except DiagramError (List (List (Option (List Nat)))) :=
  if s.length > 50 then .error .overflows
  else .ok (setCell g row col (if s.isEmpty then none else some s))

/-- One frame's indices bytes in `AnimateDiagram::to_bytes`
(src/diagram/animate.rs, lines 51-61): Simple-style indices over
columns 6..0 and rows 6..0, then the animate version bit on
`indices[1]`. -/
def animateFrameInd (mx : List (List (Option Nat))) : List Nat :=
  (orFold mx pairsCR.reverse (List.replicate 7 0)).set 1
    ((orFold mx pairsCR.reverse (List.replicate 7 0)).getD 1 0 ||| versionMask)

/-- Embedding of `AnimateDiagram::to_bytes` (src/diagram/animate.rs,
lines 47-70): frames are walked in reverse, each contributing its
characters to a shared pool and its 7 indices bytes; the first
collected block (the chronologically final frame) additionally gets the
end marker on `indices[0]`.  `frames[0]` panics on an empty frame list,
modelled as `none`; there is no emptiness check. -/
def animateToBytes (sha0 : List Nat → Nat) (cube : List (List (List (Option Nat)))) :
    Option (List Nat) :=
  let chars := cube.reverse.flatMap
    (fun mx => pairsCR.reverse.filterMap (fun p => cellAt mx p.2 p.1))
  match cube.reverse.map animateFrameInd with
  | [] => none
  | f0 :: rest =>
    let f0e := f0.set 0 (f0.getD 0 0 ||| versionMask)
    let secret := utf8Encode chars ++ (f0e :: rest).flatten
    some (secret ++ [sha0 secret])

/-- Modelled from the spec: the frame-splitting phase of the Animate
decoder (spec §4.4): consume 7-byte indices blocks from the right end
of the body, each carrying the animate marker on `indices[1]`, until
the block with the end marker on `indices[0]` is seen; the blocks are
returned in chronological order together with the remaining prefix
(the shared character pool).  The fuel argument bounds the recursion;
`body.length` always suffices. -/
def animateSplitFrames : Nat → List Nat → Option (List Nat × List (List Nat))
  | 0, _ => none
  | fuel + 1, body =>
    if body.length < 7 then none
    else
      let block := body.drop (body.length - 7)
      let front := body.take (body.length - 7)
      if block.getD 1 0 &&& versionMask = 0 then none
      else if block.getD 0 0 &&& versionMask ≠ 0 then some (front, [block])
      else
        match animateSplitFrames fuel front with
        | some (pool, blocks) => some (pool, block :: blocks)
        | none => none

/-- Modelled from the spec: the frame-filling phase of the Animate
decoder (spec §4.4): rebuild each frame from its indices block in
chronological order, draining the shared character pool from its back
exactly as the Simple decoder does. -/
def animateFillFrames :
    List (List Nat) → List Nat →
      Option (List (List (List (Option Nat))) × List Nat)
  | [], items => some ([], items)
  | block :: blocks, items =>
    match simpleFill block pairsCR items emptyGrid with
    | some (g, rest) =>
      match animateFillFrames blocks rest with
      | some (cube, rest2) => some (g :: cube, rest2)
      | none => none
    | none => none

/-- Modelled from the spec: the Animate decoder of §4.4 (absent from
the sources): verify the checksum byte, split the trailing indices
blocks up to the end marker, UTF-8 decode the character pool, rebuild
the frames and require the pool to be fully drained. -/
def animateFromBytes (sha0 : List Nat → Nat) (secret : List Nat) :
    Option (List (List (List (Option Nat)))) :=
  match secret.getLast? with
  | some check =>
    if check ≠ sha0 secret.dropLast then none
    else
      let body := secret.dropLast
      match animateSplitFrames body.length body with
      | some (pool, blocks) =>
        match utf8Decode pool with
        | some items =>
          match animateFillFrames blocks items with
          | some (cube, leftover) => if leftover.isEmpty then some cube else none
          | none => none
        | none => none
      | none => none
  | none => none

/-- Validity of an Animate frame list: at least one frame, every frame
a 7x7 grid of optional Unicode scalar values (frames themselves may be
completely empty; the encoder never checks). -/
def AnimateCubeOk (cube : List (List (List (Option Nat)))) : Prop :=
  cube ≠ [] ∧ ∀ mx ∈ cube, GridWF mx ∧ CellsScalar mx

/-! ## The BIP39 mnemonic layer (src/bip39/mnemonic.rs, src/bip39/language.rs) -/

/-- `Language` (src/bip39/language.rs, lines 13-36). -/
inductive Language
  | english
  | japanese
  | korean
  | spanish
  | chineseSimplified
  | chineseTraditional
  | french
  | italian
  | czech
  | portuguese
deriving DecidableEq, Repr

/-- `Bip39Error` (src/bip39/mod.rs); `AmbiguousLanguages` carries the
surviving language list. -/
inductive Bip39Error
  | invalidSize
  | invalidChecksum
  | invalidLanguage
  | languageError
  | ambiguousLanguages (ls : List Language)
deriving DecidableEq, Repr

/-- Whitespace code points of `char::is_whitespace` (Rust std; words
are split with `split_whitespace`). -/
def isWs (c : Nat) : Bool :=
  c = 0x09 ∨ c = 0x0A ∨ c = 0x0B ∨ c = 0x0C ∨ c = 0x0D ∨ c = 0x20
    ∨ c = 0x85 ∨ c = 0xA0 ∨ c = 0x1680 ∨ (0x2000 ≤ c ∧ c ≤ 0x200A)
    ∨ c = 0x2028 ∨ c = 0x2029 ∨ c = 0x202F ∨ c = 0x205F ∨ c = 0x3000

/-- `str::split_whitespace` over a code-point list (Rust std): maximal
runs of non-whitespace characters, in order. -/
def splitWsAux : List Nat → List Nat → List (List Nat)
  | [], cur => if cur.isEmpty then [] else [cur.reverse]
  | c :: cs, cur =>
    if isWs c then
      if cur.isEmpty then splitWsAux cs []
      else cur.reverse :: splitWsAux cs []
    else splitWsAux cs (c :: cur)

def splitWs (s : List Nat) : List (List Nat) := splitWsAux s []

/-- `Vec::join(" ")` over code-point lists (the `Display` instance of
`Mnemonic`, src/bip39/mnemonic.rs lines 193-197). -/
def joinWords : List (List Nat) → List Nat
  | [] => []
  | [w] => w
  | w :: w2 :: ws => w ++ 0x20 :: joinWords (w2 :: ws)

/-- `Language::index_of` (src/bip39/language.rs, lines 81-84):
`position` of the first matching word. -/
def indexOfW : List (List Nat) → List Nat → Nat → Option Nat
  | [], _, _ => none
  | x :: xs, w, k => if x = w then some k else indexOfW xs w (k + 1)

/-- `Language::word_at` (src/bip39/language.rs, lines 72-79): `none`
for an index of 2048 or more, otherwise the list entry (the `unwrap`
panics only on a wordlist shorter than the index, which the 2048-entry
hypothesis excludes). -/
def wordAt (ws : List (List Nat)) (i : Nat) : Option (List Nat) :=
  if i < 2048 then ws[i]? else none

/-- The first-character candidate set of `Language::detect`
(src/bip39/language.rs, lines 87-105) before the containment filter. -/
def baseCand (w : List Nat) : List Language :=
  match w with
  | [] => []
  | ch :: _ =>
    if 0x1100 ≤ ch ∧ ch ≤ 0x11ff then [.korean]
    else if 0x3040 ≤ ch ∧ ch ≤ 0x309f then [.japanese]
    else if 0x4e00 ≤ ch ∧ ch ≤ 0x9f9f then [.chineseSimplified, .chineseTraditional]
    else if w.all (fun c => c < 128) then
      [.english, .italian, .czech, .portuguese, .french, .spanish]
    else [.french, .spanish]

/-- `Language::detect`: the candidates that actually contain the word. -/
def detect (wl : Language → List (List Nat)) (w : List Nat) : List Language :=
  (baseCand w).filter (fun l => (indexOfW (wl l) w 0).isSome)

/-- `Mnemonic::detect_language` (src/bip39/mnemonic.rs, lines 111-123):
intersect the per-word candidate sets, keeping the first word's order. -/
def detectLanguage (wl : Language → List (List Nat)) :
    List (List Nat) → List Language
  | [] => []
  | w :: ws => ws.foldl (fun acc w2 => acc.filter (fun x => x ∈ detect wl w2))
      (detect wl w)

/-- `Language::indices` (src/bip39/mnemonic.rs, lines 199-214): all
word indices, or `none` if any word is missing. -/
def langIndices (ws : List (List Nat)) : List (List Nat) → Option (List Nat)
  | [] => some []
  | w :: rest =>
    match indexOfW ws w 0, langIndices ws rest with
    | some i, some is => some (i :: is)
    | _, _ => none

/-- The 11-bit chunker of the external `xbits` crate
(`bits().chunks(n).take(count)` in src/bip39/mnemonic.rs, lines 44-49):
`count` successive `n`-bit MSB-first windows of the byte stream. -/
def xbitsChunks (bs : List Nat) (n count : Nat) : List Nat :=
  (List.range count).map (fun i => sliceVal bs (i * n) n)

/-- Bit `k` of the stream formed by the low `n` bits of each value,
MSB-first (the external `xbits` `FromBits` layout). -/
def chunkBit (vs : List Nat) (n k : Nat) : Nat :=
  vs.getD (k / n) 0 / 2 ^ (n - 1 - k % n) % 2

/-- `Vec::from_bits_chunk(values, n)` of the external `xbits` crate
(src/bip39/mnemonic.rs, lines 105 and 132): repack the `n`-bit values
into bytes MSB-first, zero-padding the trailing partial byte. -/
def fromBitsChunk (vs : List Nat) (n : Nat) : List Nat :=
  (List.range ((vs.length * n + 7) / 8)).map (fun i =>
    (List.range 8).foldl (fun acc j =>
      acc * 2 + (if i * 8 + j < vs.length * n then chunkBit vs n (i * 8 + j) else 0)) 0)

/-- The `VALID_SIZES` word counts (src/bip39/mnemonic.rs, line 22). -/
def validWordCount (n : Nat) : Bool :=
  n = 12 ∨ n = 15 ∨ n = 18 ∨ n = 21 ∨ n = 24

/-- The checksum mask `0xff << (8 - size/3)` as a byte
(src/bip39/mnemonic.rs, line 40). -/
def checkMask (size : Nat) : Nat := (0xff <<< (8 - size / 3)) % 256

/-- The word indices of `Mnemonic::new` (src/bip39/mnemonic.rs, lines
38-49): 11-bit chunks of `entropy || [checksum]`, `size` of them. -/
def mnemonicIndices (sha0 : List Nat → Nat) (entropy : List Nat) : List Nat :=
  let size := entropy.length / 4 * 3
  let checksum := sha0 entropy &&& checkMask size
  xbitsChunks (entropy ++ [checksum]) 11 size

/-- Embedding of `Mnemonic::new` (src/bip39/mnemonic.rs, lines 32-58);
the result is the word list and language (`unwrap_or_default` on a
missing word yields the empty string, modelled by `getD []`). -/
def mnemonicNew (sha0 : List Nat → Nat) (wl : Language → List (List Nat))
    (entropy : List Nat) (lang : Language) :
    Except Bip39Error (List (List Nat) × Language) :=
  if entropy.length = 16 ∨ entropy.length = 20 ∨ entropy.length = 24
      ∨ entropy.length = 28 ∨ entropy.length = 32 then
    .ok ((mnemonicIndices sha0 entropy).map (fun i => (wordAt (wl lang) i).getD []), lang)
  else .error .invalidSize

/-- `Mnemonic::verify_checksum` (src/bip39/mnemonic.rs, lines 126-142)
as a Boolean. -/
def verifyChecksum (sha0 : List Nat → Nat) (idxs : List Nat) : Bool :=
  if validWordCount idxs.length then
    let bytes := fromBitsChunk idxs 11
    match bytes.getLast? with
    | some tail => sha0 bytes.dropLast &&& checkMask idxs.length = tail
    | none => false
  else false

/-- The languages kept by the checksum `retain` of `Mnemonic::from_str`
(src/bip39/mnemonic.rs, lines 156-166). -/
def survivors (sha0 : List Nat → Nat) (wl : Language → List (List Nat))
    (words : List (List Nat)) : List Language :=
  (detectLanguage wl words).filter (fun l =>
    match langIndices (wl l) words with
    | some idxs => verifyChecksum sha0 idxs
    | none => false)

/-- Embedding of `Mnemonic::from_str` (src/bip39/mnemonic.rs, lines
148-190). -/
def mnemonicFromStr (sha0 : List Nat → Nat) (wl : Language → List (List Nat))
    (s : List Nat) : Except Bip39Error (List (List Nat) × Language) :=
  let words := splitWs s
  if validWordCount words.length then
    match survivors sha0 wl words with
    | [] => .error .invalidChecksum
    | [l] => .ok (words, l)
    | l1 :: l2 :: rest =>
      if l1 :: l2 :: rest = [.chineseSimplified, .chineseTraditional]
          ∨ l1 :: l2 :: rest = [.chineseTraditional, .chineseSimplified] then
        .ok (words, .chineseSimplified)
      else .error (.ambiguousLanguages (l1 :: l2 :: rest))
  else .error .invalidSize

/-- `Mnemonic::entropy` (src/bip39/mnemonic.rs, lines 102-108): pack
the word indices back into bytes and drop the trailing checksum byte
(the `unwrap` in `indices()` is modelled by `getD 0`; it never fires on
words taken from the wordlist). -/
def mnemonicEntropy (wl : Language → List (List Nat))
    (words : List (List Nat)) (lang : Language) : List Nat :=
  (fromBitsChunk (words.map (fun w => (indexOfW (wl lang) w 0).getD 0)) 11).dropLast

/-- The wordlist facts used by the round trip, modelled from the BIP39
standard lists (the `raw/*.txt` files are absent from src/): 2048
distinct words per language, each non-empty and whitespace-free, each
carrying its own language among its first-character candidates. -/
def WordlistsOk (wl : Language → List (List Nat)) : Prop :=
  (∀ l, (wl l).length = 2048) ∧
  (∀ l, (wl l).Nodup) ∧
  (∀ l w, w ∈ wl l → w ≠ [] ∧ ∀ c ∈ w, isWs c = false) ∧
  (∀ l w, w ∈ wl l → l ∈ baseCand w)

/-- Modelled from the spec: the survivor analysis of §4.6 presumes that
a word sequence drawn from one wordlist never validates in an unrelated
language; the two Chinese lists share entries at equal indices. -/
def WordlistsSeparated (wl : Language → List (List Nat)) : Prop :=
  (∀ l1 l2, l1 ≠ l2 →
    ¬(l1 = .chineseSimplified ∧ l2 = .chineseTraditional) →
    ¬(l1 = .chineseTraditional ∧ l2 = .chineseSimplified) →
    ∀ w, w ∈ wl l1 → w ∉ wl l2) ∧
  (∀ w, w ∈ wl .chineseSimplified → w ∈ wl .chineseTraditional →
    indexOfW (wl .chineseSimplified) w 0 = indexOfW (wl .chineseTraditional) w 0)

/-- The script base character of a synthetic wordlist family used as a
concrete witness for the wordlist hypotheses. -/
def toyBase : Language → Nat
  | .english => 97
  | .japanese => 0x3040
  | .korean => 0x1100
  | .spanish => 103
  | .chineseSimplified => 0x4e00
  | .chineseTraditional => 0x4e00
  | .french => 102
  | .italian => 98
  | .czech => 99
  | .portuguese => 100

/-- A synthetic 2048-entry wordlist per language: word `i` is the
script base character followed by two ASCII characters encoding `i`
(the two Chinese lists are identical, sharing all indices). -/
def toyWl (l : Language) : List (List Nat) :=
  (List.range 2048).map (fun i => [toyBase l, 48 + i / 64, 48 + i % 64])

/-! ## Facts about the bit stream and `bit_chunks` -/

theorem streamBit_le_one (bs : List Nat) (k : Nat) : streamBit bs k ≤ 1 := by
  unfold streamBit
  split
  · exact Nat.and_le_right
  · exact Nat.zero_le 1

theorem sliceVal_zero (bs : List Nat) (s : Nat) : sliceVal bs s 0 = 0 := rfl

theorem sliceVal_succ (bs : List Nat) (s n : Nat) :
    sliceVal bs s (n + 1) = sliceVal bs s n * 2 + streamBit bs (s + n) := by
  unfold sliceVal
  rw [List.range_succ, List.foldl_append, List.foldl_cons, List.foldl_nil]

theorem sliceVal_lt (bs : List Nat) (s n : Nat) : sliceVal bs s n < 2 ^ n := by
  induction n with
  | zero => rw [sliceVal_zero]; norm_num
  | succ m ih =>
    rw [sliceVal_succ, pow_succ]
    have := streamBit_le_one bs (s + m)
    omega

theorem sliceVal_add (bs : List Nat) (s a b : Nat) :
    sliceVal bs s (a + b) = sliceVal bs s a * 2 ^ b + sliceVal bs (s + a) b := by
  induction b with
  | zero => rw [Nat.add_zero, sliceVal_zero, pow_zero, Nat.mul_one, Nat.add_zero]
  | succ m ih =>
    rw [show a + (m + 1) = (a + m) + 1 by ring, sliceVal_succ, ih, sliceVal_succ,
      pow_succ, show s + (a + m) = s + a + m by ring]
    ring

theorem sliceVal_of_zero_bits (bs : List Nat) (s n : Nat)
    (h : ∀ j < n, streamBit bs (s + j) = 0) : sliceVal bs s n = 0 := by
  induction n with
  | zero => rw [sliceVal_zero]
  | succ m ih =>
    rw [sliceVal_succ, ih (fun j hj => h j (by omega)), h m (by omega)]

set_option maxRecDepth 8192 in
theorem byte_fold_bits : ∀ b < 256,
    (List.range 8).foldl (fun acc j => acc * 2 + ((b >>> (7 - j)) &&& 1)) 0 = b := by
  decide

theorem sliceVal_byte (bs : List Nat) (hv : ByteValid bs) (k : Nat) :
    sliceVal bs (8 * k) 8 = bs.getD k 0 := by
  by_cases hk : k < bs.length
  · have hb : bs.getD k 0 < 256 := by
      have : bs.getD k 0 ∈ bs := by
        rw [List.getD_eq_getElem bs 0 hk]
        exact List.getElem_mem hk
      exact hv _ this
    have hbit : ∀ j < 8, streamBit bs (8 * k + j) = (bs.getD k 0 >>> (7 - j)) &&& 1 := by
      intro j hj
      unfold streamBit
      have h1 : 8 * k + j < bs.length * 8 := by omega
      have h2 : (8 * k + j) / 8 = k := by omega
      have h3 : (8 * k + j) % 8 = j := by omega
      rw [if_pos h1, h2, h3]
    unfold sliceVal
    rw [List.foldl_ext (fun acc j => acc * 2 + streamBit bs (8 * k + j))
      (fun acc j => acc * 2 + ((bs.getD k 0 >>> (7 - j)) &&& 1)) 0
      (fun a j hj => by dsimp only; rw [hbit j (List.mem_range.mp hj)])]
    exact byte_fold_bits _ hb
  · rw [List.getD_eq_default bs 0 (by omega)]
    exact sliceVal_of_zero_bits bs _ _ (fun j hj => by
      unfold streamBit
      rw [if_neg (by omega)])

theorem windowValue_getD (bs : List Nat) (i : Nat) :
    windowValue bs i =
      ofBe4 (bs.getD i 0) (bs.getD (i+1) 0) (bs.getD (i+2) 0) (bs.getD (i+3) 0) := by
  unfold windowValue
  split_ifs with h1 h2 h3 h4
  · rfl
  · rw [List.getD_eq_default bs 0 (n := i + 3) (by omega)]
  · rw [List.getD_eq_default bs 0 (n := i + 2) (by omega),
      List.getD_eq_default bs 0 (n := i + 3) (by omega)]
  · rw [List.getD_eq_default bs 0 (n := i + 1) (by omega),
      List.getD_eq_default bs 0 (n := i + 2) (by omega),
      List.getD_eq_default bs 0 (n := i + 3) (by omega)]
  · rw [List.getD_eq_default bs 0 (n := i) (by omega),
      List.getD_eq_default bs 0 (n := i + 1) (by omega),
      List.getD_eq_default bs 0 (n := i + 2) (by omega),
      List.getD_eq_default bs 0 (n := i + 3) (by omega)]

theorem windowValue_as_slice (bs : List Nat) (hv : ByteValid bs) (i : Nat) :
    windowValue bs i = sliceVal bs (8 * i) 32 := by
  have h8 : ∀ k, sliceVal bs (8 * i + 8 * k) 8 = bs.getD (i + k) 0 := by
    intro k
    rw [show 8 * i + 8 * k = 8 * (i + k) by ring]
    exact sliceVal_byte bs hv (i + k)
  have e0 := h8 0
  have e1 := h8 1
  have e2 := h8 2
  have e3 := h8 3
  rw [windowValue_getD]
  rw [show (32 : Nat) = 8 + 24 by norm_num, sliceVal_add,
    show (24 : Nat) = 8 + 16 by norm_num, sliceVal_add,
    show (16 : Nat) = 8 + 8 by norm_num, sliceVal_add]
  simp only [Nat.mul_zero, Nat.add_zero] at e0
  rw [show 8 * i + 8 + 8 = 8 * i + 8 * 2 by ring, show 8 * i + 8 = 8 * i + 8 * 1 by ring,
    show 8 * i + 8 * 2 + 8 = 8 * i + 8 * 3 by ring, e0, e1, e2, e3]
  unfold ofBe4
  ring

theorem bitMask_eq : ∀ n < 17, bitMask n = 2 ^ n - 1 := by
  decide

/-- The value the source computes from a 32-bit window is exactly the
`n`-bit slice of the padded bit stream starting at `s`. -/
theorem window_extract (bs : List Nat) (hv : ByteValid bs) (i s n : Nat)
    (hn : n < 17) (hlo : 8 * i ≤ s) (hhi : s + n ≤ 8 * i + 32) :
    (windowValue bs i >>> (i * 8 + 32 - (s + n))) &&& bitMask n = sliceVal bs s n := by
  rw [windowValue_as_slice bs hv i, bitMask_eq n hn]
  have hshift : i * 8 + 32 - (s + n) = 8 * i + 32 - (s + n) := by omega
  rw [hshift, Nat.shiftRight_eq_div_pow, Nat.and_pow_two_sub_one_eq_mod]
  set c := 8 * i + 32 - (s + n) with hc
  set a := s - 8 * i with ha
  have h32 : (32 : Nat) = a + (n + c) := by omega
  have hs : 8 * i + a = s := by omega
  rw [h32, sliceVal_add, hs, sliceVal_add]
  have hlt_c : sliceVal bs (s + n) c < 2 ^ c := sliceVal_lt bs _ _
  have hlt_n : sliceVal bs s n < 2 ^ n := sliceVal_lt bs _ _
  have hdiv :
      (sliceVal bs (8 * i) a * 2 ^ (n + c) + (sliceVal bs s n * 2 ^ c + sliceVal bs (s + n) c))
        / 2 ^ c = sliceVal bs (8 * i) a * 2 ^ n + sliceVal bs s n := by
    rw [pow_add,
      show sliceVal bs (8 * i) a * (2 ^ n * 2 ^ c) + (sliceVal bs s n * 2 ^ c + sliceVal bs (s + n) c)
        = 2 ^ c * (sliceVal bs (8 * i) a * 2 ^ n + sliceVal bs s n) + sliceVal bs (s + n) c by ring]
    rw [Nat.mul_add_div (Nat.pos_pow_of_pos c (by norm_num)),
      Nat.div_eq_of_lt hlt_c]
    omega
  rw [hdiv,
    show sliceVal bs (8 * i) a * 2 ^ n + sliceVal bs s n
      = 2 ^ n * sliceVal bs (8 * i) a + sliceVal bs s n by ring,
    Nat.mul_add_mod, Nat.mod_eq_of_lt hlt_n]

theorem chunkWhile_zero (bs : List Nat) (n i s : Nat) :
    chunkWhile bs n i 0 s = ([], s) := rfl

theorem chunkWhile_succ (bs : List Nat) (n i fuel s : Nat) :
    chunkWhile bs n i (fuel + 1) s =
      if 0 < n ∧ s + n ≤ i * 8 + 32 ∧ i * 8 + 32 < bs.length * 8 + n then
        (((windowValue bs i >>> (i * 8 + 32 - (s + n))) &&& bitMask n) ::
          (chunkWhile bs n i fuel (s + n)).1,
         (chunkWhile bs n i fuel (s + n)).2)
      else ([], s) := rfl

theorem chunkWhile_not_adm (bs : List Nat) (n i fuel s : Nat)
    (h : ¬ i * 8 + 32 < bs.length * 8 + n) :
    chunkWhile bs n i (fuel + 1) s = ([], s) := by
  rw [chunkWhile_succ, if_neg (by tauto)]

theorem chunkWhile_spec (bs : List Nat) (hv : ByteValid bs) (n i : Nat)
    (hn1 : 1 ≤ n) (hn2 : n ≤ 16) (hadm : i * 8 + 32 < bs.length * 8 + n) :
    ∀ fuel s, 8 * i ≤ s → s ≤ i * 8 + 32 → i * 8 + 32 - s < fuel * n →
    chunkWhile bs n i fuel s =
      ((List.range ((i * 8 + 32 - s) / n)).map (fun j => sliceVal bs (s + j * n) n),
       s + n * ((i * 8 + 32 - s) / n)) := by
  intro fuel
  induction fuel with
  | zero => intro s _ _ hfu; omega
  | succ fu ih =>
    intro s hlo hhi hfu
    have hmul : (fu + 1) * n = fu * n + n := by ring
    by_cases hrun : s + n ≤ i * 8 + 32
    · rw [chunkWhile_succ, if_pos ⟨by omega, hrun, hadm⟩,
        ih (s + n) (by omega) (by omega) (by omega)]
      have hq : (i * 8 + 32 - s) / n = (i * 8 + 32 - (s + n)) / n + 1 := by
        rw [Nat.div_eq_sub_div (by omega) (by omega)]
        congr 2
        omega
      dsimp only
      rw [Prod.mk.injEq]
      have hval : (windowValue bs i >>> (i * 8 + 32 - (s + n))) &&& bitMask n
          = sliceVal bs s n :=
        window_extract bs hv i s n (by omega) hlo (by omega)
      refine ⟨?_, ?_⟩
      · rw [hq, List.range_succ_eq_map, List.map_cons, hval]
        congr 1
        · rw [Nat.zero_mul, Nat.add_zero]
        · rw [List.map_map]
          exact List.map_congr_left (fun j _ => by
            dsimp only [Function.comp]
            congr 1
            rw [Nat.succ_eq_add_one, Nat.add_mul, Nat.one_mul]
            omega)
      · rw [hq]
        ring
    · rw [chunkWhile_succ, if_neg (by tauto)]
      rw [Nat.div_eq_of_lt (by omega), List.range_zero, List.map_nil,
        Nat.mul_zero, Nat.add_zero]

theorem chunkBlocks_nil (bs : List Nat) (n s : Nat) :
    chunkBlocks bs n [] s = ([], s, true) := rfl

theorem chunkBlocks_cons (bs : List Nat) (n i s : Nat) (is : List Nat) :
    chunkBlocks bs n (i :: is) s =
      ((chunkWhile bs n i 33 s).1 ++ (chunkBlocks bs n is (chunkWhile bs n i 33 s).2).1,
       (chunkBlocks bs n is (chunkWhile bs n i 33 s).2).2.1,
       decide (i * 8 ≤ s ∧ s ≤ i * 8 + 32) &&
         (chunkBlocks bs n is (chunkWhile bs n i 33 s).2).2.2) := rfl

/-- Once a block index is past the last admissible one, the remaining
blocks emit nothing and their assertions still hold. -/
theorem chunkBlocks_stall (bs : List Nat) (n : Nat) :
    ∀ (k i₀ s : Nat), ¬ i₀ * 8 + 32 < bs.length * 8 + n →
      s ≤ i₀ * 8 + 32 → 8 * (i₀ + k) ≤ s + 8 →
      chunkBlocks bs n (List.range' i₀ k) s = ([], s, true) := by
  intro k
  induction k with
  | zero => intro i₀ s _ _ _; rw [List.range'_zero, chunkBlocks_nil]
  | succ kk ih =>
    intro i₀ s hna hub hlb
    rw [List.range'_succ, chunkBlocks_cons, chunkWhile_not_adm bs n i₀ 32 s hna,
      ih (i₀ + 1) s (by omega) (by omega) (by omega)]
    simp only [List.append_nil, Bool.and_true]
    rw [decide_eq_true (by omega)]

theorem chunkBlocks_tail (bs : List Nat) (hv : ByteValid bs) (n : Nat)
    (hn1 : 1 ≤ n) (hn2 : n ≤ 16) :
    ∀ (k i₀ m : Nat), 1 ≤ i₀ → i₀ + k ≤ bs.length →
      i₀ * 8 + 24 < n * m + n → n * m ≤ i₀ * 8 + 24 →
      chunkBlocks bs n (List.range' i₀ k) (n * m) =
        ((List.range' m (chunkTailCount bs n k i₀ m - m)).map
            (fun j => sliceVal bs (j * n) n),
         n * chunkTailCount bs n k i₀ m, true) := by
  intro k
  induction k with
  | zero =>
    intro i₀ m _ _ _ _
    have hC : chunkTailCount bs n 0 i₀ m = m := by
      unfold chunkTailCount
      rw [if_neg (by tauto)]
    rw [List.range'_zero, chunkBlocks_nil, hC, Nat.sub_self, List.range'_zero, List.map_nil]
  | succ kk ih =>
    intro i₀ m h1 hklen hmlo hmhi
    by_cases hadm : i₀ * 8 + 32 < bs.length * 8 + n
    · -- block i₀ still emits; the while loop advances to slice index m + q
      have hrun := chunkWhile_spec bs hv n i₀ hn1 hn2 hadm 33 (n * m)
        (by omega) (by omega) (by omega)
      obtain ⟨q, hqdef⟩ : ∃ q, (i₀ * 8 + 32 - n * m) / n = q := ⟨_, rfl⟩
      rw [hqdef] at hrun
      have hdm := Nat.div_add_mod (i₀ * 8 + 32 - n * m) n
      have hmlt := Nat.mod_lt (i₀ * 8 + 32 - n * m) (show 0 < n by omega)
      rw [hqdef] at hdm
      have hq1 : n * m + n * q ≤ i₀ * 8 + 32 := by omega
      have hq2 : i₀ * 8 + 32 < n * m + n * q + n := by omega
      rw [List.range'_succ, chunkBlocks_cons, hrun]
      dsimp only
      have hstep : n * m + n * q = n * (m + q) := by ring
      rw [hstep, ih (i₀ + 1) (m + q) (by omega) (by omega) (by omega) (by omega)]
      have hCeval : (8 * i₀ + 32) / n = m + q := by
        have hnum : 8 * i₀ + 32 = n * (m + q) + (i₀ * 8 + 32 - n * m - n * q) := by omega
        rw [hnum, Nat.mul_add_div (by omega : 0 < n), Nat.div_eq_of_lt (by omega)]
        omega
      have hCeq : chunkTailCount bs n (kk + 1) i₀ m
          = chunkTailCount bs n kk (i₀ + 1) (m + q) := by
        unfold chunkTailCount lastAdm
        by_cases hkk : kk = 0
        · subst hkk
          rw [if_pos ⟨by omega, hadm⟩, if_neg (by tauto)]
          have hmin : min (i₀ + 1 - 1) ((8 * bs.length + n - 33) / 8) = i₀ := by omega
          rw [hmin, hCeval]
        · by_cases hadm1 : (i₀ + 1) * 8 + 32 < bs.length * 8 + n
          · rw [if_pos ⟨by omega, hadm⟩, if_pos ⟨hkk, hadm1⟩]
            have heq : i₀ + (kk + 1) - 1 = i₀ + 1 + kk - 1 := by omega
            rw [heq]
          · rw [if_pos ⟨by omega, hadm⟩, if_neg (by tauto)]
            have hmin : min (i₀ + (kk + 1) - 1) ((8 * bs.length + n - 33) / 8) = i₀ := by
              omega
            rw [hmin, hCeval]
      have hCge : m + q ≤ chunkTailCount bs n kk (i₀ + 1) (m + q) := by
        unfold chunkTailCount lastAdm
        split_ifs with hc
        · have hge : i₀ ≤ min (i₀ + 1 + kk - 1) ((8 * bs.length + n - 33) / 8) := by omega
          have hle : n * (m + q) ≤ 8 * min (i₀ + 1 + kk - 1) ((8 * bs.length + n - 33) / 8) + 32 := by
            omega
          calc m + q = n * (m + q) / n := by rw [Nat.mul_div_cancel_left _ (by omega : 0 < n)]
          _ ≤ _ := Nat.div_le_div_right hle
        · exact Nat.le_refl _
      rw [hCeq, Prod.mk.injEq, Prod.mk.injEq]
      refine ⟨?_, rfl, ?_⟩
      · dsimp only
        -- the while-loop values are the slices m, m+1, ..., m+q-1
        have hhead : List.map (fun j => sliceVal bs (n * m + j * n) n) (List.range q)
            = List.map (fun j => sliceVal bs (j * n) n) (List.range' m q) := by
          rw [List.range'_eq_map_range, List.map_map]
          exact List.map_congr_left (fun j _ => by
            dsimp only [Function.comp]
            congr 1
            ring)
        rw [hhead, ← List.map_append]
        congr 1
        have hsplit := List.range'_append_1 m q
          (chunkTailCount bs n kk (i₀ + 1) (m + q) - (m + q))
        have e2 : chunkTailCount bs n kk (i₀ + 1) (m + q) - (m + q) + q
            = chunkTailCount bs n kk (i₀ + 1) (m + q) - m := by omega
        rw [e2] at hsplit
        exact hsplit
      · rw [Bool.and_eq_true, decide_eq_true_eq]
        exact ⟨⟨by omega, by omega⟩, rfl⟩
    · -- block i₀ and everything after it is past the end: nothing is emitted
      have hC : chunkTailCount bs n (kk + 1) i₀ m = m := by
        unfold chunkTailCount
        rw [if_neg (by tauto)]
      rw [chunkBlocks_stall bs n (kk + 1) i₀ (n * m) hadm (by omega) (by omega),
        hC, Nat.sub_self, List.range'_zero, List.map_nil]


/-- Every value `bit_chunks` emits is masked to `n` bits. -/
theorem chunkWhile_mem_le (bs : List Nat) (n i : Nat) :
    ∀ fuel s v, v ∈ (chunkWhile bs n i fuel s).1 → v ≤ bitMask n := by
  intro fuel
  induction fuel with
  | zero => intro s v hv; rw [chunkWhile_zero] at hv; exact absurd hv (List.not_mem_nil v)
  | succ fu ih =>
    intro s v hv
    rw [chunkWhile_succ] at hv
    split_ifs at hv with hc
    · rcases List.mem_cons.mp hv with h | h
      · rw [h]; exact Nat.and_le_right
      · exact ih (s + n) v h
    · exact absurd hv (List.not_mem_nil v)

theorem chunkBlocks_mem_le (bs : List Nat) (n : Nat) :
    ∀ is s v, v ∈ (chunkBlocks bs n is s).1 → v ≤ bitMask n := by
  intro is
  induction is with
  | nil => intro s v hv; rw [chunkBlocks_nil] at hv; exact absurd hv (List.not_mem_nil v)
  | cons i rest ih =>
    intro s v hv
    rw [chunkBlocks_cons] at hv
    rcases List.mem_append.mp hv with h | h
    · exact chunkWhile_mem_le bs n i 33 s v h
    · exact ih _ v h

theorem bitChunks_values_lt (bs : List Nat) (n : Nat) (hn : n < 17) :
    ∀ v ∈ bitChunks bs n, v < 2 ^ n := by
  intro v hv
  have := chunkBlocks_mem_le bs n (List.range bs.length) 0 v hv
  rw [bitMask_eq n hn] at this
  have hpos : 0 < 2 ^ n := Nat.pos_pow_of_pos n (by norm_num)
  omega

/-- Full characterization of `bit_chunks` for widths `1..16` on inputs
with at least `33 - n` bits: the emitted values are the consecutive
`n`-bit slices of the zero padded bit stream, there are
`(8 * len + pad) / n` of them with `pad = 0` for `n <= 8` and `pad = 8`
for `n >= 9`, and no source assertion fires. -/
theorem bitChunks_spec (bs : List Nat) (hv : ByteValid bs) (n : Nat)
    (hn1 : 1 ≤ n) (hn2 : n ≤ 16) (hA : 33 ≤ 8 * bs.length + n) :
    bitChunks bs n =
      (List.range ((8 * bs.length + (if n ≤ 8 then 0 else 8)) / n)).map
        (fun j => sliceVal bs (j * n) n) ∧
    bitChunksAssertsOk bs n = true := by
  have hL : 3 ≤ bs.length := by omega
  have hrange : List.range bs.length = 0 :: List.range' 1 (bs.length - 1) := by
    conv_lhs => rw [List.range_eq_range',
      show bs.length = (bs.length - 1) + 1 from by omega, List.range'_succ]
  have hadm0 : 0 * 8 + 32 < bs.length * 8 + n := by omega
  have hrun0 := chunkWhile_spec bs hv n 0 hn1 hn2 hadm0 33 0 (by omega) (by omega)
    (by omega)
  have hnorm : 0 * 8 + 32 - 0 = 32 := by norm_num
  rw [hnorm] at hrun0
  obtain ⟨m0, hm0⟩ : ∃ m0, 32 / n = m0 := ⟨_, rfl⟩
  rw [hm0] at hrun0
  have hdm0 := Nat.div_add_mod 32 n
  have hmlt0 := Nat.mod_lt 32 (show 0 < n by omega)
  rw [hm0] at hdm0
  have htail := chunkBlocks_tail bs hv n hn1 hn2 (bs.length - 1) 1 m0
    (by omega) (by omega) (by omega) (by omega)
  have hfin0 : (0 : Nat) + n * m0 = n * m0 := by omega
  unfold bitChunks bitChunksAssertsOk
  rw [hrange, chunkBlocks_cons, hrun0]
  dsimp only
  rw [hfin0, htail]
  dsimp only
  have hCge : m0 ≤ chunkTailCount bs n (bs.length - 1) 1 m0 := by
    unfold chunkTailCount lastAdm
    split_ifs with hc
    · have hge : 1 ≤ min (1 + (bs.length - 1) - 1) ((8 * bs.length + n - 33) / 8) := by
        omega
      have hle : n * m0 ≤ 8 * min (1 + (bs.length - 1) - 1) ((8 * bs.length + n - 33) / 8) + 32 := by
        omega
      calc m0 = n * m0 / n := by rw [Nat.mul_div_cancel_left _ (by omega : 0 < n)]
      _ ≤ _ := Nat.div_le_div_right hle
    · exact Nat.le_refl _
  have hCfinal : chunkTailCount bs n (bs.length - 1) 1 m0
      = (8 * bs.length + (if n ≤ 8 then 0 else 8)) / n := by
    unfold chunkTailCount lastAdm
    by_cases hadm1 : 1 * 8 + 32 < bs.length * 8 + n
    · rw [if_pos ⟨by omega, hadm1⟩]
      congr 1
      by_cases hn8 : n ≤ 8
      · rw [if_pos hn8]; omega
      · rw [if_neg hn8]; omega
    · rw [if_neg (by tauto)]
      have hnum : 8 * bs.length + (if n ≤ 8 then 0 else 8) = 32 := by
        by_cases hn8 : n ≤ 8
        · rw [if_pos hn8]; omega
        · rw [if_neg hn8]; omega
      rw [hnum, hm0]
  constructor
  · rw [hCfinal] at hCge ⊢
    have hhead : List.map (fun j => sliceVal bs (0 + j * n) n) (List.range m0)
        = List.map (fun j => sliceVal bs (j * n) n) (List.range' 0 m0) := by
      rw [List.range'_eq_map_range, List.map_map]
      exact List.map_congr_left (fun j _ => by
        dsimp only [Function.comp]
        congr 1
        ring)
    rw [hhead, ← List.map_append]
    have hsplit := List.range'_append_1 0 m0
      ((8 * bs.length + (if n ≤ 8 then 0 else 8)) / n - m0)
    have e2 : (8 * bs.length + (if n ≤ 8 then 0 else 8)) / n - m0 + m0
        = (8 * bs.length + (if n ≤ 8 then 0 else 8)) / n := by omega
    rw [Nat.zero_add, e2] at hsplit
    rw [hsplit, List.range_eq_range']
  · rw [Bool.and_eq_true, decide_eq_true_eq]
    exact ⟨⟨by omega, by omega⟩, rfl⟩


/-! ## UTF-8 round trip -/

theorem utf8Char_ne_nil (c : Nat) : utf8Char c ≠ [] := by
  unfold utf8Char
  split_ifs <;> simp

theorem utf8Char_length_le (c : Nat) : (utf8Char c).length ≤ 4 := by
  unfold utf8Char
  split_ifs <;> simp

theorem utf8DecodeChar_encode (c : Nat) (hc : ScalarValue c) (rest : List Nat) :
    utf8DecodeChar (utf8Char c ++ rest) = some (c, rest) := by
  unfold ScalarValue at hc
  unfold utf8Char
  split_ifs with h1 h2 h3
  · simp only [List.cons_append, List.nil_append, utf8DecodeChar]
    rw [if_pos h1]
  · simp only [List.cons_append, List.nil_append, utf8DecodeChar]
    rw [if_neg (by omega), if_neg (by omega), if_pos (by omega), if_pos ⟨by omega, by omega⟩]
    have hval : (0xC0 + c / 64 - 0xC0) * 64 + (0x80 + c % 64 - 0x80) = c := by omega
    rw [hval]
  · simp only [List.cons_append, List.nil_append, utf8DecodeChar]
    rw [if_neg (by omega), if_neg (by omega), if_neg (by omega), if_pos (by omega),
      if_pos ⟨by omega, by omega, by omega, by omega⟩]
    have hval : (0xE0 + c / 4096 - 0xE0) * 4096 + (0x80 + c / 64 % 64 - 0x80) * 64
        + (0x80 + c % 64 - 0x80) = c := by omega
    rw [hval, if_pos ⟨by omega, by omega⟩]
  · simp only [List.cons_append, List.nil_append, utf8DecodeChar]
    rw [if_neg (by omega), if_neg (by omega), if_neg (by omega), if_neg (by omega),
      if_pos (by omega),
      if_pos ⟨by omega, by omega, by omega, by omega, by omega, by omega⟩]
    have hval : (0xF0 + c / 262144 - 0xF0) * 262144 + (0x80 + c / 4096 % 64 - 0x80) * 4096
        + (0x80 + c / 64 % 64 - 0x80) * 64 + (0x80 + c % 64 - 0x80) = c := by omega
    rw [hval, if_pos ⟨by omega, by omega⟩]

theorem utf8DecodeAux_nil (fuel : Nat) : utf8DecodeAux fuel [] = some [] := by
  cases fuel <;> rfl

theorem utf8DecodeAux_succ (fuel b : Nat) (bs : List Nat) :
    utf8DecodeAux (fuel + 1) (b :: bs) =
      match utf8DecodeChar (b :: bs) with
      | some (c, rest) => (utf8DecodeAux fuel rest).map (fun cs => c :: cs)
      | none => none := rfl

theorem utf8DecodeAux_encode (cs : List Nat) :
    ∀ fuel, (∀ c ∈ cs, ScalarValue c) → (utf8Encode cs).length ≤ fuel →
      utf8DecodeAux fuel (utf8Encode cs) = some cs := by
  induction cs with
  | nil => intro fuel _ _; exact utf8DecodeAux_nil fuel
  | cons c cs ih =>
    intro fuel hsc hfu
    have henc : utf8Encode (c :: cs) = utf8Char c ++ utf8Encode cs := by
      unfold utf8Encode
      rw [List.flatMap_cons]
    obtain ⟨hd, tl, hsh⟩ : ∃ hd tl, utf8Char c = hd :: tl := by
      cases hch : utf8Char c with
      | nil => exact absurd hch (utf8Char_ne_nil c)
      | cons hd tl => exact ⟨hd, tl, rfl⟩
    rw [henc] at hfu ⊢
    have hlen : 1 ≤ (utf8Char c).length := by rw [hsh]; simp
    rw [List.length_append] at hfu
    obtain ⟨fu, rfl⟩ : ∃ fu, fuel = fu + 1 := ⟨fuel - 1, by omega⟩
    rw [hsh, List.cons_append, utf8DecodeAux_succ, ← List.cons_append, ← hsh,
      utf8DecodeChar_encode c (hsc c (List.mem_cons_self c cs)) (utf8Encode cs)]
    dsimp only
    rw [ih fu (fun x hx => hsc x (List.mem_cons_of_mem c hx)) (by omega)]
    rfl

theorem utf8Decode_encode (cs : List Nat) (hsc : ∀ c ∈ cs, ScalarValue c) :
    utf8Decode (utf8Encode cs) = some cs :=
  utf8DecodeAux_encode cs (utf8Encode cs).length hsc (Nat.le_refl _)


/-! ## Grid and traversal facts -/

theorem getD_set_self {α : Type} (l : List α) (i : Nat) (h : i < l.length) (v d : α) :
    (l.set i v).getD i d = v := by
  rw [List.getD_eq_getElem?_getD, List.getElem?_set_self h]
  rfl

theorem getD_set_ne {α : Type} (l : List α) (i j : Nat) (h : i ≠ j) (v d : α) :
    (l.set i v).getD j d = l.getD j d := by
  rw [List.getD_eq_getElem?_getD, List.getElem?_set_ne h, ← List.getD_eq_getElem?_getD]

theorem mem_pairsCR (c r : Nat) : (c, r) ∈ pairsCR ↔ c < 7 ∧ r < 7 := by
  unfold pairsCR
  simp only [List.mem_flatMap, List.mem_map, List.mem_range, Prod.mk.injEq]
  constructor
  · rintro ⟨col, hcol, row, hrow, hc, hr⟩
    omega
  · rintro ⟨hc, hr⟩
    exact ⟨c, hc, r, hr, rfl, rfl⟩

theorem indicesMask_getD : ∀ c < 7, indicesMask.getD c 0 = 2 ^ (6 - c) := by
  decide

theorem cellAt_setCell_self {α : Type} (g : List (List (Option α))) (hwf : GridWF g)
    (r c : Nat) (hr : r < 7) (hc : c < 7) (v : Option α) :
    cellAt (setCell g r c v) r c = v := by
  unfold cellAt setCell
  have hglen : g.length = 7 := hwf.1
  have hrow : g.getD r [] ∈ g := by
    rw [List.getD_eq_getElem g [] (by omega)]
    exact List.getElem_mem _
  have hlen : (g.getD r []).length = 7 := hwf.2 _ hrow
  rw [getD_set_self g r (by omega) _ [], getD_set_self _ c (by omega) _ none]

theorem cellAt_setCell_ne {α : Type} (g : List (List (Option α))) (r c r' c' : Nat)
    (h : r ≠ r' ∨ c ≠ c') (v : Option α) :
    cellAt (setCell g r c v) r' c' = cellAt g r' c' := by
  unfold cellAt setCell
  rcases h with h | h
  · rw [getD_set_ne g r r' h _ []]
  · by_cases hr : r = r'
    · subst hr
      by_cases hrl : r < g.length
      · rw [getD_set_self g r hrl _ [], getD_set_ne _ c c' h _ none]
      · rw [List.set_eq_of_length_le (by omega)]
    · rw [getD_set_ne g r r' hr _ []]

theorem setCell_wf {α : Type} (g : List (List (Option α))) (hwf : GridWF g) (r c : Nat)
    (v : Option α) : GridWF (setCell g r c v) := by
  unfold setCell
  by_cases hrl : r < g.length
  · constructor
    · rw [List.length_set]; exact hwf.1
    · intro row hrow
      rcases List.mem_or_eq_of_mem_set hrow with h | h
      · exact hwf.2 _ h
      · rw [h, List.length_set]
        exact hwf.2 _ (by rw [List.getD_eq_getElem g [] hrl]; exact List.getElem_mem _)
  · rw [List.set_eq_of_length_le (by omega)]
    exact hwf

theorem emptyGrid_wf {α : Type} : GridWF (emptyGrid (α := α)) := by
  unfold GridWF emptyGrid
  constructor
  · rw [List.length_replicate]
  · intro row hrow
    rw [List.eq_of_mem_replicate hrow, List.length_replicate]

theorem cellAt_emptyGrid {α : Type} (r c : Nat) : cellAt (emptyGrid (α := α)) r c = none := by
  unfold cellAt emptyGrid
  by_cases hr : r < 7
  · rw [List.getD_eq_getElem _ [] (by rw [List.length_replicate]; omega),
      List.getElem_replicate]
    by_cases hc : c < 7
    · rw [List.getD_eq_getElem _ none (by rw [List.length_replicate]; omega),
        List.getElem_replicate]
    · rw [List.getD_eq_default _ none (by rw [List.length_replicate]; omega)]
  · rw [List.getD_eq_default _ [] (by rw [List.length_replicate]; omega), List.getD_nil]

theorem gridExt {α : Type} (g1 g2 : List (List (Option α))) (h1 : GridWF g1) (h2 : GridWF g2)
    (h : ∀ r < 7, ∀ c < 7, cellAt g1 r c = cellAt g2 r c) : g1 = g2 := by
  apply List.ext_getElem (by rw [h1.1, h2.1])
  intro r hr1 hr2
  have hr : r < 7 := by rw [h1.1] at hr1; exact hr1
  apply List.ext_getElem
  · rw [h1.2 _ (List.getElem_mem _), h2.2 _ (List.getElem_mem _)]
  · intro c hc1 hc2
    have hc : c < 7 := by rw [h1.2 _ (List.getElem_mem _)] at hc1; exact hc1
    have e1 : g1[r][c] = cellAt g1 r c := by
      unfold cellAt
      rw [List.getD_eq_getElem g1 [] (by omega), List.getD_eq_getElem _ none (by
        rw [h1.2 _ (List.getElem_mem _)]; omega)]
    have e2 : g2[r][c] = cellAt g2 r c := by
      unfold cellAt
      rw [List.getD_eq_getElem g2 [] (by omega), List.getD_eq_getElem _ none (by
        rw [h2.2 _ (List.getElem_mem _)]; omega)]
    rw [e1, e2, h r hr c hc]



theorem orFold_cons {α : Type} (g : List (List (Option α))) (p : Nat × Nat)
    (ps : List (Nat × Nat)) (ind : List Nat) :
    orFold g (p :: ps) ind
      = orFold g ps (match cellAt g p.2 p.1 with
          | some _ => ind.set p.2 (ind.getD p.2 0 ||| indicesMask.getD p.1 0)
          | none => ind) := rfl

theorem collect_split (g : List (List (Option Nat))) :
    ∀ (ps : List (Nat × Nat)) (acc : List Nat × List Nat),
      ps.foldl (collectStep g) acc
        = (acc.1 ++ ps.filterMap (fun p => cellAt g p.2 p.1), orFold g ps acc.2) := by
  intro ps
  induction ps with
  | nil =>
    intro acc
    rw [List.foldl_nil, List.filterMap_nil, List.append_nil]
    rfl
  | cons p ps ih =>
    intro acc
    rw [List.foldl_cons, List.filterMap_cons, ih (collectStep g acc p), orFold_cons]
    cases hcell : cellAt g p.2 p.1 with
    | some v =>
      have hstep : collectStep g acc p
          = (acc.1 ++ [v], acc.2.set p.2 (acc.2.getD p.2 0 ||| indicesMask.getD p.1 0)) := by
        unfold collectStep
        rw [hcell]
      rw [hstep]
      dsimp only
      rw [List.append_assoc]
      rfl
    | none =>
      have hstep : collectStep g acc p = acc := by
        unfold collectStep
        rw [hcell]
      rw [hstep]

theorem orFold_length {α : Type} (g : List (List (Option α))) :
    ∀ (ps : List (Nat × Nat)) (ind : List Nat),
      (orFold g ps ind).length = ind.length := by
  intro ps
  induction ps with
  | nil => intro ind; rfl
  | cons p ps ih =>
    intro ind
    rw [orFold_cons]
    cases hcell : cellAt g p.2 p.1 with
    | some v =>
      dsimp only
      rw [ih, List.length_set]
    | none =>
      dsimp only
      exact ih ind

theorem orFold_testBit {α : Type} (g : List (List (Option α))) :
    ∀ (ps : List (Nat × Nat)) (ind : List Nat), (∀ p ∈ ps, p.1 < 7) →
      ∀ row k, row < ind.length →
        (((orFold g ps ind).getD row 0).testBit k
          ↔ (((ind.getD row 0).testBit k) ∨
              ∃ c, c < 7 ∧ (c, row) ∈ ps ∧ (cellAt g row c).isSome ∧ c + k = 6)) := by
  intro ps
  induction ps with
  | nil =>
    intro ind _ row k _
    constructor
    · intro h; exact Or.inl h
    · rintro (h | ⟨c, _, hmem, _, _⟩)
      · exact h
      · exact absurd hmem (List.not_mem_nil _)
  | cons p ps ih =>
    intro ind hps row k hrow
    obtain ⟨pc, pr⟩ := p
    have hpc : pc < 7 := hps (pc, pr) (List.mem_cons_self _ _)
    rw [orFold_cons]
    cases hcell : cellAt g pr pc with
    | some v =>
      dsimp only
      rw [ih (ind.set pr (ind.getD pr 0 ||| indicesMask.getD pc 0))
        (fun q hq => hps q (List.mem_cons_of_mem _ hq)) row k
        (by rw [List.length_set]; exact hrow)]
      by_cases hpr : pr = row
      · subst hpr
        rw [getD_set_self ind pr hrow _ 0, Nat.testBit_or, indicesMask_getD pc hpc]
        constructor
        · rintro (h | h)
          · rcases Bool.or_eq_true_iff.mp h with h | h
            · exact Or.inl h
            · right
              refine ⟨pc, hpc, List.mem_cons_self _ _, by rw [hcell]; rfl, ?_⟩
              rw [Nat.testBit_two_pow] at h
              have hk : 6 - pc = k := of_decide_eq_true h
              omega
          · rcases h with ⟨c, hc, hmem, hsome, hck⟩
            exact Or.inr ⟨c, hc, List.mem_cons_of_mem _ hmem, hsome, hck⟩
        · rintro (h | ⟨c, hc, hmem, hsome, hck⟩)
          · left
            rw [Bool.or_eq_true_iff]
            exact Or.inl h
          · rcases List.mem_cons.mp hmem with heq | hmem2
            · left
              rw [Bool.or_eq_true_iff]
              right
              have hcpc : c = pc := congrArg Prod.fst heq
              rw [Nat.testBit_two_pow]
              exact decide_eq_true (by omega)
            · exact Or.inr ⟨c, hc, hmem2, hsome, hck⟩
      · rw [getD_set_ne ind pr row hpr _ 0]
        constructor
        · rintro (h | ⟨c, hc, hmem, hsome, hck⟩)
          · exact Or.inl h
          · exact Or.inr ⟨c, hc, List.mem_cons_of_mem _ hmem, hsome, hck⟩
        · rintro (h | ⟨c, hc, hmem, hsome, hck⟩)
          · exact Or.inl h
          · rcases List.mem_cons.mp hmem with heq | hmem2
            · exact absurd (congrArg Prod.snd heq).symm hpr
            · exact Or.inr ⟨c, hc, hmem2, hsome, hck⟩
    | none =>
      dsimp only
      rw [ih ind (fun q hq => hps q (List.mem_cons_of_mem _ hq)) row k hrow]
      constructor
      · rintro (h | ⟨c, hc, hmem, hsome, hck⟩)
        · exact Or.inl h
        · exact Or.inr ⟨c, hc, List.mem_cons_of_mem _ hmem, hsome, hck⟩
      · rintro (h | ⟨c, hc, hmem, hsome, hck⟩)
        · exact Or.inl h
        · rcases List.mem_cons.mp hmem with heq | hmem2
          · exfalso
            have hc1 : c = pc := congrArg Prod.fst heq
            have hc2 : row = pr := congrArg Prod.snd heq
            rw [hc1, hc2, hcell] at hsome
            exact Bool.false_ne_true hsome
          · exact Or.inr ⟨c, hc, hmem2, hsome, hck⟩


theorem writeFold_cons {α : Type} (g : List (List (Option α))) (p : Nat × Nat)
    (ps : List (Nat × Nat)) (g₀ : List (List (Option α))) :
    writeFold g (p :: ps) g₀
      = writeFold g ps (match cellAt g p.2 p.1 with
          | some v => setCell g₀ p.2 p.1 (some v)
          | none => g₀) := rfl

theorem writeFold_wf {α : Type} (g : List (List (Option α))) :
    ∀ (ps : List (Nat × Nat)) (g₀ : List (List (Option α))), GridWF g₀ →
      GridWF (writeFold g ps g₀) := by
  intro ps
  induction ps with
  | nil => intro g₀ h; exact h
  | cons p ps ih =>
    intro g₀ h
    rw [writeFold_cons]
    cases hcell : cellAt g p.2 p.1 with
    | some v =>
      dsimp only
      exact ih _ (setCell_wf g₀ h p.2 p.1 (some v))
    | none =>
      dsimp only
      exact ih _ h

theorem writeFold_cellAt {α : Type} (g : List (List (Option α))) :
    ∀ (ps : List (Nat × Nat)) (g₀ : List (List (Option α))) (r c : Nat),
      GridWF g₀ → r < 7 → c < 7 →
      cellAt (writeFold g ps g₀) r c
        = if (c, r) ∈ ps ∧ (cellAt g r c).isSome then cellAt g r c
          else cellAt g₀ r c := by
  intro ps
  induction ps with
  | nil =>
    intro g₀ r c _ _ _
    rw [if_neg (by rintro ⟨hmem, _⟩; exact List.not_mem_nil _ hmem)]
    rfl
  | cons p ps ih =>
    intro g₀ r c hwf hr hc
    obtain ⟨pc, pr⟩ := p
    rw [writeFold_cons]
    cases hcell : cellAt g pr pc with
    | some v =>
      dsimp only
      rw [ih (setCell g₀ pr pc (some v)) r c (setCell_wf g₀ hwf pr pc (some v)) hr hc]
      by_cases hmem : (c, r) ∈ ps ∧ (cellAt g r c).isSome
      · rw [if_pos hmem, if_pos ⟨List.mem_cons_of_mem _ hmem.1, hmem.2⟩]
      · rw [if_neg hmem]
        by_cases hhd : pr = r ∧ pc = c
        · obtain ⟨he1, he2⟩ := hhd
          subst he1
          subst he2
          rw [if_pos ⟨List.mem_cons_self _ _, by rw [hcell]; rfl⟩]
          rw [cellAt_setCell_self g₀ hwf pr pc hr hc, hcell]
        · rw [cellAt_setCell_ne g₀ pr pc r c (by tauto) (some v)]
          rw [if_neg (by
            rintro ⟨hmem2, hsome2⟩
            rcases List.mem_cons.mp hmem2 with heq | hmem3
            · exact hhd ⟨(congrArg Prod.snd heq).symm, (congrArg Prod.fst heq).symm⟩
            · exact hmem ⟨hmem3, hsome2⟩)]
    | none =>
      dsimp only
      rw [ih g₀ r c hwf hr hc]
      by_cases hmem : (c, r) ∈ ps ∧ (cellAt g r c).isSome
      · rw [if_pos hmem, if_pos ⟨List.mem_cons_of_mem _ hmem.1, hmem.2⟩]
      · rw [if_neg hmem, if_neg (by
          rintro ⟨hmem2, hsome2⟩
          rcases List.mem_cons.mp hmem2 with heq | hmem3
          · have hc1 : c = pc := congrArg Prod.fst heq
            have hc2 : r = pr := congrArg Prod.snd heq
            rw [hc1, hc2, hcell] at hsome2
            exact Bool.false_ne_true hsome2
          · exact hmem ⟨hmem3, hsome2⟩)]

theorem simpleFill_spec (g : List (List (Option Nat))) (ind : List Nat) :
    ∀ (ps : List (Nat × Nat)) (g₀ : List (List (Option Nat))),
      (∀ p ∈ ps, ((ind.getD p.2 0 &&& indicesMask.getD p.1 0 > 0)
        ↔ (cellAt g p.2 p.1).isSome)) →
      simpleFill ind ps ((ps.filterMap (fun p => cellAt g p.2 p.1)).reverse) g₀
        = some (writeFold g ps g₀, []) := by
  intro ps
  induction ps with
  | nil => intro g₀ _; rfl
  | cons p ps ih =>
    intro g₀ htest
    obtain ⟨pc, pr⟩ := p
    rw [List.filterMap_cons, writeFold_cons]
    cases hcell : cellAt g pr pc with
    | some v =>
      dsimp only
      have htst : ind.getD pr 0 &&& indicesMask.getD pc 0 > 0 := by
        have := (htest (pc, pr) (List.mem_cons_self _ _)).mpr
        rw [hcell] at this
        exact this rfl
      unfold simpleFill
      rw [if_pos htst]
      have hlast : ((v :: ps.filterMap (fun p => cellAt g p.2 p.1)).reverse).getLast?
          = some v := by
        rw [List.getLast?_reverse]
        rfl
      rw [hlast]
      have hdrop : ((v :: ps.filterMap (fun p => cellAt g p.2 p.1)).reverse).dropLast
          = (ps.filterMap (fun p => cellAt g p.2 p.1)).reverse := by
        have := List.tail_reverse (v :: ps.filterMap (fun p => cellAt g p.2 p.1)).reverse
        rw [List.reverse_reverse] at this
        have h2 : ((v :: ps.filterMap (fun p => cellAt g p.2 p.1)).reverse.dropLast).reverse
            = ps.filterMap (fun p => cellAt g p.2 p.1) := by
          rw [← this]
          rfl
        calc (v :: ps.filterMap (fun p => cellAt g p.2 p.1)).reverse.dropLast
            = (((v :: ps.filterMap (fun p => cellAt g p.2 p.1)).reverse.dropLast).reverse).reverse := by
              rw [List.reverse_reverse]
          _ = (ps.filterMap (fun p => cellAt g p.2 p.1)).reverse := by rw [h2]
      rw [hdrop]
      exact ih (setCell g₀ pr pc (some v)) (fun q hq => htest q (List.mem_cons_of_mem _ hq))
    | none =>
      dsimp only
      have htst : ¬ (ind.getD pr 0 &&& indicesMask.getD pc 0 > 0) := by
        intro hcon
        have := (htest (pc, pr) (List.mem_cons_self _ _)).mp hcon
        rw [hcell] at this
        exact Bool.false_ne_true this
      unfold simpleFill
      rw [if_neg htst]
      exact ih g₀ (fun q hq => htest q (List.mem_cons_of_mem _ hq))



theorem utf8Encode_cons (c : Nat) (cs : List Nat) :
    utf8Encode (c :: cs) = utf8Char c ++ utf8Encode cs := by
  unfold utf8Encode
  rw [List.flatMap_cons]

theorem utf8Encode_length_pos (c : Nat) (cs : List Nat) :
    1 ≤ (utf8Encode (c :: cs)).length := by
  rw [utf8Encode_cons, List.length_append]
  have := utf8Char_ne_nil c
  have : 1 ≤ (utf8Char c).length := by
    cases h : utf8Char c with
    | nil => exact absurd h (utf8Char_ne_nil c)
    | cons a l => rw [List.length_cons]; omega
  omega

theorem simpleCollect_eq (g : List (List (Option Nat))) :
    simpleCollect g
      = (pairsCR.reverse.filterMap (fun p => cellAt g p.2 p.1),
         orFold g pairsCR.reverse (List.replicate 7 0)) := by
  unfold simpleCollect
  rw [collect_split g pairsCR.reverse ([], List.replicate 7 0)]
  rw [List.nil_append]

theorem simpleIndices_len {α : Type} (g : List (List (Option α))) :
    (orFold g pairsCR.reverse (List.replicate 7 0)).length = 7 := by
  rw [orFold_length, List.length_replicate]

theorem replicate_getD_zero (row : Nat) : (List.replicate 7 (0 : Nat)).getD row 0 = 0 := by
  by_cases h : row < 7
  · rw [List.getD_eq_getElem _ 0 (by rw [List.length_replicate]; omega), List.getElem_replicate]
  · rw [List.getD_eq_default _ 0 (by rw [List.length_replicate]; omega)]

theorem simpleIndices_testBit {α : Type} (g : List (List (Option α))) (row k : Nat) (hrow : row < 7) :
    (((orFold g pairsCR.reverse (List.replicate 7 0)).getD row 0).testBit k
      ↔ ∃ c, c < 7 ∧ (cellAt g row c).isSome ∧ c + k = 6) := by
  rw [orFold_testBit g pairsCR.reverse (List.replicate 7 0)
    (fun p hp => ((mem_pairsCR p.1 p.2).mp (List.mem_reverse.mp hp)).1) row k
    (by rw [List.length_replicate]; omega)]
  rw [replicate_getD_zero, Nat.zero_testBit]
  constructor
  · rintro (h | ⟨c, hc, _, hsome, hck⟩)
    · exact absurd h Bool.false_ne_true
    · exact ⟨c, hc, hsome, hck⟩
  · rintro ⟨c, hc, hsome, hck⟩
    exact Or.inr ⟨c, hc, List.mem_reverse.mpr ((mem_pairsCR c row).mpr ⟨hc, hrow⟩),
      hsome, hck⟩

theorem simpleIndices_test {α : Type} (g : List (List (Option α))) (row col : Nat)
    (hrow : row < 7) (hcol : col < 7) :
    ((orFold g pairsCR.reverse (List.replicate 7 0)).getD row 0
        &&& indicesMask.getD col 0 > 0
      ↔ (cellAt g row col).isSome) := by
  rw [indicesMask_getD col hcol, Nat.and_two_pow]
  constructor
  · intro h
    have htb : ((orFold g pairsCR.reverse (List.replicate 7 0)).getD row 0).testBit (6 - col)
        = true := by
      by_contra hcon
      rw [Bool.not_eq_true] at hcon
      rw [hcon] at h
      simp at h
    obtain ⟨c, hc, hsome, hck⟩ := (simpleIndices_testBit g row (6 - col) hrow).mp htb
    have : c = col := by omega
    rw [← this]
    exact hsome
  · intro h
    have htb := (simpleIndices_testBit g row (6 - col) hrow).mpr ⟨col, hcol, h, by omega⟩
    rw [htb]
    have : 0 < 2 ^ (6 - col) := Nat.pos_pow_of_pos _ (by norm_num)
    simp

theorem simpleIndices_version {α : Type} (g : List (List (Option α))) (v : Nat)
    (hv : v ∈ orFold g pairsCR.reverse (List.replicate 7 0)) :
    v &&& versionMask = 0 := by
  obtain ⟨row, hlt, hget⟩ := List.mem_iff_getElem.mp hv
  have hrow : row < 7 := by
    have := simpleIndices_len g
    omega
  have hgetD : (orFold g pairsCR.reverse (List.replicate 7 0)).getD row 0 = v := by
    rw [List.getD_eq_getElem _ 0 hlt, hget]
  have htb : v.testBit 7 = false := by
    by_contra hcon
    rw [Bool.not_eq_false] at hcon
    rw [← hgetD] at hcon
    obtain ⟨c, hc, _, hck⟩ := (simpleIndices_testBit g row 7 hrow).mp hcon
    omega
  have : versionMask = 2 ^ 7 := rfl
  rw [this, Nat.and_two_pow, htb]
  rfl

theorem simpleIsEmpty_false (g : List (List (Option Nat))) (hwf : GridWF g)
    (hne : simpleIsEmpty g = false) :
    ∃ r c, r < 7 ∧ c < 7 ∧ (cellAt g r c).isSome := by
  unfold simpleIsEmpty at hne
  rw [List.all_eq_false] at hne
  obtain ⟨row, hrowmem, hrow⟩ := hne
  rw [Bool.not_eq_true] at hrow
  rw [List.all_eq_false] at hrow
  obtain ⟨v, hvmem, hvnone⟩ := hrow
  obtain ⟨r, hr, hrget⟩ := List.mem_iff_getElem.mp hrowmem
  obtain ⟨c, hc, hcget⟩ := List.mem_iff_getElem.mp hvmem
  have hr7 : r < 7 := by rw [hwf.1] at hr; exact hr
  have hc7 : c < 7 := by rw [hwf.2 row hrowmem] at hc; exact hc
  refine ⟨r, c, hr7, hc7, ?_⟩
  unfold cellAt
  rw [List.getD_eq_getElem g [] hr, hrget, List.getD_eq_getElem row none hc, hcget]
  cases v with
  | none => exact absurd rfl hvnone
  | some x => rfl


/-- Decoding inverts encoding for the Simple layout: the shared
round-trip engine for the claims below. -/
theorem simple_roundtrip (sha0 : List Nat → Nat) (g : List (List (Option Nat)))
    (hwf : GridWF g) (hsc : CellsScalar g) (hne : simpleIsEmpty g = false) :
    ∀ s, simpleToSecret sha0 g = .ok s → simpleFromSecret sha0 s = .ok g := by
  intro s hs
  unfold simpleToSecret at hs
  rw [hne] at hs
  simp only [Bool.false_eq_true, if_false] at hs
  rw [simpleCollect_eq] at hs
  dsimp only at hs
  set fm := pairsCR.reverse.filterMap (fun p => cellAt g p.2 p.1) with hfm
  set I := orFold g pairsCR.reverse (List.replicate 7 0) with hI
  set B := utf8Encode fm ++ I with hB
  have hsval : s = B ++ [sha0 B] := by
    cases hs
    rfl
  subst hsval
  -- basic lengths
  have hIlen : I.length = 7 := simpleIndices_len g
  obtain ⟨r0, c0, hr0, hc0, hp0⟩ := simpleIsEmpty_false g hwf hne
  have hfm_ne : fm ≠ [] := by
    intro hcon
    obtain ⟨v0, hv0⟩ := Option.isSome_iff_exists.mp hp0
    have : v0 ∈ fm := by
      rw [hfm]
      exact List.mem_filterMap.mpr ⟨(c0, r0),
        List.mem_reverse.mpr ((mem_pairsCR c0 r0).mpr ⟨hc0, hr0⟩), hv0⟩
    rw [hcon] at this
    exact List.not_mem_nil _ this
  have hElen : 1 ≤ (utf8Encode fm).length := by
    cases hfmv : fm with
    | nil => exact absurd hfmv hfm_ne
    | cons c cs => exact utf8Encode_length_pos c cs
  have hBlen : B.length = (utf8Encode fm).length + 7 := by
    rw [hB, List.length_append, hIlen]
  have hdrop : B.drop (B.length - 7) = I := by
    rw [hB, hBlen]
    have he : (utf8Encode fm).length + 7 - 7 = (utf8Encode fm).length := by omega
    rw [he, List.drop_left]
  have htake : B.take (B.length - 7) = utf8Encode fm := by
    rw [hB, hBlen]
    have he : (utf8Encode fm).length + 7 - 7 = (utf8Encode fm).length := by omega
    rw [he, List.take_left]
  have hfm_scalar : ∀ c ∈ fm, ScalarValue c := by
    intro c hc
    rw [hfm] at hc
    obtain ⟨p, hpmem, hpeq⟩ := List.mem_filterMap.mp hc
    exact hsc p.2 p.1 c hpeq
  have hfill := simpleFill_spec g I pairsCR emptyGrid (fun p hp =>
    simpleIndices_test g p.2 p.1 ((mem_pairsCR p.1 p.2).mp hp).2
      ((mem_pairsCR p.1 p.2).mp hp).1)
  have hfm_rev : fm = (pairsCR.filterMap (fun p => cellAt g p.2 p.1)).reverse := by
    rw [hfm, List.filterMap_reverse]
  have hfill2 : simpleFill I pairsCR fm emptyGrid
      = some (writeFold g pairsCR emptyGrid, []) := by
    rw [hfm_rev]
    exact hfill
  have hgrid : writeFold g pairsCR emptyGrid = g := by
    apply gridExt _ _ (writeFold_wf g pairsCR emptyGrid emptyGrid_wf) hwf
    intro r hr c hc
    rw [writeFold_cellAt g pairsCR emptyGrid r c emptyGrid_wf hr hc]
    by_cases hpop : (cellAt g r c).isSome
    · rw [if_pos ⟨(mem_pairsCR c r).mpr ⟨hc, hr⟩, hpop⟩]
    · rw [if_neg (by tauto), cellAt_emptyGrid]
      cases hcv : cellAt g r c with
      | none => rfl
      | some v => rw [hcv] at hpop; exact absurd rfl hpop
  -- now run the decoder
  unfold simpleFromSecret
  rw [if_neg (by rw [List.length_append, hBlen, List.length_cons, List.length_nil]; omega)]
  rw [List.getLast?_concat, List.dropLast_concat]
  dsimp only
  rw [if_neg (show ¬ (sha0 B ≠ sha0 B) from fun hcon => hcon rfl)]
  rw [hdrop, htake]
  rw [if_neg (by
    intro hcon
    rw [List.any_eq_true] at hcon
    obtain ⟨v, hvmem, hvbad⟩ := hcon
    have hz := simpleIndices_version g v (by rw [← hI]; exact hvmem)
    rw [decide_eq_true_eq] at hvbad
    exact hvbad hz)]
  rw [utf8Decode_encode fm hfm_scalar]
  dsimp only
  rw [hfill2]
  dsimp only
  rw [if_neg (by simp)]
  rw [hgrid]

/-- In the small regime `8 * len + n <= 32` no block is admissible:
every block emits nothing, `start` stays 0, and the per-block assertion
`i * 8 <= start` holds only for block 0. -/
theorem chunkBlocks_small (bs : List Nat) (n : Nat)
    (hsmall : 8 * bs.length + n ≤ 32) :
    ∀ (k i₀ : Nat), chunkBlocks bs n (List.range' i₀ k) 0
      = ([], 0, decide (k = 0 ∨ (i₀ = 0 ∧ k = 1))) := by
  intro k
  induction k with
  | zero =>
    intro i₀
    rw [List.range'_zero, chunkBlocks_nil, decide_eq_true (Or.inl rfl)]
  | succ kk ih =>
    intro i₀
    rw [List.range'_succ, chunkBlocks_cons,
      chunkWhile_not_adm bs n i₀ 32 0 (by omega), ih (i₀ + 1)]
    dsimp only
    rw [List.nil_append, Prod.mk.injEq, Prod.mk.injEq]
    refine ⟨rfl, rfl, ?_⟩
    rw [Bool.eq_iff_iff, Bool.and_eq_true, decide_eq_true_iff, decide_eq_true_iff,
      decide_eq_true_iff]
    omega

/-- C4 (amended): for every byte string `b` (bytes < 256) and chunk
width `n` with `1 <= n <= 16`: whenever `8 * len(b) + n >= 33` the
chunking primitive yields exactly `(8 * len(b) + pad) / n` values with
`pad = 0` for `n <= 8` and `pad = 8` for `9 <= n <= 16`, each emitted
value being the next `n` bits of the zero padded MSB-first bit stream,
and no internal assertion fires; whenever `8 * len(b) + n <= 32` no
value is emitted, and for `len(b) >= 2` the iterator's assertion fails.
(The count `(8 * len(b) + (n-1)) / n` claimed by the spec is wrong in
general.) -/
theorem C4_bit_chunks_count_and_values (bs : List Nat) (n : Nat)
    (hv : ByteValid bs) (hn1 : 1 ≤ n) (hn2 : n ≤ 16) :
    (33 ≤ 8 * bs.length + n →
      (bitChunks bs n).length = (8 * bs.length + (if n ≤ 8 then 0 else 8)) / n ∧
      bitChunks bs n =
        (List.range ((8 * bs.length + (if n ≤ 8 then 0 else 8)) / n)).map
          (fun j => sliceVal bs (j * n) n) ∧
      bitChunksAssertsOk bs n = true) ∧
    (8 * bs.length + n ≤ 32 →
      bitChunks bs n = [] ∧
      (2 ≤ bs.length → bitChunksAssertsOk bs n = false)) := by
  constructor
  · intro hA
    obtain ⟨h1, h2⟩ := bitChunks_spec bs hv n hn1 hn2 hA
    refine ⟨?_, h1, h2⟩
    rw [h1, List.length_map, List.length_range]
  · intro hsmall
    have hblocks := chunkBlocks_small bs n hsmall bs.length 0
    constructor
    · unfold bitChunks
      rw [List.range_eq_range', hblocks]
    · intro hlen
      unfold bitChunksAssertsOk
      rw [List.range_eq_range', hblocks]
      dsimp only
      rw [decide_eq_false (by omega)]

/-- C4 counterexample: on the one-byte input `[0xAB]` with width 11 the
iterator emits no value at all, while the claimed count
`(8 * len + (11 - 1)) / 11` is 1. -/
theorem C4_counterexample :
    ¬ (bitChunks [171] 11).length
        = (8 * ([171] : List Nat).length + (11 - 1)) / 11 := by
  decide

/-- Witness for C4: the amended count on a concrete five-byte input
with width 11 (large regime), and the empty output plus failing assert
on a concrete two-byte input with width 11 (small regime). -/
theorem C4_witness :
    ByteValid [81, 116, 187, 29, 221] ∧
    (bitChunks [81, 116, 187, 29, 221] 11).length
      = (8 * ([81, 116, 187, 29, 221] : List Nat).length + (if 11 ≤ 8 then 0 else 8)) / 11 ∧
    bitChunks [171, 5] 11 = [] ∧
    bitChunksAssertsOk [171, 5] 11 = false :=
  ⟨by unfold ByteValid; decide,
    ((C4_bit_chunks_count_and_values [81, 116, 187, 29, 221] 11
      (by unfold ByteValid; decide) (by decide) (by decide)).1 (by decide)).1,
    ((C4_bit_chunks_count_and_values [171, 5] 11
      (by unfold ByteValid; decide) (by decide) (by decide)).2 (by decide)).1,
    ((C4_bit_chunks_count_and_values [171, 5] 11
      (by unfold ByteValid; decide) (by decide) (by decide)).2 (by decide)).2 (by decide)⟩

/-! ## Claim C1: the warp entropy formula -/

theorem xorAssign_of_length_eq (s1 s2 : List Nat) (h : s1.length = s2.length) :
    xorAssign s1 s2 = List.zipWith (fun a b => a ^^^ b) s1 s2 := by
  unfold xorAssign
  rw [← h, List.drop_length, List.append_nil]

theorem xorAssign_length (s1 s2 : List Nat) (h : s1.length = s2.length) :
    (xorAssign s1 s2).length = s1.length := by
  rw [xorAssign_of_length_eq s1 s2 h, List.length_zipWith, h, Nat.min_self]

theorem xorAssign_getD (s1 s2 : List Nat) (h1 : s1.length = 32) (h2 : s2.length = 32) :
    ∀ i < 32, (xorAssign s1 s2).getD i 0 = s1.getD i 0 ^^^ s2.getD i 0 := by
  intro i hi
  rw [xorAssign_of_length_eq s1 s2 (by omega)]
  have hz : (List.zipWith (fun a b => a ^^^ b) s1 s2).length = 32 := by
    rw [List.length_zipWith, h1, h2, Nat.min_self]
  rw [List.getD_eq_getElem _ 0 (by omega), List.getD_eq_getElem _ 0 (by omega),
    List.getD_eq_getElem _ 0 (by omega), List.getElem_zipWith]

/-- C1 (amended): for every encoded secret byte string and salt,
`Diagram::to_entropy` and the `to_master_v1` seed are the byte-wise xor
`S1 ^^^ S2` with `S1 = scrypt(secret || 0x01, salt || 0x01)` and
`S2 = pbkdf2(secret || 0x02, salt || 0x02)` (discriminators appended,
nothing else added), exactly as the claim states; but
`GenericDiagram::to_entropy` prepends the fixed default salt
`b"Thanks Satoshi!"` to the caller salt in both KDF calls (and its
second KDF is argon2), so there the claimed salt construction fails. -/
theorem C1_warp_entropy_formula
    (scryptF pbkdf2F argon2F : List Nat → List Nat → List Nat)
    (secret salt : List Nat)
    (h1 : (scryptF (secret ++ [1]) (salt ++ [1])).length = 32)
    (h2 : (pbkdf2F (secret ++ [2]) (salt ++ [2])).length = 32)
    (h3 : (scryptF (secret ++ [1]) (defaultSalt ++ salt ++ [1])).length = 32)
    (h4 : (argon2F (secret ++ [2]) (defaultSalt ++ salt ++ [2])).length = 32) :
    ((diagramToEntropy scryptF pbkdf2F secret salt).length = 32 ∧
      ∀ i < 32, (diagramToEntropy scryptF pbkdf2F secret salt).getD i 0
        = (scryptF (secret ++ [1]) (salt ++ [1])).getD i 0
            ^^^ (pbkdf2F (secret ++ [2]) (salt ++ [2])).getD i 0) ∧
    toMasterV1Seed scryptF pbkdf2F secret salt
      = diagramToEntropy scryptF pbkdf2F secret salt ∧
    ((genericToEntropy scryptF argon2F secret salt).length = 32 ∧
      ∀ i < 32, (genericToEntropy scryptF argon2F secret salt).getD i 0
        = (scryptF (secret ++ [1]) (defaultSalt ++ salt ++ [1])).getD i 0
            ^^^ (argon2F (secret ++ [2]) (defaultSalt ++ salt ++ [2])).getD i 0) := by
  refine ⟨⟨?_, ?_⟩, rfl, ?_, ?_⟩
  · unfold diagramToEntropy
    rw [xorAssign_length _ _ (by omega)]
    exact h1
  · exact xorAssign_getD _ _ h1 h2
  · unfold genericToEntropy
    rw [xorAssign_length _ _ (by omega)]
    exact h3
  · exact xorAssign_getD _ _ h3 h4

/-- C1 counterexample: instantiating the KDF oracles with concrete
functions shows that `GenericDiagram::to_entropy` does not equal the
xor of KDF outputs on `(secret || d, salt || d)`: the default salt
prefix changes the result. -/
theorem C1_counterexample :
    ¬ (genericToEntropy (fun _ s => (s ++ List.replicate 32 0).take 32)
        (fun _ _ => List.replicate 32 0) [] []
      = xorAssign
          ((fun (_ s : List Nat) => (s ++ List.replicate 32 0).take 32) ([] ++ [1]) ([] ++ [1]))
          ((fun (_ _ : List Nat) => List.replicate 32 (0 : Nat)) ([] ++ [2]) ([] ++ [2]))) := by
  decide

/-- Witness for C1: the amended formula evaluated with concrete KDF
oracles on a concrete secret and salt. -/
theorem C1_witness :
    (diagramToEntropy (fun _ s => (s ++ List.replicate 32 0).take 32)
        (fun _ s => (s ++ List.replicate 32 1).take 32) [7] [9]).length = 32 ∧
    toMasterV1Seed (fun _ s => (s ++ List.replicate 32 0).take 32)
        (fun _ s => (s ++ List.replicate 32 1).take 32) [7] [9]
      = diagramToEntropy (fun _ s => (s ++ List.replicate 32 0).take 32)
          (fun _ s => (s ++ List.replicate 32 1).take 32) [7] [9] := by
  have h := C1_warp_entropy_formula
    (fun _ s => (s ++ List.replicate 32 0).take 32)
    (fun _ s => (s ++ List.replicate 32 1).take 32)
    (fun _ s => (s ++ List.replicate 32 1).take 32) [7] [9]
    (by decide) (by decide) (by decide) (by decide)
  exact ⟨h.1.1, h.2.1⟩

/-! ## The Complex layout round trip -/

theorem byte_and_high (x : Nat) (hx : x < 128) : x &&& 128 = 0 := by
  revert x
  decide

theorem byte_or_and_high (x : Nat) (hx : x < 128) : ((x ||| 128) &&& 128) >>> 7 = 1 := by
  revert x
  decide

theorem byte_and_low (x : Nat) (hx : x < 128) : x &&& 127 = x := by
  revert x
  decide

theorem byte_or_and_low (x : Nat) (hx : x < 128) : (x ||| 128) &&& 127 = x := by
  revert x
  decide

theorem byte_or_high_and_mask_aux :
    ∀ x < 128, ∀ k < 7, (x ||| 128) &&& 2 ^ (6 - k) = x &&& 2 ^ (6 - k) := by
  decide

theorem byte_or_high_and_mask (x k : Nat) (hx : x < 128) (hk : k < 7) :
    (x ||| 128) &&& 2 ^ (6 - k) = x &&& 2 ^ (6 - k) :=
  byte_or_high_and_mask_aux x hx k hk

set_option maxRecDepth 4096 in
theorem onesCount_bits (v : Nat) (hv : v < 128) :
    onesCount v
      = (v.testBit 0).toNat + (v.testBit 1).toNat + (v.testBit 2).toNat
          + (v.testBit 3).toNat + (v.testBit 4).toNat + (v.testBit 5).toNat
          + (v.testBit 6).toNat := by
  revert v
  decide

theorem boolIte_toNat (b : Bool) : (if b = true then 1 else 0) = b.toNat := by
  cases b <;> rfl

theorem orFold_lt {α : Type} (g : List (List (Option α))) :
    ∀ (ps : List (Nat × Nat)) (ind : List Nat), (∀ p ∈ ps, p.1 < 7) →
      (∀ v ∈ ind, v < 128) → ∀ v ∈ orFold g ps ind, v < 128 := by
  intro ps
  induction ps with
  | nil => intro ind _ hlt v hv; exact hlt v hv
  | cons p ps ih =>
    intro ind hps hlt v hv
    obtain ⟨pc, pr⟩ := p
    have hpc : pc < 7 := hps (pc, pr) (List.mem_cons_self _ _)
    rw [orFold_cons] at hv
    cases hcell : cellAt g pr pc with
    | some w =>
      rw [hcell] at hv
      dsimp only at hv
      refine ih _ (fun q hq => hps q (List.mem_cons_of_mem _ hq)) ?_ v hv
      intro u hu
      rcases List.mem_or_eq_of_mem_set hu with hmem | heq
      · exact hlt u hmem
      · subst heq
        have h1 : ind.getD pr 0 < 128 := by
          by_cases hc : pr < ind.length
          · rw [List.getD_eq_getElem _ 0 hc]
            exact hlt _ (List.getElem_mem _)
          · rw [List.getD_eq_default _ 0 (by omega)]
            omega
        have h2 : indicesMask.getD pc 0 < 128 := by
          rw [indicesMask_getD pc hpc]
          have : 2 ^ (6 - pc) ≤ 2 ^ 6 := Nat.pow_le_pow_right (by omega) (by omega)
          omega
        have := Nat.or_lt_two_pow (n := 7) h1 h2
        exact this
    | none =>
      rw [hcell] at hv
      dsimp only at hv
      exact ih _ (fun q hq => hps q (List.mem_cons_of_mem _ hq)) hlt v hv

theorem orFold7_lt {α : Type} (g : List (List (Option α))) (r : Nat) :
    (orFold g pairsCR.reverse (List.replicate 7 0)).getD r 0 < 128 := by
  by_cases hc : r < (orFold g pairsCR.reverse (List.replicate 7 0)).length
  · rw [List.getD_eq_getElem _ 0 hc]
    refine orFold_lt g pairsCR.reverse (List.replicate 7 0)
      (fun p hp => ((mem_pairsCR p.1 p.2).mp (List.mem_reverse.mp hp)).1)
      ?_ _ (List.getElem_mem _)
    intro v hv
    rw [List.eq_of_mem_replicate hv]
    omega
  · rw [List.getD_eq_default _ 0 (by omega)]
    omega

theorem orFold7_testBit_eq {α : Type} (g : List (List (Option α))) (row k : Nat)
    (hrow : row < 7) (hk : k < 7) :
    ((orFold g pairsCR.reverse (List.replicate 7 0)).getD row 0).testBit k
      = (cellAt g row (6 - k)).isSome := by
  rw [Bool.eq_iff_iff, simpleIndices_testBit g row k hrow]
  constructor
  · rintro ⟨c, hc, hsome, hck⟩
    have : c = 6 - k := by omega
    rw [← this]
    exact hsome
  · intro h
    exact ⟨6 - k, by omega, h, by omega⟩

theorem complexIsEmpty_false (g : List (List (Option (List Nat)))) (hwf : GridWF g)
    (hne : complexIsEmpty g = false) :
    ∃ r c, r < 7 ∧ c < 7 ∧ (cellAt g r c).isSome := by
  unfold complexIsEmpty at hne
  rw [List.all_eq_false] at hne
  obtain ⟨row, hrowmem, hrow⟩ := hne
  rw [Bool.not_eq_true] at hrow
  rw [List.all_eq_false] at hrow
  obtain ⟨v, hvmem, hvnone⟩ := hrow
  obtain ⟨r, hr, hrget⟩ := List.mem_iff_getElem.mp hrowmem
  obtain ⟨c, hc, hcget⟩ := List.mem_iff_getElem.mp hvmem
  have hr7 : r < 7 := by rw [hwf.1] at hr; exact hr
  have hc7 : c < 7 := by rw [hwf.2 row hrowmem] at hc; exact hc
  refine ⟨r, c, hr7, hc7, ?_⟩
  unfold cellAt
  rw [List.getD_eq_getElem g [] hr, hrget, List.getD_eq_getElem row none hc, hcget]
  cases v with
  | none => exact absurd rfl hvnone
  | some x => rfl

theorem complexCollect_split (g : List (List (Option (List Nat)))) :
    ∀ (ps : List (Nat × Nat)) (acc : List (List Nat) × List Nat × List Nat),
      ps.foldl (fun acc p =>
          match cellAt g p.2 p.1 with
          | some s => (acc.1 ++ [s], acc.2.1 ++ [(utf8Encode s).length % 256],
              acc.2.2.set p.2 (acc.2.2.getD p.2 0 ||| indicesMask.getD p.1 0))
          | none => acc) acc
        = (acc.1 ++ ps.filterMap (fun p => cellAt g p.2 p.1),
           acc.2.1 ++ (ps.filterMap (fun p => cellAt g p.2 p.1)).map
             (fun s => (utf8Encode s).length % 256),
           orFold g ps acc.2.2) := by
  intro ps
  induction ps with
  | nil =>
    intro acc
    rw [List.foldl_nil, List.filterMap_nil, List.map_nil, List.append_nil, List.append_nil]
    rfl
  | cons p ps ih =>
    intro acc
    rw [List.foldl_cons, List.filterMap_cons, ih, orFold_cons]
    cases hcell : cellAt g p.2 p.1 with
    | some v =>
      dsimp only
      rw [List.map_cons, List.append_assoc, List.append_assoc]
      rfl
    | none => rfl

theorem complexCollect_eq (g : List (List (Option (List Nat)))) :
    complexCollect g
      = (pairsCR.reverse.filterMap (fun p => cellAt g p.2 p.1),
         (pairsCR.reverse.filterMap (fun p => cellAt g p.2 p.1)).map
           (fun s => (utf8Encode s).length % 256),
         orFold g pairsCR.reverse (List.replicate 7 0)) := by
  unfold complexCollect
  rw [complexCollect_split g pairsCR.reverse ([], [], List.replicate 7 0)]
  rw [List.nil_append, List.nil_append]

theorem pairsCR_literal : pairsCR =
    [(0, 0), (0, 1), (0, 2), (0, 3), (0, 4), (0, 5), (0, 6),
     (1, 0), (1, 1), (1, 2), (1, 3), (1, 4), (1, 5), (1, 6),
     (2, 0), (2, 1), (2, 2), (2, 3), (2, 4), (2, 5), (2, 6),
     (3, 0), (3, 1), (3, 2), (3, 3), (3, 4), (3, 5), (3, 6),
     (4, 0), (4, 1), (4, 2), (4, 3), (4, 4), (4, 5), (4, 6),
     (5, 0), (5, 1), (5, 2), (5, 3), (5, 4), (5, 5), (5, 6),
     (6, 0), (6, 1), (6, 2), (6, 3), (6, 4), (6, 5), (6, 6)] := by
  rfl

theorem complexIndices_vi {α : Type} (g : List (List (Option α))) :
    versionItemCount ((orFold g pairsCR.reverse (List.replicate 7 0)).set 0
        ((orFold g pairsCR.reverse (List.replicate 7 0)).getD 0 0 ||| versionMask))
      = (1, (pairsCR.filterMap (fun p => cellAt g p.2 p.1)).length) := by
  set I := orFold g pairsCR.reverse (List.replicate 7 0) with hI
  have hIlen : I.length = 7 := by rw [hI]; exact simpleIndices_len g
  have hlt : ∀ r, I.getD r 0 < 128 := by
    intro r
    rw [hI]
    exact orFold7_lt g r
  have htb : ∀ row k, row < 7 → k < 7 →
      (I.getD row 0).testBit k = (cellAt g row (6 - k)).isSome := by
    intro row k hrow hk
    rw [hI]
    exact orFold7_testBit_eq g row k hrow hk
  have hvm : versionMask = 128 := rfl
  have hia : indicesAll = 127 := rfl
  set ind := I.set 0 (I.getD 0 0 ||| versionMask) with hind
  have hlen : ind.length = 7 := by rw [hind, List.length_set, hIlen]
  have hget0 : ind.getD 0 0 = I.getD 0 0 ||| 128 := by
    rw [hind, hvm]
    exact getD_set_self I 0 (by omega) _ 0
  have hgeti : ∀ i, i ≠ 0 → ind.getD i 0 = I.getD i 0 := by
    intro i hi
    rw [hind]
    exact getD_set_ne I 0 i (fun h => hi h.symm) _ 0
  unfold versionItemCount
  rw [hlen]
  have hrange : List.range 7 = [0, 1, 2, 3, 4, 5, 6] := by rfl
  rw [hrange]
  simp only [List.foldl_cons, List.foldl_nil, Nat.reduceSub]
  rw [hget0, hgeti 1 (by omega), hgeti 2 (by omega), hgeti 3 (by omega),
    hgeti 4 (by omega), hgeti 5 (by omega), hgeti 6 (by omega), hvm, hia]
  rw [byte_or_and_high _ (hlt 0), byte_and_high _ (hlt 1), byte_and_high _ (hlt 2),
    byte_and_high _ (hlt 3), byte_and_high _ (hlt 4), byte_and_high _ (hlt 5),
    byte_and_high _ (hlt 6), Nat.zero_shiftRight]
  rw [byte_or_and_low _ (hlt 0), byte_and_low _ (hlt 1), byte_and_low _ (hlt 2),
    byte_and_low _ (hlt 3), byte_and_low _ (hlt 4), byte_and_low _ (hlt 5),
    byte_and_low _ (hlt 6)]
  rw [onesCount_bits _ (hlt 0), onesCount_bits _ (hlt 1), onesCount_bits _ (hlt 2),
    onesCount_bits _ (hlt 3), onesCount_bits _ (hlt 4), onesCount_bits _ (hlt 5),
    onesCount_bits _ (hlt 6)]
  rw [htb 0 0 (by omega) (by omega), htb 0 1 (by omega) (by omega),
    htb 0 2 (by omega) (by omega), htb 0 3 (by omega) (by omega),
    htb 0 4 (by omega) (by omega), htb 0 5 (by omega) (by omega),
    htb 0 6 (by omega) (by omega)]
  rw [htb 1 0 (by omega) (by omega), htb 1 1 (by omega) (by omega),
    htb 1 2 (by omega) (by omega), htb 1 3 (by omega) (by omega),
    htb 1 4 (by omega) (by omega), htb 1 5 (by omega) (by omega),
    htb 1 6 (by omega) (by omega)]
  rw [htb 2 0 (by omega) (by omega), htb 2 1 (by omega) (by omega),
    htb 2 2 (by omega) (by omega), htb 2 3 (by omega) (by omega),
    htb 2 4 (by omega) (by omega), htb 2 5 (by omega) (by omega),
    htb 2 6 (by omega) (by omega)]
  rw [htb 3 0 (by omega) (by omega), htb 3 1 (by omega) (by omega),
    htb 3 2 (by omega) (by omega), htb 3 3 (by omega) (by omega),
    htb 3 4 (by omega) (by omega), htb 3 5 (by omega) (by omega),
    htb 3 6 (by omega) (by omega)]
  rw [htb 4 0 (by omega) (by omega), htb 4 1 (by omega) (by omega),
    htb 4 2 (by omega) (by omega), htb 4 3 (by omega) (by omega),
    htb 4 4 (by omega) (by omega), htb 4 5 (by omega) (by omega),
    htb 4 6 (by omega) (by omega)]
  rw [htb 5 0 (by omega) (by omega), htb 5 1 (by omega) (by omega),
    htb 5 2 (by omega) (by omega), htb 5 3 (by omega) (by omega),
    htb 5 4 (by omega) (by omega), htb 5 5 (by omega) (by omega),
    htb 5 6 (by omega) (by omega)]
  rw [htb 6 0 (by omega) (by omega), htb 6 1 (by omega) (by omega),
    htb 6 2 (by omega) (by omega), htb 6 3 (by omega) (by omega),
    htb 6 4 (by omega) (by omega), htb 6 5 (by omega) (by omega),
    htb 6 6 (by omega) (by omega)]
  rw [List.length_filterMap_eq_countP, pairsCR_literal]
  simp only [List.countP_cons, List.countP_nil, Nat.reduceSub]
  simp only [boolIte_toNat]
  rw [Prod.mk.injEq]
  constructor
  · omega
  · ring

theorem utf8Encode_length_le (cs : List Nat) : (utf8Encode cs).length ≤ 4 * cs.length := by
  induction cs with
  | nil => exact Nat.le_refl 0
  | cons c cs ih =>
    rw [utf8Encode_cons, List.length_append, List.length_cons]
    have := utf8Char_length_le c
    omega

theorem foldl_add_init (l : List Nat) : ∀ a : Nat,
    l.foldl (fun x v => x + v) a = a + l.foldl (fun x v => x + v) 0 := by
  induction l with
  | nil => intro a; rw [List.foldl_nil, List.foldl_nil]; omega
  | cons b l ih =>
    intro a
    rw [List.foldl_cons, List.foldl_cons, ih (a + b), ih (0 + b)]
    omega

theorem lens_sum_eq (fm : List (List Nat))
    (hlt : ∀ s ∈ fm, (utf8Encode s).length < 256) :
    (fm.map (fun s => (utf8Encode s).length % 256)).foldl (fun a v => a + v) 0
      = ((fm.map utf8Encode).flatten).length := by
  induction fm with
  | nil => rfl
  | cons s fm ih =>
    rw [List.map_cons, List.map_cons, List.flatten_cons, List.length_append,
      List.foldl_cons, foldl_add_init,
      ih (fun t ht => hlt t (List.mem_cons_of_mem _ ht)),
      Nat.mod_eq_of_lt (hlt s (List.mem_cons_self _ _))]
    omega

theorem complexFill_spec (g : List (List (Option (List Nat)))) (ind : List Nat) :
    ∀ (ps : List (Nat × Nat)) (g₀ : List (List (Option (List Nat)))),
      (∀ p ∈ ps, ((ind.getD p.2 0 &&& indicesMask.getD p.1 0 > 0)
        ↔ (cellAt g p.2 p.1).isSome)) →
      (∀ p ∈ ps, ∀ s, cellAt g p.2 p.1 = some s →
        (utf8Encode s).length < 256 ∧ (∀ c ∈ s, ScalarValue c)) →
      complexFill ind ps
        (((ps.filterMap (fun p => cellAt g p.2 p.1)).map
            (fun s => (utf8Encode s).length % 256)).reverse)
        (((ps.filterMap (fun p => cellAt g p.2 p.1)).map utf8Encode).reverse.flatten)
        g₀
      = some (writeFold g ps g₀) := by
  intro ps
  induction ps with
  | nil => intro g₀ _ _; rfl
  | cons p ps ih =>
    intro g₀ htest hval
    obtain ⟨pc, pr⟩ := p
    rw [List.filterMap_cons, writeFold_cons]
    cases hcell : cellAt g pr pc with
    | some s =>
      dsimp only
      have htst : ind.getD pr 0 &&& indicesMask.getD pc 0 > 0 := by
        have := (htest (pc, pr) (List.mem_cons_self _ _)).mpr
        rw [hcell] at this
        exact this rfl
      obtain ⟨hslt, hssc⟩ := hval (pc, pr) (List.mem_cons_self _ _) s hcell
      set fmT := ps.filterMap (fun p => cellAt g p.2 p.1) with hfmT
      have hlens : ((s :: fmT).map (fun t => (utf8Encode t).length % 256)).reverse
          = (fmT.map (fun t => (utf8Encode t).length % 256)).reverse
              ++ [(utf8Encode s).length % 256] := by
        rw [List.map_cons, List.reverse_cons]
      have hbytes : ((s :: fmT).map utf8Encode).reverse.flatten
          = (fmT.map utf8Encode).reverse.flatten ++ utf8Encode s := by
        rw [List.map_cons, List.reverse_cons, List.flatten_append, List.flatten_cons,
          List.flatten_nil, List.append_nil]
      unfold complexFill
      rw [if_pos htst, hlens, hbytes]
      rw [List.getLast?_concat]
      dsimp only [Option.getD_some]
      have hmod : (utf8Encode s).length % 256 = (utf8Encode s).length :=
        Nat.mod_eq_of_lt hslt
      rw [hmod]
      have hlen2 : ((fmT.map utf8Encode).reverse.flatten ++ utf8Encode s).length
            - (utf8Encode s).length
          = (fmT.map utf8Encode).reverse.flatten.length := by
        rw [List.length_append]
        omega
      rw [hlen2, List.drop_left, List.take_left, utf8Decode_encode s hssc]
      rw [List.dropLast_concat]
      exact ih (setCell g₀ pr pc (some s))
        (fun q hq => htest q (List.mem_cons_of_mem _ hq))
        (fun q hq => hval q (List.mem_cons_of_mem _ hq))
    | none =>
      dsimp only
      have htst : ¬ (ind.getD pr 0 &&& indicesMask.getD pc 0 > 0) := by
        intro hcon
        have := (htest (pc, pr) (List.mem_cons_self _ _)).mp hcon
        rw [hcell] at this
        exact Bool.false_ne_true this
      unfold complexFill
      rw [if_neg htst]
      exact ih g₀ (fun q hq => htest q (List.mem_cons_of_mem _ hq))
        (fun q hq => hval q (List.mem_cons_of_mem _ hq))

theorem utf8Encode_pos_of_ne_nil (t : List Nat) (h : t ≠ []) :
    1 ≤ (utf8Encode t).length := by
  cases htc : t with
  | nil => exact absurd htc h
  | cons c cs => exact utf8Encode_length_pos c cs

/-- Decoding inverts encoding for the Complex layout: the shared
round-trip engine for the claims below. -/
theorem complex_roundtrip (sha0 : List Nat → Nat) (g : List (List (Option (List Nat))))
    (hwf : GridWF g) (hok : ComplexCellsOk g) (hne : complexIsEmpty g = false) :
    ∀ s, complexToSecret sha0 g = .ok s → complexFromSecret sha0 s = .ok g := by
  intro s hs
  unfold complexToSecret at hs
  rw [hne] at hs
  simp only [Bool.false_eq_true, if_false] at hs
  rw [complexCollect_eq] at hs
  dsimp only at hs
  set fm := pairsCR.reverse.filterMap (fun p => cellAt g p.2 p.1) with hfm
  set I := orFold g pairsCR.reverse (List.replicate 7 0) with hIdef
  set J := (fm.map utf8Encode).flatten with hJdef
  set L := fm.map (fun s => (utf8Encode s).length % 256) with hLdef
  set ind := I.set 0 (I.getD 0 0 ||| versionMask) with hinddef
  set B := J ++ L ++ ind with hBdef
  have hsval : s = B ++ [sha0 B] := by
    cases hs
    rfl
  subst hsval
  -- basic facts about the encoded pieces
  have hIlen : I.length = 7 := by rw [hIdef]; exact simpleIndices_len g
  have hindlen : ind.length = 7 := by rw [hinddef, List.length_set, hIlen]
  have hLlen : L.length = fm.length := by rw [hLdef, List.length_map]
  have hfm_ok : ∀ t ∈ fm, t ≠ [] ∧ t.length ≤ 50 ∧ ∀ ch ∈ t, ScalarValue ch := by
    intro t ht
    rw [hfm] at ht
    obtain ⟨p, hpmem, hpeq⟩ := List.mem_filterMap.mp ht
    exact hok p.2 p.1 t hpeq
  have henc_lt : ∀ t ∈ fm, (utf8Encode t).length < 256 := by
    intro t ht
    have h1 := (hfm_ok t ht).2.1
    have h2 := utf8Encode_length_le t
    omega
  obtain ⟨r0, c0, hr0, hc0, hp0⟩ := complexIsEmpty_false g hwf hne
  have hfm_ne : fm ≠ [] := by
    intro hcon
    obtain ⟨v0, hv0⟩ := Option.isSome_iff_exists.mp hp0
    have : v0 ∈ fm := by
      rw [hfm]
      exact List.mem_filterMap.mpr ⟨(c0, r0),
        List.mem_reverse.mpr ((mem_pairsCR c0 r0).mpr ⟨hc0, hr0⟩), hv0⟩
    rw [hcon] at this
    exact List.not_mem_nil _ this
  have hL0 : 1 ≤ fm.length := by
    cases hfc : fm with
    | nil => exact absurd hfc hfm_ne
    | cons a l => rw [List.length_cons]; omega
  have hJpos : 1 ≤ J.length := by
    rw [hJdef]
    cases hfc : fm with
    | nil => exact absurd hfc hfm_ne
    | cons t ts =>
      rw [List.map_cons, List.flatten_cons, List.length_append]
      have hne2 := (hfm_ok t (by rw [hfc]; exact List.mem_cons_self _ _)).1
      have := utf8Encode_pos_of_ne_nil t hne2
      omega
  have hfmlen : fm.length = (pairsCR.filterMap (fun p => cellAt g p.2 p.1)).length := by
    rw [hfm, List.filterMap_reverse, List.length_reverse]
  have hvi2 : versionItemCount ind = (1, fm.length) := by
    rw [hinddef, hIdef, complexIndices_vi g, hfmlen]
  have hamount : L.foldl (fun a v => a + v) 0 = J.length := by
    rw [hLdef, hJdef]
    exact lens_sum_eq fm henc_lt
  -- the split of the encoded body
  have hassoc : B = (J ++ L) ++ ind := hBdef
  have hBlen : B.length = J.length + fm.length + 7 := by
    rw [hBdef, List.length_append, List.length_append, hLlen, hindlen]
  have he7 : ((J ++ L) ++ ind).length - 7 = (J ++ L).length := by
    rw [List.length_append, hindlen]
    omega
  have hdrop : B.drop (B.length - 7) = ind := by
    rw [hassoc, he7, List.drop_left]
  have htake : B.take (B.length - 7) = J ++ L := by
    rw [hassoc, he7, List.take_left]
  have heL : (J ++ L).length - fm.length = J.length := by
    rw [List.length_append, hLlen]
    omega
  have hdropL : (J ++ L).drop ((J ++ L).length - fm.length) = L := by
    rw [heL, List.drop_left]
  have htakeL : (J ++ L).take ((J ++ L).length - fm.length) = J := by
    rw [heL, List.take_left]
  -- the final checks cannot fire
  have hnochecks : ¬ (L.isEmpty = true ∨ L.any (fun v => v = 0) = true
      ∨ L.foldl (fun a v => a + v) 0 ≠ J.length) := by
    rintro (h | h | h)
    · rw [List.isEmpty_iff] at h
      have : L.length = 0 := by rw [h]; rfl
      omega
    · rw [List.any_eq_true] at h
      obtain ⟨v, hvmem, hv0⟩ := h
      rw [hLdef] at hvmem
      obtain ⟨t, htmem, hteq⟩ := List.mem_map.mp hvmem
      have hz : v = 0 := of_decide_eq_true hv0
      have hlt := henc_lt t htmem
      have hpos := utf8Encode_pos_of_ne_nil t (hfm_ok t htmem).1
      rw [← hteq, Nat.mod_eq_of_lt hlt] at hz
      omega
    · exact h hamount
  -- the fill loop rebuilds the grid
  have htest : ∀ p ∈ pairsCR, (ind.getD p.2 0 &&& indicesMask.getD p.1 0 > 0
      ↔ (cellAt g p.2 p.1).isSome) := by
    intro p hp
    obtain ⟨hc7, hr7⟩ := (mem_pairsCR p.1 p.2).mp hp
    have hmask : ind.getD p.2 0 &&& indicesMask.getD p.1 0
        = I.getD p.2 0 &&& indicesMask.getD p.1 0 := by
      by_cases h0 : p.2 = 0
      · rw [h0]
        have hg0 : ind.getD 0 0 = I.getD 0 0 ||| 128 := by
          rw [hinddef]
          have hvm : versionMask = 128 := rfl
          rw [hvm]
          exact getD_set_self I 0 (by omega) _ 0
        rw [hg0, indicesMask_getD p.1 hc7]
        exact byte_or_high_and_mask _ p.1 (by rw [hIdef]; exact orFold7_lt g 0) hc7
      · have hgi : ind.getD p.2 0 = I.getD p.2 0 := by
          rw [hinddef]
          exact getD_set_ne I 0 p.2 (fun hh => h0 hh.symm) _ 0
        rw [hgi]
    rw [hmask, hIdef]
    exact simpleIndices_test g p.2 p.1 hr7 hc7
  have hval : ∀ p ∈ pairsCR, ∀ t, cellAt g p.2 p.1 = some t →
      (utf8Encode t).length < 256 ∧ (∀ c ∈ t, ScalarValue c) := by
    intro p _ t hcell
    obtain ⟨h1, h2, h3⟩ := hok p.2 p.1 t hcell
    have h4 := utf8Encode_length_le t
    exact ⟨by omega, h3⟩
  have hLeq : L = ((pairsCR.filterMap (fun p => cellAt g p.2 p.1)).map
      (fun s => (utf8Encode s).length % 256)).reverse := by
    rw [hLdef, hfm, List.filterMap_reverse, List.map_reverse]
  have hJeq : J = ((pairsCR.filterMap (fun p => cellAt g p.2 p.1)).map
      utf8Encode).reverse.flatten := by
    rw [hJdef, hfm, List.filterMap_reverse, List.map_reverse]
  have hfill : complexFill ind pairsCR L J emptyGrid
      = some (writeFold g pairsCR emptyGrid) := by
    rw [hLeq, hJeq]
    exact complexFill_spec g ind pairsCR emptyGrid htest hval
  have hgrid : writeFold g pairsCR emptyGrid = g := by
    apply gridExt _ _ (writeFold_wf g pairsCR emptyGrid emptyGrid_wf) hwf
    intro r hr c hc
    rw [writeFold_cellAt g pairsCR emptyGrid r c emptyGrid_wf hr hc]
    by_cases hpop : (cellAt g r c).isSome
    · rw [if_pos ⟨(mem_pairsCR c r).mpr ⟨hc, hr⟩, hpop⟩]
    · rw [if_neg (by tauto), cellAt_emptyGrid]
      cases hcv : cellAt g r c with
      | none => rfl
      | some v => rw [hcv] at hpop; exact absurd rfl hpop
  -- now run the decoder
  unfold complexFromSecret
  rw [if_neg (by rw [List.length_append, hBlen, List.length_cons, List.length_nil]; omega)]
  rw [List.getLast?_concat, List.dropLast_concat]
  dsimp only
  rw [if_neg (show ¬ (sha0 B ≠ sha0 B) from fun hcon => hcon rfl)]
  rw [hdrop, htake, hvi2]
  dsimp only
  rw [if_neg (show ¬ ((1 : Nat) ≠ 1) from fun hcon => hcon rfl)]
  rw [if_neg (show ¬ (fm.length = 0) from by omega)]
  rw [hdropL, htakeL]
  rw [if_neg hnochecks]
  rw [hfill]
  dsimp only
  rw [hgrid]

/-! ## The Animate layout round trip -/

theorem byte_or_and_high_eq (x : Nat) (hx : x < 128) : (x ||| 128) &&& 128 = 128 := by
  revert x
  decide

theorem simpleFill_spec_gen (g : List (List (Option Nat))) (ind : List Nat) :
    ∀ (ps : List (Nat × Nat)) (g₀ : List (List (Option Nat))) (X : List Nat),
      (∀ p ∈ ps, ((ind.getD p.2 0 &&& indicesMask.getD p.1 0 > 0)
        ↔ (cellAt g p.2 p.1).isSome)) →
      simpleFill ind ps (X ++ (ps.filterMap (fun p => cellAt g p.2 p.1)).reverse) g₀
        = some (writeFold g ps g₀, X) := by
  intro ps
  induction ps with
  | nil =>
    intro g₀ X _
    rw [List.filterMap_nil, List.reverse_nil, List.append_nil]
    rfl
  | cons p ps ih =>
    intro g₀ X htest
    obtain ⟨pc, pr⟩ := p
    rw [List.filterMap_cons, writeFold_cons]
    cases hcell : cellAt g pr pc with
    | some v =>
      dsimp only
      have htst : ind.getD pr 0 &&& indicesMask.getD pc 0 > 0 := by
        have := (htest (pc, pr) (List.mem_cons_self _ _)).mpr
        rw [hcell] at this
        exact this rfl
      have hform : X ++ (v :: ps.filterMap (fun p => cellAt g p.2 p.1)).reverse
          = (X ++ (ps.filterMap (fun p => cellAt g p.2 p.1)).reverse) ++ [v] := by
        rw [List.reverse_cons, List.append_assoc]
      rw [hform]
      unfold simpleFill
      rw [if_pos htst, List.getLast?_concat, List.dropLast_concat]
      exact ih (setCell g₀ pr pc (some v)) X
        (fun q hq => htest q (List.mem_cons_of_mem _ hq))
    | none =>
      dsimp only
      have htst : ¬ (ind.getD pr 0 &&& indicesMask.getD pc 0 > 0) := by
        intro hcon
        have := (htest (pc, pr) (List.mem_cons_self _ _)).mp hcon
        rw [hcell] at this
        exact Bool.false_ne_true this
      unfold simpleFill
      rw [if_neg htst]
      exact ih g₀ X (fun q hq => htest q (List.mem_cons_of_mem _ hq))

theorem animateFrameInd_length (mx : List (List (Option Nat))) :
    (animateFrameInd mx).length = 7 := by
  unfold animateFrameInd
  rw [List.length_set, simpleIndices_len]

theorem animateFrameInd_getD1 (mx : List (List (Option Nat))) :
    (animateFrameInd mx).getD 1 0
      = (orFold mx pairsCR.reverse (List.replicate 7 0)).getD 1 0 ||| 128 := by
  unfold animateFrameInd
  have hvm : versionMask = 128 := rfl
  rw [hvm]
  exact getD_set_self _ 1 (by rw [simpleIndices_len]; omega) _ 0

theorem animateFrameInd_getD_ne (mx : List (List (Option Nat))) (i : Nat) (h : i ≠ 1) :
    (animateFrameInd mx).getD i 0
      = (orFold mx pairsCR.reverse (List.replicate 7 0)).getD i 0 := by
  unfold animateFrameInd
  exact getD_set_ne _ 1 i (fun hh => h hh.symm) _ 0

theorem writeFold_pairs_id {α : Type} (g : List (List (Option α))) (hwf : GridWF g) :
    writeFold g pairsCR emptyGrid = g := by
  apply gridExt _ _ (writeFold_wf g pairsCR emptyGrid emptyGrid_wf) hwf
  intro r hr c hc
  rw [writeFold_cellAt g pairsCR emptyGrid r c emptyGrid_wf hr hc]
  by_cases hpop : (cellAt g r c).isSome
  · rw [if_pos ⟨(mem_pairsCR c r).mpr ⟨hc, hr⟩, hpop⟩]
  · rw [if_neg (by tauto), cellAt_emptyGrid]
    cases hcv : cellAt g r c with
    | none => rfl
    | some v => rw [hcv] at hpop; exact absurd rfl hpop

theorem blocks_flatten_length : ∀ (K : List (List Nat)), (∀ b ∈ K, b.length = 7) →
    K.flatten.length = 7 * K.length := by
  intro K
  induction K with
  | nil => intro _; rfl
  | cons b K ih =>
    intro h
    rw [List.flatten_cons, List.length_append, List.length_cons,
      h b (List.mem_cons_self _ _), ih (fun c hc => h c (List.mem_cons_of_mem _ hc))]
    ring

theorem animateBlock_test (mx : List (List (Option Nat))) (b : List Nat)
    (hb : ∀ r, r < 7 →
      (b.getD r 0 = (orFold mx pairsCR.reverse (List.replicate 7 0)).getD r 0
        ∨ b.getD r 0 = (orFold mx pairsCR.reverse (List.replicate 7 0)).getD r 0 ||| 128)) :
    ∀ p ∈ pairsCR, (b.getD p.2 0 &&& indicesMask.getD p.1 0 > 0
      ↔ (cellAt mx p.2 p.1).isSome) := by
  intro p hp
  obtain ⟨hc7, hr7⟩ := (mem_pairsCR p.1 p.2).mp hp
  rcases hb p.2 hr7 with h | h
  · rw [h]
    exact simpleIndices_test mx p.2 p.1 hr7 hc7
  · rw [h, indicesMask_getD p.1 hc7, byte_or_high_and_mask _ p.1 (orFold7_lt mx p.2) hc7]
    rw [← indicesMask_getD p.1 hc7]
    exact simpleIndices_test mx p.2 p.1 hr7 hc7

theorem animateSplitFrames_succ (fuel : Nat) (body : List Nat) :
    animateSplitFrames (fuel + 1) body
      = (if body.length < 7 then none
         else
           let block := body.drop (body.length - 7)
           let front := body.take (body.length - 7)
           if block.getD 1 0 &&& versionMask = 0 then none
           else if block.getD 0 0 &&& versionMask ≠ 0 then some (front, [block])
           else
             match animateSplitFrames fuel front with
             | some (pool, blocks) => some (pool, block :: blocks)
             | none => none) := rfl

theorem animateSplitFrames_spec :
    ∀ (R : List (List Nat)) (X : List Nat) (fuel : Nat),
      R ≠ [] →
      R.length ≤ fuel →
      (∀ b ∈ R, b.length = 7 ∧ b.getD 1 0 &&& versionMask ≠ 0) →
      (∀ b ∈ R.dropLast, b.getD 0 0 &&& versionMask = 0) →
      (∀ b, R.getLast? = some b → b.getD 0 0 &&& versionMask ≠ 0) →
      animateSplitFrames fuel (X ++ R.reverse.flatten) = some (X, R) := by
  intro R
  induction R with
  | nil => intro X fuel hne; exact absurd rfl hne
  | cons r R ih =>
    intro X fuel hne hfuel hall hinit hlast
    cases fuel with
    | zero => rw [List.length_cons] at hfuel; omega
    | succ f =>
      obtain ⟨hrlen, hrmark⟩ := hall r (List.mem_cons_self _ _)
      have hbody : X ++ (r :: R).reverse.flatten
          = (X ++ R.reverse.flatten) ++ r := by
        rw [List.reverse_cons, List.flatten_append, List.flatten_cons, List.flatten_nil,
          List.append_nil, List.append_assoc]
      have hblen : ((X ++ R.reverse.flatten) ++ r).length
          = (X ++ R.reverse.flatten).length + 7 := by
        rw [List.length_append, hrlen]
      rw [hbody, animateSplitFrames_succ]
      rw [if_neg (by omega)]
      have he : ((X ++ R.reverse.flatten) ++ r).length - 7
          = (X ++ R.reverse.flatten).length := by omega
      rw [he, List.drop_left, List.take_left]
      rw [if_neg hrmark]
      by_cases hRnil : R = []
      · subst hRnil
        have hend : r.getD 0 0 &&& versionMask ≠ 0 := hlast r rfl
        rw [if_pos hend, List.reverse_nil, List.flatten_nil, List.append_nil]
      · have hnotend : r.getD 0 0 &&& versionMask = 0 := by
          apply hinit r
          rw [List.dropLast_cons_of_ne_nil hRnil]
          exact List.mem_cons_self _ _
        rw [if_neg (fun hcon => hcon hnotend)]
        have hrec := ih X f hRnil
          (by rw [List.length_cons] at hfuel; omega)
          (fun b hb => hall b (List.mem_cons_of_mem _ hb))
          (fun b hb => hinit b (by
            rw [List.dropLast_cons_of_ne_nil hRnil]
            exact List.mem_cons_of_mem _ hb))
          (fun b hb => hlast b (by
            cases hRc : R with
            | nil => exact absurd hRc hRnil
            | cons r2 R2 =>
              rw [List.getLast?_cons_cons]
              rw [hRc] at hb
              exact hb))
        rw [hrec]

theorem animateFillFrames_cons (b : List Nat) (R : List (List Nat)) (items : List Nat) :
    animateFillFrames (b :: R) items
      = (match simpleFill b pairsCR items emptyGrid with
         | some (g, rest) =>
           (match animateFillFrames R rest with
            | some (cube, rest2) => some (g :: cube, rest2)
            | none => none)
         | none => none) := rfl

theorem forall2_map_self {α β : Type} (f : α → β) (Pr : α → β → Prop) :
    ∀ l : List α, (∀ x ∈ l, Pr x (f x)) → List.Forall₂ Pr l (l.map f) := by
  intro l
  induction l with
  | nil => intro _; exact List.Forall₂.nil
  | cons a l ih =>
    intro h
    rw [List.map_cons]
    exact List.Forall₂.cons (h a (List.mem_cons_self _ _))
      (ih (fun x hx => h x (List.mem_cons_of_mem _ hx)))

theorem forall2_append {α β : Type} (Pr : α → β → Prop) :
    ∀ {l₁ l₃ : List α} {l₂ l₄ : List β}, List.Forall₂ Pr l₁ l₂ → List.Forall₂ Pr l₃ l₄ →
      List.Forall₂ Pr (l₁ ++ l₃) (l₂ ++ l₄) := by
  intro l₁ l₃ l₂ l₄ h1 h2
  induction h1 with
  | nil => exact h2
  | cons hp _ ih => exact List.Forall₂.cons hp ih

theorem animateFillFrames_spec :
    ∀ (cs : List (List (List (Option Nat)))) (R : List (List Nat)),
      List.Forall₂ (fun mx b => ∀ p ∈ pairsCR,
        (b.getD p.2 0 &&& indicesMask.getD p.1 0 > 0
          ↔ (cellAt mx p.2 p.1).isSome)) cs R →
      ∀ X : List Nat,
        animateFillFrames R
            (X ++ ((cs.map (fun mx => pairsCR.reverse.filterMap
              (fun p => cellAt mx p.2 p.1))).reverse).flatten)
          = some (cs.map (fun mx => writeFold mx pairsCR emptyGrid), X) := by
  intro cs R h
  induction h with
  | nil =>
    intro X
    rw [List.map_nil, List.reverse_nil, List.flatten_nil, List.append_nil, List.map_nil]
    rfl
  | @cons mx b cs2 R2 hpair hrest ih =>
    intro X
    rw [animateFillFrames_cons]
    rw [List.map_cons, List.reverse_cons, List.flatten_append, List.flatten_cons,
      List.flatten_nil, List.append_nil, ← List.append_assoc, List.filterMap_reverse]
    rw [simpleFill_spec_gen mx b pairsCR emptyGrid
      (X ++ ((cs2.map (fun mx => pairsCR.reverse.filterMap
        (fun p => cellAt mx p.2 p.1))).reverse).flatten) hpair]
    dsimp only
    rw [ih X]
    rw [List.map_cons]

/-- Decoding inverts encoding for the Animate layout (the decoder is
modelled from spec §4.4, as the sources contain no Animate decoder). -/
theorem animate_roundtrip (sha0 : List Nat → Nat) (cube : List (List (List (Option Nat))))
    (hok : AnimateCubeOk cube) :
    ∀ s, animateToBytes sha0 cube = some s → animateFromBytes sha0 s = some cube := by
  intro s hs
  obtain ⟨hne, hfr⟩ := hok
  unfold animateToBytes at hs
  cases hm : cube.reverse.map animateFrameInd with
  | nil =>
    rw [hm] at hs
    exact Option.noConfusion hs
  | cons f0 rest =>
    rw [hm] at hs
    dsimp only at hs
    set P := cube.reverse.flatMap
      (fun mx => pairsCR.reverse.filterMap (fun p => cellAt mx p.2 p.1)) with hP
    set f0e := f0.set 0 (f0.getD 0 0 ||| versionMask) with hf0e
    set R := rest.reverse ++ [f0e] with hR
    have hKR : f0e :: rest = R.reverse := by
      rw [hR, List.reverse_append, List.reverse_reverse]
      rfl
    rw [hKR] at hs
    set B := utf8Encode P ++ R.reverse.flatten with hB
    have hsval : s = B ++ [sha0 B] := by
      cases hs
      rfl
    subst hsval
    -- the reversed frame list is nonempty
    obtain ⟨m0, mtail, hcr⟩ : ∃ m0 mtail, cube.reverse = m0 :: mtail := by
      cases hcrv : cube.reverse with
      | nil =>
        rw [hcrv, List.map_nil] at hm
        exact absurd hm (List.cons_ne_nil _ _).symm
      | cons a l => exact ⟨a, l, rfl⟩
    rw [hcr, List.map_cons] at hm
    have hf0 : animateFrameInd m0 = f0 := (List.cons.injEq _ _ _ _).mp hm |>.1
    have hrest : mtail.map animateFrameInd = rest := (List.cons.injEq _ _ _ _).mp hm |>.2
    have hmem_rev : ∀ mx ∈ cube.reverse, GridWF mx ∧ CellsScalar mx := by
      intro mx hmx
      exact hfr mx (List.mem_reverse.mp hmx)
    have hm0 := hmem_rev m0 (by rw [hcr]; exact List.mem_cons_self _ _)
    -- per-block facts
    have hblock_plain : ∀ b ∈ rest, b.length = 7 ∧ b.getD 1 0 &&& versionMask ≠ 0
        ∧ b.getD 0 0 &&& versionMask = 0 := by
      intro b hb
      rw [← hrest] at hb
      obtain ⟨mx, hmx, hbeq⟩ := List.mem_map.mp hb
      subst hbeq
      refine ⟨animateFrameInd_length mx, ?_, ?_⟩
      · rw [animateFrameInd_getD1 mx]
        have hvm : versionMask = 128 := rfl
        rw [hvm, byte_or_and_high_eq _ (orFold7_lt mx 1)]
        omega
      · rw [animateFrameInd_getD_ne mx 0 (by omega)]
        have hvm : versionMask = 128 := rfl
        rw [hvm, byte_and_high _ (orFold7_lt mx 0)]
    have hf0len : f0.length = 7 := by rw [← hf0]; exact animateFrameInd_length m0
    have hf0e_len : f0e.length = 7 := by rw [hf0e, List.length_set, hf0len]
    have hf0e_getD0 : f0e.getD 0 0
        = (orFold m0 pairsCR.reverse (List.replicate 7 0)).getD 0 0 ||| 128 := by
      rw [hf0e]
      have hvm : versionMask = 128 := rfl
      rw [hvm, getD_set_self f0 0 (by omega) _ 0, ← hf0,
        animateFrameInd_getD_ne m0 0 (by omega)]
    have hf0e_getD1 : f0e.getD 1 0
        = (orFold m0 pairsCR.reverse (List.replicate 7 0)).getD 1 0 ||| 128 := by
      rw [hf0e, getD_set_ne f0 0 1 (by omega) _ 0, ← hf0, animateFrameInd_getD1 m0]
    -- hypotheses of the split lemma
    have hallR : ∀ b ∈ R, b.length = 7 ∧ b.getD 1 0 &&& versionMask ≠ 0 := by
      intro b hb
      rw [hR] at hb
      rcases List.mem_append.mp hb with hb1 | hb2
      · have := hblock_plain b (List.mem_reverse.mp hb1)
        exact ⟨this.1, this.2.1⟩
      · have hbe : b = f0e := by
          rcases List.mem_cons.mp hb2 with h | h
          · exact h
          · exact absurd h (List.not_mem_nil _)
        subst hbe
        refine ⟨hf0e_len, ?_⟩
        rw [hf0e_getD1]
        have hvm : versionMask = 128 := rfl
        rw [hvm, byte_or_and_high_eq _ (orFold7_lt m0 1)]
        omega
    have hinitR : ∀ b ∈ R.dropLast, b.getD 0 0 &&& versionMask = 0 := by
      intro b hb
      rw [hR, List.dropLast_concat] at hb
      exact (hblock_plain b (List.mem_reverse.mp hb)).2.2
    have hlastR : ∀ b, R.getLast? = some b → b.getD 0 0 &&& versionMask ≠ 0 := by
      intro b hb
      rw [hR, List.getLast?_concat] at hb
      have hbe : b = f0e := by
        have := (Option.some.injEq _ _).mp hb
        exact this.symm
      subst hbe
      rw [hf0e_getD0]
      have hvm : versionMask = 128 := rfl
      rw [hvm, byte_or_and_high_eq _ (orFold7_lt m0 0)]
      omega
    have hRne : R ≠ [] := by
      rw [hR]
      exact List.append_ne_nil_of_right_ne_nil _ (List.cons_ne_nil _ _)
    have hRlen7 : ∀ b ∈ R, b.length = 7 := fun b hb => (hallR b hb).1
    have hflatlen : R.reverse.flatten.length = 7 * R.length := by
      rw [blocks_flatten_length R.reverse
        (fun b hb => hRlen7 b (List.mem_reverse.mp hb)), List.length_reverse]
    have hfuel : R.length ≤ B.length := by
      have h1 : B.length = (utf8Encode P).length + R.reverse.flatten.length := by
        rw [hB]
        exact List.length_append _ _
      rw [h1, hflatlen]
      omega
    have hsplit : animateSplitFrames B.length B = some (utf8Encode P, R) := by
      conv in animateSplitFrames B.length B => rw [hB]
      exact animateSplitFrames_spec R (utf8Encode P) B.length hRne hfuel hallR hinitR hlastR
    -- the character pool
    have hPsc : ∀ c ∈ P, ScalarValue c := by
      intro c hc
      rw [hP] at hc
      obtain ⟨mx, hmx, hcmem⟩ := List.mem_flatMap.mp hc
      obtain ⟨p, hpmem, hpeq⟩ := List.mem_filterMap.mp hcmem
      exact (hmem_rev mx hmx).2 p.2 p.1 c hpeq
    have hPfill : P = [] ++ ((cube.map (fun mx => pairsCR.reverse.filterMap
        (fun p => cellAt mx p.2 p.1))).reverse).flatten := by
      rw [hP, List.nil_append, List.flatMap_def, List.map_reverse]
    -- the frame-by-frame fill
    have hforall : List.Forall₂ (fun mx b => ∀ p ∈ pairsCR,
        (b.getD p.2 0 &&& indicesMask.getD p.1 0 > 0
          ↔ (cellAt mx p.2 p.1).isSome)) cube R := by
      have hcube : cube = mtail.reverse ++ [m0] := by
        have := congrArg List.reverse hcr
        rw [List.reverse_reverse, List.reverse_cons] at this
        exact this
      rw [hcube, hR, ← hrest, ← List.map_reverse]
      refine forall2_append _ ?_ ?_
      · apply forall2_map_self
        intro mx hmx
        apply animateBlock_test
        intro r hr7
        by_cases h1 : r = 1
        · subst h1
          exact Or.inr (animateFrameInd_getD1 mx)
        · exact Or.inl (animateFrameInd_getD_ne mx r h1)
      · refine List.Forall₂.cons ?_ List.Forall₂.nil
        apply animateBlock_test
        intro r hr7
        by_cases h0 : r = 0
        · subst h0
          exact Or.inr hf0e_getD0
        · by_cases h1 : r = 1
          · subst h1
            exact Or.inr hf0e_getD1
          · left
            rw [hf0e, getD_set_ne f0 0 r (fun hh => h0 hh.symm) _ 0, ← hf0,
              animateFrameInd_getD_ne m0 r h1]
    have hfill : animateFillFrames R P
        = some (cube.map (fun mx => writeFold mx pairsCR emptyGrid), []) := by
      rw [hPfill]
      exact animateFillFrames_spec cube R hforall []
    have hmapid : cube.map (fun mx => writeFold mx pairsCR emptyGrid) = cube := by
      have hcong : ∀ mx ∈ cube, writeFold mx pairsCR emptyGrid = id mx := by
        intro mx hmx
        exact writeFold_pairs_id mx (hfr mx hmx).1
      rw [List.map_congr_left hcong, List.map_id]
    -- now run the decoder
    unfold animateFromBytes
    rw [List.getLast?_concat, List.dropLast_concat]
    dsimp only
    rw [if_neg (show ¬ (sha0 B ≠ sha0 B) from fun hcon => hcon rfl)]
    rw [hsplit]
    dsimp only
    rw [utf8Decode_encode P hPsc]
    dsimp only
    rw [hfill]
    dsimp only
    rw [if_pos (show (List.isEmpty ([] : List Nat)) = true from rfl), hmapid]

/-! ## Claims C2, C5, C8, C9: the diagram codecs -/

theorem cellsScalar_single (r0 c0 v0 : Nat) (h : ScalarValue v0) (hr : r0 < 7) (hc : c0 < 7) :
    CellsScalar (setCell emptyGrid r0 c0 (some v0)) := by
  intro r c v hv
  by_cases he : r0 = r ∧ c0 = c
  · obtain ⟨h1, h2⟩ := he
    subst h1
    subst h2
    rw [cellAt_setCell_self emptyGrid emptyGrid_wf r0 c0 hr hc] at hv
    cases hv
    exact h
  · rw [cellAt_setCell_ne emptyGrid r0 c0 r c (by tauto) _, cellAt_emptyGrid] at hv
    exact Option.noConfusion hv

theorem complexCellsOk_single (r0 c0 : Nat) (s0 : List Nat) (hr : r0 < 7) (hc : c0 < 7)
    (h1 : s0 ≠ []) (h2 : s0.length ≤ 50) (h3 : ∀ ch ∈ s0, ScalarValue ch) :
    ComplexCellsOk (setCell emptyGrid r0 c0 (some s0)) := by
  intro r c s hv
  by_cases he : r0 = r ∧ c0 = c
  · obtain ⟨he1, he2⟩ := he
    subst he1
    subst he2
    rw [cellAt_setCell_self emptyGrid emptyGrid_wf r0 c0 hr hc] at hv
    cases hv
    exact ⟨h1, h2, h3⟩
  · rw [cellAt_setCell_ne emptyGrid r0 c0 r c (by tauto) _, cellAt_emptyGrid] at hv
    exact Option.noConfusion hv

theorem complexIsEmpty_false_of_some (g : List (List (Option (List Nat))))
    (hwf : GridWF g) (r c : Nat) (hr : r < 7) (hc : c < 7) (s : List Nat)
    (h : cellAt g r c = some s) : complexIsEmpty g = false := by
  by_contra hcon
  rw [Bool.not_eq_false] at hcon
  unfold complexIsEmpty at hcon
  rw [List.all_eq_true] at hcon
  have hglen : g.length = 7 := hwf.1
  have hrow : g.getD r [] ∈ g := by
    rw [List.getD_eq_getElem g [] (by omega : r < g.length)]
    exact List.getElem_mem _
  have hcell : (g.getD r []).getD c none ∈ g.getD r [] := by
    rw [List.getD_eq_getElem _ none (by rw [hwf.2 _ hrow]; omega)]
    exact List.getElem_mem _
  have := (List.all_eq_true.mp (hcon _ hrow)) _ hcell
  unfold cellAt at h
  rw [h] at this
  exact Bool.false_ne_true this

/-- C2: for every valid non-empty grid of each of the three layouts
(Simple single characters, Complex strings of at most 50 scalar values,
Animate non-empty frame sequences), decoding the byte string produced
by encoding returns exactly the original grid.  The Simple and Complex
codecs are embedded from src/simple.rs and src/complex.rs; the Animate
decoder is modelled from spec §4.4 because the sources contain no
Animate decoder. -/
theorem C2_roundtrip_all_layouts (sha0 : List Nat → Nat)
    (g1 : List (List (Option Nat))) (g2 : List (List (Option (List Nat))))
    (cube : List (List (List (Option Nat))))
    (h1w : GridWF g1) (h1s : CellsScalar g1) (h1ne : simpleIsEmpty g1 = false)
    (h2w : GridWF g2) (h2ok : ComplexCellsOk g2) (h2ne : complexIsEmpty g2 = false)
    (h3 : AnimateCubeOk cube) :
    (∀ s, simpleToSecret sha0 g1 = .ok s → simpleFromSecret sha0 s = .ok g1) ∧
    (∀ s, complexToSecret sha0 g2 = .ok s → complexFromSecret sha0 s = .ok g2) ∧
    (∀ s, animateToBytes sha0 cube = some s → animateFromBytes sha0 s = some cube) :=
  ⟨simple_roundtrip sha0 g1 h1w h1s h1ne,
   complex_roundtrip sha0 g2 h2w h2ok h2ne,
   animate_roundtrip sha0 cube h3⟩

/-- C5: every byte string produced by any of the three encoders ends
with a checksum byte equal to the first SHA-256 byte (`sha0`) of all
preceding bytes. -/
theorem C5_checksum_byte (sha0 : List Nat → Nat)
    (g1 : List (List (Option Nat))) (g2 : List (List (Option (List Nat))))
    (cube : List (List (List (Option Nat)))) :
    (∀ s, simpleToSecret sha0 g1 = .ok s → s.getLast? = some (sha0 s.dropLast)) ∧
    (∀ s, complexToSecret sha0 g2 = .ok s → s.getLast? = some (sha0 s.dropLast)) ∧
    (∀ s, animateToBytes sha0 cube = some s → s.getLast? = some (sha0 s.dropLast)) := by
  refine ⟨?_, ?_, ?_⟩
  · intro s hs
    unfold simpleToSecret at hs
    by_cases he : simpleIsEmpty g1 = true
    · rw [if_pos he] at hs
      exact Except.noConfusion hs
    · rw [if_neg he] at hs
      dsimp only at hs
      cases hs
      rw [List.getLast?_concat, List.dropLast_concat]
  · intro s hs
    unfold complexToSecret at hs
    by_cases he : complexIsEmpty g2 = true
    · rw [if_pos he] at hs
      exact Except.noConfusion hs
    · rw [if_neg he] at hs
      dsimp only at hs
      cases hs
      rw [List.getLast?_concat, List.dropLast_concat]
  · intro s hs
    unfold animateToBytes at hs
    cases hm : cube.reverse.map animateFrameInd with
    | nil =>
      rw [hm] at hs
      exact Option.noConfusion hs
    | cons f0 rest =>
      rw [hm] at hs
      dsimp only at hs
      cases hs
      rw [List.getLast?_concat, List.dropLast_concat]

/-- Witness for C2: the round trips evaluated on concrete single-cell
grids for all three layouts. -/
theorem C2_witness :
    simpleFromSecret (fun _ => 7) [65, 64, 0, 0, 0, 0, 0, 0, 7]
        = .ok (setCell emptyGrid 0 0 (some 65)) ∧
    complexFromSecret (fun _ => 7) [65, 1, 192, 0, 0, 0, 0, 0, 0, 7]
        = .ok (setCell emptyGrid 0 0 (some [65])) ∧
    animateFromBytes (fun _ => 7) [65, 192, 128, 0, 0, 0, 0, 0, 7]
        = some [setCell emptyGrid 0 0 (some 65)] := by
  have h := C2_roundtrip_all_layouts (fun _ => 7)
    (setCell emptyGrid 0 0 (some 65)) (setCell emptyGrid 0 0 (some [65]))
    [setCell emptyGrid 0 0 (some 65)]
    (setCell_wf emptyGrid emptyGrid_wf 0 0 (some 65))
    (cellsScalar_single 0 0 65 (Or.inl (by omega)) (by omega) (by omega))
    (by decide)
    (setCell_wf emptyGrid emptyGrid_wf 0 0 (some [65]))
    (complexCellsOk_single 0 0 [65] (by omega) (by omega) (by decide) (by decide)
      (fun ch hch => by
        rw [List.eq_of_mem_singleton hch]
        exact Or.inl (by omega)))
    (by decide)
    ⟨List.cons_ne_nil _ _, fun mx hmx => by
      rw [List.eq_of_mem_singleton hmx]
      exact ⟨setCell_wf emptyGrid emptyGrid_wf 0 0 (some 65),
        cellsScalar_single 0 0 65 (Or.inl (by omega)) (by omega) (by omega)⟩⟩
  exact ⟨h.1 _ rfl, h.2.1 _ rfl, h.2.2 _ rfl⟩

/-- Witness for C5: the checksum property evaluated on the same
concrete single-cell grids. -/
theorem C5_witness :
    ([65, 64, 0, 0, 0, 0, 0, 0, 7] : List Nat).getLast? = some 7 ∧
    ([65, 1, 192, 0, 0, 0, 0, 0, 0, 7] : List Nat).getLast? = some 7 ∧
    ([65, 192, 128, 0, 0, 0, 0, 0, 7] : List Nat).getLast? = some 7 := by
  have h := C5_checksum_byte (fun _ => 7)
    (setCell emptyGrid 0 0 (some 65)) (setCell emptyGrid 0 0 (some [65]))
    [setCell emptyGrid 0 0 (some 65)]
  exact ⟨h.1 _ rfl, h.2.1 _ rfl, h.2.2 _ rfl⟩

/-- C8 (amended): the Simple and Complex encoders reject a diagram with
zero populated cells with `EmptyDiagram`, but the Animate encoder has
no emptiness check at all: any non-empty frame list encodes (even with
zero populated cells), and the empty frame list panics (modelled as
`none`) instead of returning `EmptyDiagram`. -/
theorem C8_empty_diagram (sha0 : List Nat → Nat)
    (g1 : List (List (Option Nat))) (g2 : List (List (Option (List Nat))))
    (cube : List (List (List (Option Nat)))) :
    (simpleIsEmpty g1 = true → simpleToSecret sha0 g1 = .error .emptyDiagram) ∧
    (complexIsEmpty g2 = true → complexToSecret sha0 g2 = .error .emptyDiagram) ∧
    (cube ≠ [] → ∃ s, animateToBytes sha0 cube = some s) ∧
    animateToBytes sha0 [] = none := by
  refine ⟨?_, ?_, ?_, rfl⟩
  · intro h
    unfold simpleToSecret
    rw [if_pos h]
  · intro h
    unfold complexToSecret
    rw [if_pos h]
  · intro h
    unfold animateToBytes
    cases hm : cube.reverse.map animateFrameInd with
    | nil =>
      exfalso
      exact h (List.reverse_eq_nil_iff.mp (List.map_eq_nil_iff.mp hm))
    | cons f0 rest =>
      exact ⟨_, rfl⟩

/-- C8 counterexample: an Animate diagram consisting of one completely
empty frame has zero populated cells, yet its encoding succeeds instead
of returning the `EmptyDiagram` error the claim demands for all three
layouts. -/
theorem C8_counterexample :
    animateToBytes (fun _ => 0) [emptyGrid] ≠ none := by
  decide

/-- Witness for C8: the amended behaviour on concrete diagrams. -/
theorem C8_witness :
    simpleToSecret (fun _ => 0) emptyGrid = .error .emptyDiagram ∧
    complexToSecret (fun _ => 0) emptyGrid = .error .emptyDiagram ∧
    (∃ s, animateToBytes (fun _ => 0) [emptyGrid] = some s) := by
  have h := C8_empty_diagram (fun _ => 0) emptyGrid emptyGrid [emptyGrid]
  exact ⟨h.1 (by decide), h.2.1 (by decide), h.2.2.1 (List.cons_ne_nil _ _)⟩

/-- C9: `ComplexDiagram::set` accepts a string of at most 50 Unicode
scalar values (in particular exactly 50, and such a grid encodes); 51
or more scalar values fail with `Overflows` and no updated grid is
produced; every accepted string has UTF-8 byte length strictly below
255, so the per-cell length byte emitted by the encoder is the exact
byte length. -/
theorem C9_complex_cell_limit (sha0 : List Nat → Nat)
    (g : List (List (Option (List Nat)))) (s : List Nat) (r c : Nat)
    (hwf : GridWF g) (hr : r < 7) (hc : c < 7) :
    (s.length ≤ 50 →
      complexSet g s r c = .ok (setCell g r c (if s.isEmpty then none else some s)) ∧
      (utf8Encode s).length < 255) ∧
    (50 < s.length → complexSet g s r c = .error .overflows) ∧
    (s ≠ [] → s.length ≤ 50 →
      ∃ out, complexToSecret sha0 (setCell g r c (some s)) = .ok out) ∧
    (ComplexCellsOk g →
      (complexCollect g).2.1
        = (complexCollect g).1.map (fun t => (utf8Encode t).length)) := by
  refine ⟨?_, ?_, ?_, ?_⟩
  · intro hle
    constructor
    · unfold complexSet
      rw [if_neg (by omega)]
    · have := utf8Encode_length_le s
      omega
  · intro hgt
    unfold complexSet
    rw [if_pos (by omega)]
  · intro hne hle
    have hcell : cellAt (setCell g r c (some s)) r c = some s :=
      cellAt_setCell_self g hwf r c hr hc (some s)
    have hemp := complexIsEmpty_false_of_some (setCell g r c (some s))
      (setCell_wf g hwf r c (some s)) r c hr hc s hcell
    unfold complexToSecret
    rw [hemp]
    simp only [Bool.false_eq_true, if_false]
    exact ⟨_, rfl⟩
  · intro hok
    rw [complexCollect_eq]
    dsimp only
    apply List.map_congr_left
    intro t ht
    obtain ⟨p, hpmem, hpeq⟩ := List.mem_filterMap.mp ht
    obtain ⟨_, h50, _⟩ := hok p.2 p.1 t hpeq
    have := utf8Encode_length_le t
    exact Nat.mod_eq_of_lt (by omega)

/-- Witness for C9: a 50-character string is accepted with an exact
length byte, a 51-character string overflows. -/
theorem C9_witness :
    (List.replicate 50 65).length ≤ 50 ∧
    complexSet emptyGrid (List.replicate 50 65) 0 0
      = .ok (setCell emptyGrid 0 0 (some (List.replicate 50 65))) ∧
    (utf8Encode (List.replicate 50 65)).length < 255 ∧
    complexSet emptyGrid (List.replicate 51 65) 0 0 = .error .overflows := by
  have h50 := C9_complex_cell_limit (fun _ => 0) emptyGrid (List.replicate 50 65) 0 0
    emptyGrid_wf (by omega) (by omega)
  have h51 := C9_complex_cell_limit (fun _ => 0) emptyGrid (List.replicate 51 65) 0 0
    emptyGrid_wf (by omega) (by omega)
  exact ⟨by decide, (h50.1 (by decide)).1, (h50.1 (by decide)).2, h51.2.1 (by decide)⟩

/-! ## Mnemonic bit packing facts -/

theorem sliceVal_bit (bs : List Nat) (s : Nat) :
    ∀ n t, t < n → sliceVal bs s n / 2 ^ (n - 1 - t) % 2 = streamBit bs (s + t) := by
  intro n
  induction n with
  | zero => intro t ht; omega
  | succ m ih =>
    intro t ht
    rw [sliceVal_succ]
    by_cases htm : t = m
    · have he : m + 1 - 1 - t = 0 := by omega
      rw [he, pow_zero, Nat.div_one, htm]
      have := streamBit_le_one bs (s + m)
      omega
    · have htm2 : t < m := by omega
      have he : m + 1 - 1 - t = (m - 1 - t) + 1 := by omega
      rw [he, pow_succ]
      have hb := streamBit_le_one bs (s + m)
      have hdiv : (sliceVal bs s m * 2 + streamBit bs (s + m)) / (2 ^ (m - 1 - t) * 2)
          = sliceVal bs s m / 2 ^ (m - 1 - t) := by
        rw [Nat.mul_comm (2 ^ (m - 1 - t)) 2, ← Nat.div_div_eq_div_mul]
        congr 1
        omega
      rw [hdiv, ih t htm2]

theorem chunkBit_xbits (bs : List Nat) (n size k : Nat) (hn : 0 < n)
    (hk : k < n * size) :
    chunkBit (xbitsChunks bs n size) n k = streamBit bs k := by
  unfold chunkBit xbitsChunks
  have hks : k / n < size := Nat.div_lt_of_lt_mul hk
  have hget : ((List.range size).map (fun i => sliceVal bs (i * n) n)).getD (k / n) 0
      = sliceVal bs ((k / n) * n) n := by
    rw [List.getD_eq_getElem _ 0 (by rw [List.length_map, List.length_range]; omega),
      List.getElem_map, List.getElem_range]
  rw [hget, sliceVal_bit bs _ n (k % n) (Nat.mod_lt _ hn)]
  congr 1
  rw [Nat.mul_comm]
  exact Nat.div_add_mod k n

theorem xbitsChunks_length (bs : List Nat) (n size : Nat) :
    (xbitsChunks bs n size).length = size := by
  unfold xbitsChunks
  rw [List.length_map, List.length_range]

theorem xbitsChunks_mem_lt (bs : List Nat) (n size : Nat) :
    ∀ i ∈ xbitsChunks bs n size, i < 2 ^ n := by
  intro i hi
  unfold xbitsChunks at hi
  obtain ⟨j, _, hj⟩ := List.mem_map.mp hi
  rw [← hj]
  exact sliceVal_lt bs _ n

theorem streamBit_last_byte (e : List Nat) (ck j : Nat) (hj : j < 8) :
    streamBit (e ++ [ck]) (e.length * 8 + j) = ck / 2 ^ (7 - j) % 2 := by
  unfold streamBit
  rw [if_pos (by rw [List.length_append, List.length_cons, List.length_nil]; omega)]
  have h1 : (e.length * 8 + j) / 8 = e.length := by omega
  have h2 : (e.length * 8 + j) % 8 = j := by omega
  rw [h1, h2]
  have h3 : (e ++ [ck]).getD e.length 0 = ck := by
    rw [List.getD_eq_getElem _ 0
        (by rw [List.length_append, List.length_cons, List.length_nil]; omega),
      List.getElem_append_right (Nat.le_refl _)]
    simp
  rw [h3, Nat.shiftRight_eq_div_pow, Nat.and_one_is_mod]

set_option maxRecDepth 16384 in
theorem checkMask_low_bits : ∀ x < 256, ∀ m < 9, 4 ≤ m → ∀ j < 8, m ≤ j →
    (x &&& (0xff <<< (8 - m)) % 256) / 2 ^ (7 - j) % 2 = 0 := by
  decide

set_option maxRecDepth 16384 in
theorem checkMask_val : ∀ m < 9, 4 ≤ m → (0xff <<< (8 - m)) % 256 = 256 - 2 ^ (8 - m) := by
  decide

theorem fromBitsChunk_xbits (e : List Nat) (ck m : Nat)
    (hv : ByteValid e) (hL : e.length = 4 * m) (hm1 : 4 ≤ m) (hm2 : m ≤ 8)
    (hck : ck < 256)
    (hcklow : ∀ j, m ≤ j → j < 8 → ck / 2 ^ (7 - j) % 2 = 0) :
    fromBitsChunk (xbitsChunks (e ++ [ck]) 11 (3 * m)) 11 = e ++ [ck] := by
  have hbsv : ByteValid (e ++ [ck]) := by
    intro b hb
    rcases List.mem_append.mp hb with h | h
    · exact hv b h
    · rw [List.eq_of_mem_singleton h]
      exact hck
  have hvslen : (xbitsChunks (e ++ [ck]) 11 (3 * m)).length = 3 * m :=
    xbitsChunks_length _ _ _
  have hcount : ((xbitsChunks (e ++ [ck]) 11 (3 * m)).length * 11 + 7) / 8 = 4 * m + 1 := by
    rw [hvslen]
    omega
  have hbits : (xbitsChunks (e ++ [ck]) 11 (3 * m)).length * 11 = 33 * m := by
    rw [hvslen]
    ring
  unfold fromBitsChunk
  rw [hcount, hbits]
  apply List.ext_getElem
  · rw [List.length_map, List.length_range, List.length_append, List.length_cons,
      List.length_nil, hL]
  · intro i hi1 hi2
    rw [List.getElem_map, List.getElem_range]
    have hi : i < 4 * m + 1 := by
      rw [List.length_map, List.length_range] at hi1
      exact hi1
    by_cases hie : i < 4 * m
    · -- a plain entropy byte
      have hfold : (List.range 8).foldl (fun acc j =>
            acc * 2 + (if i * 8 + j < 33 * m
              then chunkBit (xbitsChunks (e ++ [ck]) 11 (3 * m)) 11 (i * 8 + j) else 0)) 0
          = (List.range 8).foldl (fun acc j =>
            acc * 2 + streamBit (e ++ [ck]) (8 * i + j)) 0 := by
        apply List.foldl_ext
        intro a j hj
        have hj8 : j < 8 := List.mem_range.mp hj
        rw [if_pos (by omega), chunkBit_xbits (e ++ [ck]) 11 (3 * m) (i * 8 + j)
          (by omega) (by omega)]
        have : i * 8 + j = 8 * i + j := by ring
        rw [this]
      rw [hfold]
      have hsv : (List.range 8).foldl (fun acc j =>
            acc * 2 + streamBit (e ++ [ck]) (8 * i + j)) 0
          = sliceVal (e ++ [ck]) (8 * i) 8 := rfl
      rw [hsv, sliceVal_byte (e ++ [ck]) hbsv i]
      rw [List.getD_eq_getElem _ 0
        (by rw [List.length_append, List.length_cons, List.length_nil]; omega)]
    · -- the checksum byte
      have hieq : i = 4 * m := by omega
      subst hieq
      have hfold : (List.range 8).foldl (fun acc j =>
            acc * 2 + (if 4 * m * 8 + j < 33 * m
              then chunkBit (xbitsChunks (e ++ [ck]) 11 (3 * m)) 11 (4 * m * 8 + j) else 0)) 0
          = (List.range 8).foldl (fun acc j => acc * 2 + ck / 2 ^ (7 - j) % 2) 0 := by
        apply List.foldl_ext
        intro a j hj
        have hj8 : j < 8 := List.mem_range.mp hj
        by_cases hjm : j < m
        · have hn11 : (0 : Nat) < 11 := by omega
          have hk33 : 4 * m * 8 + j < 11 * (3 * m) := by omega
          rw [if_pos (by omega),
            chunkBit_xbits (e ++ [ck]) 11 (3 * m) (4 * m * 8 + j) hn11 hk33]
          have he : 4 * m * 8 + j = e.length * 8 + j := by rw [hL]
          rw [he, streamBit_last_byte e ck j hj8]
        · rw [if_neg (by omega), hcklow j (by omega) hj8]
      rw [hfold]
      have hshift : (List.range 8).foldl (fun acc j => acc * 2 + ck / 2 ^ (7 - j) % 2) 0
          = (List.range 8).foldl (fun acc j => acc * 2 + ((ck >>> (7 - j)) &&& 1)) 0 := by
        apply List.foldl_ext
        intro a j _
        dsimp only
        rw [Nat.shiftRight_eq_div_pow, Nat.and_one_is_mod]
      rw [hshift, byte_fold_bits ck hck]
      have h3 : (e ++ [ck]).getD (4 * m) 0 = ck := by
        rw [← hL, List.getD_eq_getElem _ 0
            (by rw [List.length_append, List.length_cons, List.length_nil]; omega),
          List.getElem_append_right (Nat.le_refl _)]
        simp
      have h4 : (e ++ [ck])[4 * m] = ck := by
        rw [← List.getD_eq_getElem (e ++ [ck]) 0 hi2]
        exact h3
      exact h4.symm

/-! ## Wordlist index facts -/

theorem indexOfW_getD : ∀ (ws : List (List Nat)), ws.Nodup → ∀ i, i < ws.length →
    ∀ k, indexOfW ws (ws.getD i []) k = some (k + i) := by
  intro ws
  induction ws with
  | nil =>
    intro _ i hi
    rw [List.length_nil] at hi
    omega
  | cons x xs ih =>
    intro hnd i hi k
    cases i with
    | zero =>
      unfold indexOfW
      rw [List.getD_cons_zero, if_pos rfl, Nat.add_zero]
    | succ j =>
      have hj : j < xs.length := by
        rw [List.length_cons] at hi
        omega
      have hmem : xs.getD j [] ∈ xs := by
        rw [List.getD_eq_getElem xs [] hj]
        exact List.getElem_mem _
      unfold indexOfW
      rw [List.getD_cons_succ]
      rw [if_neg (fun he => (List.nodup_cons.mp hnd).1 (by rw [he]; exact hmem))]
      rw [ih (List.nodup_cons.mp hnd).2 j hj (k + 1)]
      congr 1
      omega

theorem indexOfW_isSome : ∀ (ws : List (List Nat)) (w : List Nat) (k : Nat),
    w ∈ ws → (indexOfW ws w k).isSome = true := by
  intro ws
  induction ws with
  | nil => intro w k hw; exact absurd hw (List.not_mem_nil _)
  | cons x xs ih =>
    intro w k hw
    unfold indexOfW
    by_cases he : x = w
    · rw [if_pos he]
      rfl
    · rw [if_neg he]
      rcases List.mem_cons.mp hw with h | h
      · exact absurd h.symm he
      · exact ih w (k + 1) h

theorem indexOfW_mem : ∀ (ws : List (List Nat)) (w : List Nat) (k i : Nat),
    indexOfW ws w k = some i → w ∈ ws := by
  intro ws
  induction ws with
  | nil => intro w k i h; exact Option.noConfusion h
  | cons x xs ih =>
    intro w k i h
    unfold indexOfW at h
    by_cases he : x = w
    · rw [he]
      exact List.mem_cons_self _ _
    · rw [if_neg he] at h
      exact List.mem_cons_of_mem _ (ih w (k + 1) i h)

theorem langIndices_map (ws : List (List Nat)) (hnd : ws.Nodup) :
    ∀ idxs : List Nat, (∀ i ∈ idxs, i < ws.length) →
      langIndices ws (idxs.map (fun i => ws.getD i [])) = some idxs := by
  intro idxs
  induction idxs with
  | nil => intro _; rfl
  | cons i idxs ih =>
    intro h
    rw [List.map_cons]
    unfold langIndices
    rw [indexOfW_getD ws hnd i (h i (List.mem_cons_self _ _)) 0,
      ih (fun j hj => h j (List.mem_cons_of_mem _ hj))]
    rw [Nat.zero_add]

theorem langIndices_sound : ∀ (words : List (List Nat)) (ws : List (List Nat))
    (idxs : List Nat), langIndices ws words = some idxs → ∀ w ∈ words, w ∈ ws := by
  intro words
  induction words with
  | nil => intro ws idxs _ w hw; exact absurd hw (List.not_mem_nil _)
  | cons w2 rest ih =>
    intro ws idxs h w hw
    unfold langIndices at h
    cases hio : indexOfW ws w2 0 with
    | none => rw [hio] at h; exact Option.noConfusion h
    | some i =>
      rw [hio] at h
      cases hrest : langIndices ws rest with
      | none => rw [hrest] at h; exact Option.noConfusion h
      | some is =>
        rcases List.mem_cons.mp hw with he | hmem
        · rw [he]
          exact indexOfW_mem ws w2 0 i hio
        · exact ih ws is hrest w hmem

theorem wordAt_getD (ws : List (List Nat)) (h2048 : ws.length = 2048) (i : Nat)
    (hi : i < 2048) : (wordAt ws i).getD [] = ws.getD i [] := by
  unfold wordAt
  rw [if_pos hi, List.getElem?_eq_getElem (by omega), Option.getD_some,
    List.getD_eq_getElem _ [] (by omega)]

/-! ## Split and join of the mnemonic phrase -/

theorem splitWsAux_nil (cur : List Nat) :
    splitWsAux [] cur = if cur.isEmpty then [] else [cur.reverse] := rfl

theorem splitWsAux_cons (c : Nat) (cs cur : List Nat) :
    splitWsAux (c :: cs) cur
      = (if isWs c then
           (if cur.isEmpty then splitWsAux cs [] else cur.reverse :: splitWsAux cs [])
         else splitWsAux cs (c :: cur)) := rfl

theorem reverse_ne_nil_of_ne_nil (w : List Nat) (h : w ≠ []) : w.reverse ≠ [] := by
  intro hcon
  exact h (by
    have := congrArg List.reverse hcon
    rw [List.reverse_reverse] at this
    rw [this]
    rfl)

theorem splitWsAux_token : ∀ (w s cur : List Nat), (∀ c ∈ w, isWs c = false) →
    splitWsAux (w ++ s) cur = splitWsAux s (w.reverse ++ cur) := by
  intro w
  induction w with
  | nil => intro s cur _; rw [List.nil_append, List.reverse_nil, List.nil_append]
  | cons c cs ih =>
    intro s cur h
    have hc := h c (List.mem_cons_self _ _)
    rw [List.cons_append, splitWsAux_cons]
    rw [if_neg (by rw [hc]; exact Bool.false_ne_true)]
    rw [ih s (c :: cur) (fun x hx => h x (List.mem_cons_of_mem _ hx))]
    rw [List.reverse_cons, List.append_assoc, List.singleton_append]

theorem splitWs_join : ∀ ws : List (List Nat),
    (∀ w ∈ ws, w ≠ [] ∧ ∀ c ∈ w, isWs c = false) →
    splitWs (joinWords ws) = ws := by
  intro ws
  induction ws with
  | nil => intro _; rfl
  | cons w rest ih =>
    intro h
    obtain ⟨hne, hfree⟩ := h w (List.mem_cons_self _ _)
    cases rest with
    | nil =>
      show splitWs (joinWords [w]) = [w]
      have hj : joinWords [w] = w := rfl
      rw [hj]
      show splitWsAux w [] = [w]
      have htok := splitWsAux_token w [] [] hfree
      rw [List.append_nil, List.append_nil] at htok
      rw [htok, splitWsAux_nil]
      rw [if_neg (by
        rw [List.isEmpty_iff]
        exact reverse_ne_nil_of_ne_nil w hne)]
      rw [List.reverse_reverse]
    | cons w2 rest2 =>
      show splitWs (joinWords (w :: w2 :: rest2)) = w :: w2 :: rest2
      have hj : joinWords (w :: w2 :: rest2) = w ++ 0x20 :: joinWords (w2 :: rest2) := rfl
      rw [hj]
      show splitWsAux (w ++ 0x20 :: joinWords (w2 :: rest2)) [] = w :: w2 :: rest2
      rw [splitWsAux_token w _ [] hfree, List.append_nil, splitWsAux_cons]
      rw [if_pos (by decide)]
      rw [if_neg (by
        rw [List.isEmpty_iff]
        exact reverse_ne_nil_of_ne_nil w hne)]
      rw [List.reverse_reverse]
      have hrec := ih (fun x hx => h x (List.mem_cons_of_mem _ hx))
      unfold splitWs at hrec
      rw [hrec]

/-! ## Language detection and the survivor set -/

theorem mem_detect (wl : Language → List (List Nat)) (lang : Language) (w : List Nat)
    (hb : lang ∈ baseCand w) (hmem : w ∈ wl lang) : lang ∈ detect wl w := by
  unfold detect
  exact List.mem_filter.mpr ⟨hb, indexOfW_isSome (wl lang) w 0 hmem⟩

theorem mem_foldl_filter (wl : Language → List (List Nat)) (lang : Language) :
    ∀ (ws : List (List Nat)) (acc : List Language), lang ∈ acc →
      (∀ w ∈ ws, lang ∈ detect wl w) →
      lang ∈ ws.foldl (fun acc w2 => acc.filter (fun x => x ∈ detect wl w2)) acc := by
  intro ws
  induction ws with
  | nil => intro acc ha _; exact ha
  | cons w2 ws ih =>
    intro acc ha hall
    rw [List.foldl_cons]
    exact ih _ (List.mem_filter.mpr ⟨ha,
        decide_eq_true (hall w2 (List.mem_cons_self _ _))⟩)
      (fun w hw => hall w (List.mem_cons_of_mem _ hw))

theorem foldl_filter_nodup (wl : Language → List (List Nat)) :
    ∀ (ws : List (List Nat)) (acc : List Language), acc.Nodup →
      (ws.foldl (fun acc w2 => acc.filter (fun x => x ∈ detect wl w2)) acc).Nodup := by
  intro ws
  induction ws with
  | nil => intro acc h; exact h
  | cons w2 ws ih =>
    intro acc h
    rw [List.foldl_cons]
    exact ih _ (List.Nodup.filter _ h)

theorem baseCand_nodup (w : List Nat) : (baseCand w).Nodup := by
  unfold baseCand
  cases w with
  | nil => exact List.nodup_nil
  | cons ch rest =>
    dsimp only
    by_cases h1 : 0x1100 ≤ ch ∧ ch ≤ 0x11ff
    · rw [if_pos h1]; decide
    · rw [if_neg h1]
      by_cases h2 : 0x3040 ≤ ch ∧ ch ≤ 0x309f
      · rw [if_pos h2]; decide
      · rw [if_neg h2]
        by_cases h3 : 0x4e00 ≤ ch ∧ ch ≤ 0x9f9f
        · rw [if_pos h3]; decide
        · rw [if_neg h3]
          by_cases h4 : ((ch :: rest).all fun c => decide (c < 128)) = true
          · rw [if_pos h4]; decide
          · rw [if_neg h4]; decide

theorem detectLanguage_nodup (wl : Language → List (List Nat))
    (words : List (List Nat)) : (detectLanguage wl words).Nodup := by
  cases words with
  | nil => exact List.nodup_nil
  | cons w ws =>
    unfold detectLanguage
    exact foldl_filter_nodup wl ws _ (List.Nodup.filter _ (baseCand_nodup w))

theorem survivors_nodup (sha0 : List Nat → Nat) (wl : Language → List (List Nat))
    (words : List (List Nat)) : (survivors sha0 wl words).Nodup := by
  unfold survivors
  exact List.Nodup.filter _ (detectLanguage_nodup wl words)

theorem survivors_mem (sha0 : List Nat → Nat) (wl : Language → List (List Nat))
    (words : List (List Nat)) (l : Language) (h : l ∈ survivors sha0 wl words) :
    ∃ idxs, langIndices (wl l) words = some idxs ∧ verifyChecksum sha0 idxs = true := by
  unfold survivors at h
  have hp := (List.mem_filter.mp h).2
  cases hio : langIndices (wl l) words with
  | none =>
    rw [hio] at hp
    exact Bool.noConfusion hp
  | some idxs =>
    rw [hio] at hp
    exact ⟨idxs, rfl, hp⟩

theorem mem_survivors (sha0 : List Nat → Nat) (wl : Language → List (List Nat))
    (words : List (List Nat)) (lang : Language) (idxs : List Nat)
    (hne : words ≠ [])
    (hb : ∀ w ∈ words, lang ∈ baseCand w)
    (hmem : ∀ w ∈ words, w ∈ wl lang)
    (hidx : langIndices (wl lang) words = some idxs)
    (hver : verifyChecksum sha0 idxs = true) :
    lang ∈ survivors sha0 wl words := by
  unfold survivors
  apply List.mem_filter.mpr
  refine ⟨?_, ?_⟩
  · cases words with
    | nil => exact absurd rfl hne
    | cons w ws =>
      unfold detectLanguage
      exact mem_foldl_filter wl lang ws (detect wl w)
        (mem_detect wl lang w (hb w (List.mem_cons_self _ _))
          (hmem w (List.mem_cons_self _ _)))
        (fun w2 hw2 => mem_detect wl lang w2 (hb w2 (List.mem_cons_of_mem _ hw2))
          (hmem w2 (List.mem_cons_of_mem _ hw2)))
  · rw [hidx]
    exact hver

theorem nodup_all_eq_singleton (l : List Language) (a : Language) (hne : a ∈ l)
    (hall : ∀ x ∈ l, x = a) (hnd : l.Nodup) : l = [a] := by
  cases l with
  | nil => exact absurd hne (List.not_mem_nil _)
  | cons x xs =>
    have hx : x = a := hall x (List.mem_cons_self _ _)
    have hxs : xs = [] := by
      cases xs with
      | nil => rfl
      | cons y ys =>
        have hy : y = a := hall y (List.mem_cons_of_mem _ (List.mem_cons_self _ _))
        exfalso
        exact (List.nodup_cons.mp hnd).1 (by
          rw [hx, ← hy]
          exact List.mem_cons_self _ _)
    rw [hx, hxs]

theorem nodup_sub_pair (l : List Language) (a b : Language)
    (hnd : l.Nodup) (hsub : ∀ x ∈ l, x = a ∨ x = b) (ha : a ∈ l) :
    l = [a] ∨ l = [a, b] ∨ l = [b, a] := by
  cases l with
  | nil => exact absurd ha (List.not_mem_nil _)
  | cons x xs =>
    cases xs with
    | nil =>
      left
      have hx : x = a := by
        rcases List.mem_cons.mp ha with h | h
        · exact h.symm
        · exact absurd h (List.not_mem_nil _)
      rw [hx]
    | cons y ys =>
      have hxy : x ≠ y := by
        intro hcon
        exact (List.nodup_cons.mp hnd).1 (by rw [hcon]; exact List.mem_cons_self _ _)
      have hys : ys = [] := by
        cases ys with
        | nil => rfl
        | cons z zs =>
          exfalso
          have hz1 : x ≠ z := by
            intro hcon
            exact (List.nodup_cons.mp hnd).1 (by
              rw [hcon]
              exact List.mem_cons_of_mem _ (List.mem_cons_self _ _))
          have hz2 : y ≠ z := by
            intro hcon
            exact (List.nodup_cons.mp (List.nodup_cons.mp hnd).2).1 (by
              rw [hcon]
              exact List.mem_cons_self _ _)
          have h1 := hsub x (List.mem_cons_self _ _)
          have h2 := hsub y (List.mem_cons_of_mem _ (List.mem_cons_self _ _))
          have h3 := hsub z (List.mem_cons_of_mem _
            (List.mem_cons_of_mem _ (List.mem_cons_self _ _)))
          rcases h1 with h1 | h1 <;> rcases h2 with h2 | h2 <;> rcases h3 with h3 | h3 <;>
            first
              | exact hxy (h1.trans h2.symm)
              | exact hz1 (h1.trans h3.symm)
              | exact hz2 (h2.trans h3.symm)
      subst hys
      have h1 := hsub x (List.mem_cons_self _ _)
      have h2 := hsub y (List.mem_cons_of_mem _ (List.mem_cons_self _ _))
      rcases h1 with h1 | h1 <;> rcases h2 with h2 | h2
      · exact absurd (h1.trans h2.symm) hxy
      · right; left; rw [h1, h2]
      · right; right; rw [h1, h2]
      · exact absurd (h1.trans h2.symm) hxy

theorem langIndices_map_getD : ∀ (words : List (List Nat)) (ws : List (List Nat))
    (idxs : List Nat), langIndices ws words = some idxs →
    words.map (fun w => (indexOfW ws w 0).getD 0) = idxs := by
  intro words
  induction words with
  | nil =>
    intro ws idxs h
    rw [List.map_nil]
    unfold langIndices at h
    cases h
    rfl
  | cons w rest ih =>
    intro ws idxs h
    unfold langIndices at h
    cases hio : indexOfW ws w 0 with
    | none => rw [hio] at h; exact Option.noConfusion h
    | some i =>
      rw [hio] at h
      cases hrest : langIndices ws rest with
      | none => rw [hrest] at h; exact Option.noConfusion h
      | some is =>
        rw [hrest] at h
        cases h
        rw [List.map_cons, hio, ih ws is hrest]
        rfl

/-! ## The mnemonic encode facts -/

theorem mnemonicIndices_eq (sha0 : List Nat → Nat) (e : List Nat) (m : Nat)
    (hL : e.length = 4 * m) :
    mnemonicIndices sha0 e
      = xbitsChunks (e ++ [sha0 e &&& checkMask (3 * m)]) 11 (3 * m) := by
  show xbitsChunks (e ++ [sha0 e &&& checkMask (e.length / 4 * 3)]) 11 (e.length / 4 * 3) = _
  have hsz : e.length / 4 * 3 = 3 * m := by omega
  rw [hsz]

theorem mnemonic_encode_facts (sha0 : List Nat → Nat) (wl : Language → List (List Nat))
    (e : List Nat) (lang : Language) (m : Nat)
    (hsha : ∀ bs, sha0 bs < 256)
    (h2048 : (wl lang).length = 2048) (hnd : (wl lang).Nodup)
    (hv : ByteValid e) (hL : e.length = 4 * m) (hm1 : 4 ≤ m) (hm2 : m ≤ 8) :
    (mnemonicIndices sha0 e).length = 3 * m ∧
    (∀ i ∈ mnemonicIndices sha0 e, i < 2048) ∧
    mnemonicNew sha0 wl e lang
      = .ok ((mnemonicIndices sha0 e).map (fun i => (wl lang).getD i []), lang) ∧
    langIndices (wl lang) ((mnemonicIndices sha0 e).map (fun i => (wl lang).getD i []))
      = some (mnemonicIndices sha0 e) ∧
    verifyChecksum sha0 (mnemonicIndices sha0 e) = true ∧
    fromBitsChunk (mnemonicIndices sha0 e) 11
      = e ++ [sha0 e &&& checkMask (3 * m)] := by
  have hck256 : sha0 e &&& checkMask (3 * m) < 256 := by
    have h1 : sha0 e &&& checkMask (3 * m) ≤ sha0 e := Nat.and_le_left
    have := hsha e
    omega
  have hmask : checkMask (3 * m) = (0xff <<< (8 - m)) % 256 := by
    unfold checkMask
    have h3 : 3 * m / 3 = m := by omega
    rw [h3]
  have hcklow : ∀ j, m ≤ j → j < 8 →
      (sha0 e &&& checkMask (3 * m)) / 2 ^ (7 - j) % 2 = 0 := by
    intro j hjm hj8
    rw [hmask]
    exact checkMask_low_bits (sha0 e) (hsha e) m (by omega) hm1 j hj8 hjm
  have hidx := mnemonicIndices_eq sha0 e m hL
  have hlen : (mnemonicIndices sha0 e).length = 3 * m := by
    rw [hidx]
    exact xbitsChunks_length _ _ _
  have hlt : ∀ i ∈ mnemonicIndices sha0 e, i < 2048 := by
    intro i hi
    rw [hidx] at hi
    exact xbitsChunks_mem_lt _ _ _ i hi
  have hpack : fromBitsChunk (mnemonicIndices sha0 e) 11
      = e ++ [sha0 e &&& checkMask (3 * m)] := by
    rw [hidx]
    exact fromBitsChunk_xbits e _ m hv hL hm1 hm2 hck256 hcklow
  have hvalid : validWordCount (3 * m) = true := by
    have hm : m = 4 ∨ m = 5 ∨ m = 6 ∨ m = 7 ∨ m = 8 := by omega
    rcases hm with h | h | h | h | h <;> subst h <;> decide
  have hver : verifyChecksum sha0 (mnemonicIndices sha0 e) = true := by
    unfold verifyChecksum
    rw [hlen, if_pos hvalid, hpack]
    dsimp only
    rw [List.getLast?_concat]
    dsimp only
    rw [List.dropLast_concat]
    exact decide_eq_true rfl
  have hnew : mnemonicNew sha0 wl e lang
      = .ok ((mnemonicIndices sha0 e).map (fun i => (wl lang).getD i []), lang) := by
    unfold mnemonicNew
    rw [if_pos (show e.length = 16 ∨ e.length = 20 ∨ e.length = 24 ∨ e.length = 28
      ∨ e.length = 32 by omega)]
    have hmc : (mnemonicIndices sha0 e).map (fun i => (wordAt (wl lang) i).getD [])
        = (mnemonicIndices sha0 e).map (fun i => (wl lang).getD i []) :=
      List.map_congr_left (fun i hi => wordAt_getD (wl lang) h2048 i (hlt i hi))
    rw [hmc]
  have hli : langIndices (wl lang)
      ((mnemonicIndices sha0 e).map (fun i => (wl lang).getD i []))
        = some (mnemonicIndices sha0 e) :=
    langIndices_map (wl lang) hnd (mnemonicIndices sha0 e)
      (fun i hi => by rw [h2048]; exact hlt i hi)
  exact ⟨hlen, hlt, hnew, hli, hver, hpack⟩

theorem fromStr_eval (sha0 : List Nat → Nat) (wl : Language → List (List Nat))
    (words : List (List Nat)) (s : List Nat)
    (hsplit : splitWs s = words) (hvalid : validWordCount words.length = true) :
    mnemonicFromStr sha0 wl s
      = (match survivors sha0 wl words with
         | [] => .error .invalidChecksum
         | [l] => .ok (words, l)
         | l1 :: l2 :: rest =>
           if l1 :: l2 :: rest = [.chineseSimplified, .chineseTraditional]
               ∨ l1 :: l2 :: rest = [.chineseTraditional, .chineseSimplified] then
             .ok (words, .chineseSimplified)
           else .error (.ambiguousLanguages (l1 :: l2 :: rest))) := by
  unfold mnemonicFromStr
  rw [hsplit, if_pos hvalid]

/-- C3: for every entropy of length 16, 20, 24, 28 or 32 bytes and
every language, decoding the mnemonic phrase produced by encoding
recovers exactly the original entropy.  The wordlist facts
(`WordlistsOk`) and the cross-list separation presumed by the spec
survivor analysis (`WordlistsSeparated`) are modelled from the BIP39
standard lists, whose raw files are absent from the sources; the
Chinese pair may collapse to Simplified, which shares the indices. -/
theorem C3_mnemonic_roundtrip (sha0 : List Nat → Nat) (wl : Language → List (List Nat))
    (e : List Nat) (lang : Language)
    (hsha : ∀ bs, sha0 bs < 256)
    (hwl : WordlistsOk wl) (hsep : WordlistsSeparated wl)
    (hv : ByteValid e)
    (hL : e.length = 16 ∨ e.length = 20 ∨ e.length = 24 ∨ e.length = 28
      ∨ e.length = 32) :
    ∃ words lang2,
      mnemonicNew sha0 wl e lang = .ok (words, lang) ∧
      mnemonicFromStr sha0 wl (joinWords words) = .ok (words, lang2) ∧
      mnemonicEntropy wl words lang2 = e := by
  obtain ⟨hlen2048, hnodup, hwfacts, hcand⟩ := hwl
  obtain ⟨m, hL4, hm1, hm2⟩ : ∃ m, e.length = 4 * m ∧ 4 ≤ m ∧ m ≤ 8 := by
    rcases hL with h | h | h | h | h
    · exact ⟨4, by omega, by omega, by omega⟩
    · exact ⟨5, by omega, by omega, by omega⟩
    · exact ⟨6, by omega, by omega, by omega⟩
    · exact ⟨7, by omega, by omega, by omega⟩
    · exact ⟨8, by omega, by omega, by omega⟩
  obtain ⟨hilen, hilt, hnew, hli, hver, hpack⟩ :=
    mnemonic_encode_facts sha0 wl e lang m hsha (hlen2048 lang) (hnodup lang) hv hL4 hm1 hm2
  set idxs := mnemonicIndices sha0 e with hidxs
  set words := idxs.map (fun i => (wl lang).getD i []) with hwdef
  refine ⟨words, ?_⟩
  have hwmem : ∀ w ∈ words, w ∈ wl lang := by
    intro w hw
    rw [hwdef] at hw
    obtain ⟨i, hi, hieq⟩ := List.mem_map.mp hw
    rw [← hieq, List.getD_eq_getElem _ [] (by rw [hlen2048 lang]; exact hilt i hi)]
    exact List.getElem_mem _
  have hwlen : words.length = 3 * m := by rw [hwdef, List.length_map, hilen]
  have hwne : words ≠ [] := by
    intro hcon
    have h0 : words.length = 0 := by rw [hcon]; rfl
    rw [hwlen] at h0
    omega
  have hsplit : splitWs (joinWords words) = words :=
    splitWs_join words (fun w hw => hwfacts lang w (hwmem w hw))
  have hvalid : validWordCount words.length = true := by
    rw [hwlen]
    have hm : m = 4 ∨ m = 5 ∨ m = 6 ∨ m = 7 ∨ m = 8 := by omega
    rcases hm with h | h | h | h | h <;> subst h <;> decide
  have hsurv_lang : lang ∈ survivors sha0 wl words :=
    mem_survivors sha0 wl words lang idxs hwne
      (fun w hw => hcand lang w (hwmem w hw)) hwmem hli hver
  have hsub : ∀ l2 ∈ survivors sha0 wl words,
      l2 = lang ∨ ((lang = .chineseSimplified ∧ l2 = .chineseTraditional)
        ∨ (lang = .chineseTraditional ∧ l2 = .chineseSimplified)) := by
    intro l2 hl2
    by_cases heq : l2 = lang
    · exact Or.inl heq
    · obtain ⟨idxs2, hio2, _⟩ := survivors_mem sha0 wl words l2 hl2
      obtain ⟨w0, hw0⟩ : ∃ w0, w0 ∈ words := by
        cases hwc : words with
        | nil => exact absurd hwc hwne
        | cons a l => exact ⟨a, List.mem_cons_self _ _⟩
      have hmem2 : w0 ∈ wl l2 := langIndices_sound words (wl l2) idxs2 hio2 w0 hw0
      have hmem1 : w0 ∈ wl lang := hwmem w0 hw0
      right
      by_cases hzh : (lang = .chineseSimplified ∧ l2 = .chineseTraditional)
          ∨ (lang = .chineseTraditional ∧ l2 = .chineseSimplified)
      · exact hzh
      · exfalso
        rw [not_or] at hzh
        exact hsep.1 lang l2 (fun h => heq h.symm) hzh.1 hzh.2 w0 hmem1 hmem2
  have hnd : (survivors sha0 wl words).Nodup := survivors_nodup sha0 wl words
  have hentropy_lang : mnemonicEntropy wl words lang = e := by
    unfold mnemonicEntropy
    rw [langIndices_map_getD words (wl lang) idxs hli, hpack, List.dropLast_concat]
  by_cases hzhl : lang = Language.chineseSimplified ∨ lang = Language.chineseTraditional
  · rcases hzhl with hcs | hct
    · subst hcs
      have hpairs := nodup_sub_pair _ Language.chineseSimplified
        Language.chineseTraditional hnd
        (fun x hx => by
          rcases hsub x hx with h | ⟨⟨_, h2⟩ | ⟨h1, _⟩⟩
          · exact Or.inl h
          · exact Or.inr h2
          · exact absurd h1 (by decide)) hsurv_lang
      rcases hpairs with hs | hs | hs
      · refine ⟨Language.chineseSimplified, hnew, ?_, hentropy_lang⟩
        rw [fromStr_eval sha0 wl words _ hsplit hvalid, hs]
      · refine ⟨Language.chineseSimplified, hnew, ?_, hentropy_lang⟩
        rw [fromStr_eval sha0 wl words _ hsplit hvalid, hs]
        dsimp only
        rw [if_pos (Or.inl rfl)]
      · refine ⟨Language.chineseSimplified, hnew, ?_, hentropy_lang⟩
        rw [fromStr_eval sha0 wl words _ hsplit hvalid, hs]
        dsimp only
        rw [if_pos (Or.inr rfl)]
    · subst hct
      have hpairs := nodup_sub_pair _ Language.chineseTraditional
        Language.chineseSimplified hnd
        (fun x hx => by
          rcases hsub x hx with h | ⟨⟨h1, _⟩ | ⟨_, h2⟩⟩
          · exact Or.inl h
          · exact absurd h1 (by decide)
          · exact Or.inr h2) hsurv_lang
      have hcs_entropy : Language.chineseSimplified ∈ survivors sha0 wl words →
          mnemonicEntropy wl words Language.chineseSimplified = e := by
        intro hcsmem
        obtain ⟨idxs2, hio2, _⟩ :=
          survivors_mem sha0 wl words Language.chineseSimplified hcsmem
        have hmapeq : words.map
            (fun w => (indexOfW (wl Language.chineseSimplified) w 0).getD 0)
            = words.map
              (fun w => (indexOfW (wl Language.chineseTraditional) w 0).getD 0) := by
          apply List.map_congr_left
          intro w hw
          have h1 : w ∈ wl Language.chineseSimplified :=
            langIndices_sound words _ idxs2 hio2 w hw
          have h2 : w ∈ wl Language.chineseTraditional := hwmem w hw
          rw [hsep.2 w h1 h2]
        unfold mnemonicEntropy
        rw [hmapeq, langIndices_map_getD words _ idxs hli, hpack, List.dropLast_concat]
      rcases hpairs with hs | hs | hs
      · refine ⟨Language.chineseTraditional, hnew, ?_, hentropy_lang⟩
        rw [fromStr_eval sha0 wl words _ hsplit hvalid, hs]
      · refine ⟨Language.chineseSimplified, hnew, ?_,
          hcs_entropy (by rw [hs]; exact List.mem_cons_of_mem _ (List.mem_cons_self _ _))⟩
        rw [fromStr_eval sha0 wl words _ hsplit hvalid, hs]
        dsimp only
        rw [if_pos (Or.inr rfl)]
      · refine ⟨Language.chineseSimplified, hnew, ?_,
          hcs_entropy (by rw [hs]; exact List.mem_cons_self _ _)⟩
        rw [fromStr_eval sha0 wl words _ hsplit hvalid, hs]
        dsimp only
        rw [if_pos (Or.inl rfl)]
  · have hall : ∀ x ∈ survivors sha0 wl words, x = lang := by
      intro x hx
      rcases hsub x hx with h | ⟨⟨h1, _⟩ | ⟨h1, _⟩⟩
      · exact h
      · exact absurd (Or.inl h1) hzhl
      · exact absurd (Or.inr h1) hzhl
    have hs : survivors sha0 wl words = [lang] :=
      nodup_all_eq_singleton _ lang hsurv_lang hall hnd
    refine ⟨lang, hnew, ?_, hentropy_lang⟩
    rw [fromStr_eval sha0 wl words _ hsplit hvalid, hs]

/-! ## The toy wordlists satisfy the wordlist hypotheses -/

theorem isWs_digit : ∀ x < 112, 48 ≤ x → isWs x = false := by
  decide

theorem toyWl_length (l : Language) : (toyWl l).length = 2048 := by
  unfold toyWl
  rw [List.length_map, List.length_range]

theorem toyWl_nodup (l : Language) : (toyWl l).Nodup := by
  unfold toyWl
  apply List.Nodup.map ?_ (List.nodup_range 2048)
  intro i j hij
  rw [List.cons.injEq, List.cons.injEq, List.cons.injEq] at hij
  obtain ⟨-, h1, h2, -⟩ := hij
  omega

theorem toyWl_facts (l : Language) : ∀ w ∈ toyWl l,
    w ≠ [] ∧ ∀ c ∈ w, isWs c = false := by
  intro w hw
  unfold toyWl at hw
  obtain ⟨i, hi, hieq⟩ := List.mem_map.mp hw
  have hi2048 : i < 2048 := List.mem_range.mp hi
  subst hieq
  refine ⟨List.cons_ne_nil _ _, ?_⟩
  intro c hc
  rcases List.mem_cons.mp hc with h | hc2
  · subst h
    cases l <;> decide
  · rcases List.mem_cons.mp hc2 with h | hc3
    · subst h
      exact isWs_digit _ (by omega) (by omega)
    · rcases List.mem_cons.mp hc3 with h | hc4
      · subst h
        exact isWs_digit _ (by omega) (by omega)
      · exact absurd hc4 (List.not_mem_nil _)

theorem all_lt128_three (a b c : Nat) (ha : a < 128) (hb : b < 128) (hc : c < 128) :
    ([a, b, c].all fun x => decide (x < 128)) = true := by
  rw [List.all_cons, List.all_cons, List.all_cons, List.all_nil,
    decide_eq_true ha, decide_eq_true hb, decide_eq_true hc]
  rfl

theorem toyWl_cand (l : Language) : ∀ w ∈ toyWl l, l ∈ baseCand w := by
  intro w hw
  unfold toyWl at hw
  obtain ⟨i, hi, hieq⟩ := List.mem_map.mp hw
  have hi2048 : i < 2048 := List.mem_range.mp hi
  have hd1 : 48 + i / 64 < 128 := by omega
  have hd2 : 48 + i % 64 < 128 := by omega
  subst hieq
  cases l with
  | korean =>
    simp only [toyBase]
    unfold baseCand
    dsimp only
    rw [if_pos (by omega : (0x1100 : Nat) ≤ 0x1100 ∧ (0x1100 : Nat) ≤ 0x11ff)]
    decide
  | japanese =>
    simp only [toyBase]
    unfold baseCand
    dsimp only
    rw [if_neg (by omega), if_pos (by omega : (0x3040 : Nat) ≤ 0x3040
      ∧ (0x3040 : Nat) ≤ 0x309f)]
    decide
  | chineseSimplified =>
    simp only [toyBase]
    unfold baseCand
    dsimp only
    rw [if_neg (by omega), if_neg (by omega), if_pos (by omega :
      (0x4e00 : Nat) ≤ 0x4e00 ∧ (0x4e00 : Nat) ≤ 0x9f9f)]
    decide
  | chineseTraditional =>
    simp only [toyBase]
    unfold baseCand
    dsimp only
    rw [if_neg (by omega), if_neg (by omega), if_pos (by omega :
      (0x4e00 : Nat) ≤ 0x4e00 ∧ (0x4e00 : Nat) ≤ 0x9f9f)]
    decide
  | english =>
    simp only [toyBase]
    unfold baseCand
    dsimp only
    rw [if_neg (by omega), if_neg (by omega), if_neg (by omega),
      if_pos (all_lt128_three _ _ _ (by omega) hd1 hd2)]
    decide
  | italian =>
    simp only [toyBase]
    unfold baseCand
    dsimp only
    rw [if_neg (by omega), if_neg (by omega), if_neg (by omega),
      if_pos (all_lt128_three _ _ _ (by omega) hd1 hd2)]
    decide
  | czech =>
    simp only [toyBase]
    unfold baseCand
    dsimp only
    rw [if_neg (by omega), if_neg (by omega), if_neg (by omega),
      if_pos (all_lt128_three _ _ _ (by omega) hd1 hd2)]
    decide
  | portuguese =>
    simp only [toyBase]
    unfold baseCand
    dsimp only
    rw [if_neg (by omega), if_neg (by omega), if_neg (by omega),
      if_pos (all_lt128_three _ _ _ (by omega) hd1 hd2)]
    decide
  | french =>
    simp only [toyBase]
    unfold baseCand
    dsimp only
    rw [if_neg (by omega), if_neg (by omega), if_neg (by omega),
      if_pos (all_lt128_three _ _ _ (by omega) hd1 hd2)]
    decide
  | spanish =>
    simp only [toyBase]
    unfold baseCand
    dsimp only
    rw [if_neg (by omega), if_neg (by omega), if_neg (by omega),
      if_pos (all_lt128_three _ _ _ (by omega) hd1 hd2)]
    decide

theorem toyWl_ok : WordlistsOk toyWl :=
  ⟨toyWl_length, toyWl_nodup, toyWl_facts, toyWl_cand⟩

theorem toyWl_sep1 (l1 l2 : Language) (hne : toyBase l1 ≠ toyBase l2) :
    ∀ w, w ∈ toyWl l1 → w ∉ toyWl l2 := by
  intro w h1 h2
  unfold toyWl at h1 h2
  obtain ⟨i, _, hieq1⟩ := List.mem_map.mp h1
  obtain ⟨j, _, hieq2⟩ := List.mem_map.mp h2
  rw [← hieq1, List.cons.injEq] at hieq2
  exact hne (hieq2.1.symm)

theorem toyWl_separated : WordlistsSeparated toyWl := by
  constructor
  · intro l1 l2 hne hp1 hp2
    have hbase : toyBase l1 ≠ toyBase l2 := by
      revert hne hp1 hp2
      cases l1 <;> cases l2 <;> decide
    exact fun w hw hw2 => toyWl_sep1 l1 l2 hbase w hw hw2
  · intro w h1 h2
    have heq : toyWl Language.chineseSimplified = toyWl Language.chineseTraditional := rfl
    rw [heq]

/-- Witness for C3: the synthetic wordlists satisfy every wordlist
hypothesis and the round trip holds on a concrete 16-byte entropy in
Korean. -/
theorem C3_witness :
    ∃ words lang2,
      mnemonicNew (fun bs => bs.foldl (fun a b => a + b) 7 % 256) toyWl
          [12, 255, 0, 7, 99, 31, 64, 250, 1, 2, 3, 4, 5, 6, 7, 8] .korean
        = .ok (words, .korean) ∧
      mnemonicFromStr (fun bs => bs.foldl (fun a b => a + b) 7 % 256) toyWl
          (joinWords words) = .ok (words, lang2) ∧
      mnemonicEntropy toyWl words lang2
        = [12, 255, 0, 7, 99, 31, 64, 250, 1, 2, 3, 4, 5, 6, 7, 8] :=
  C3_mnemonic_roundtrip (fun bs => bs.foldl (fun a b => a + b) 7 % 256) toyWl
    [12, 255, 0, 7, 99, 31, 64, 250, 1, 2, 3, 4, 5, 6, 7, 8] .korean
    (fun bs => Nat.mod_lt _ (by omega)) toyWl_ok toyWl_separated
    (by unfold ByteValid; decide) (Or.inl (by decide))

/-- C6: for entropy of length 16/20/24/28/32 bytes the encoder emits
exactly 12/15/18/21/24 words (the count `L*8/11` of the spec read as
rounding up, equal to `L/4*3`); the checksum byte is `sha256[0]` masked
to its top `wordcount/3` bits, the word indices are the successive
11-bit MSB-first chunks of `entropy || checksum`, and each word is the
entry of the 2048-entry wordlist at its index. -/
theorem C6_encode_structure (sha0 : List Nat → Nat) (wl : Language → List (List Nat))
    (e : List Nat) (lang : Language)
    (hsha : ∀ bs, sha0 bs < 256)
    (h2048 : (wl lang).length = 2048) (hnd : (wl lang).Nodup)
    (hv : ByteValid e)
    (hL : e.length = 16 ∨ e.length = 20 ∨ e.length = 24 ∨ e.length = 28
      ∨ e.length = 32) :
    ∃ words,
      mnemonicNew sha0 wl e lang = .ok (words, lang) ∧
      words.length = e.length / 4 * 3 ∧
      (e.length = 16 → words.length = 12) ∧
      (e.length = 20 → words.length = 15) ∧
      (e.length = 24 → words.length = 18) ∧
      (e.length = 28 → words.length = 21) ∧
      (e.length = 32 → words.length = 24) ∧
      checkMask words.length = 256 - 2 ^ (8 - words.length / 3) ∧
      mnemonicIndices sha0 e
        = (List.range words.length).map (fun i =>
            sliceVal (e ++ [sha0 e &&& checkMask words.length]) (i * 11) 11) ∧
      (∀ i ∈ mnemonicIndices sha0 e, i < 2048) ∧
      words = (mnemonicIndices sha0 e).map (fun i => (wl lang).getD i []) := by
  obtain ⟨m, hL4, hm1, hm2⟩ : ∃ m, e.length = 4 * m ∧ 4 ≤ m ∧ m ≤ 8 := by
    rcases hL with h | h | h | h | h
    · exact ⟨4, by omega, by omega, by omega⟩
    · exact ⟨5, by omega, by omega, by omega⟩
    · exact ⟨6, by omega, by omega, by omega⟩
    · exact ⟨7, by omega, by omega, by omega⟩
    · exact ⟨8, by omega, by omega, by omega⟩
  obtain ⟨hilen, hilt, hnew, hli, hver, hpack⟩ :=
    mnemonic_encode_facts sha0 wl e lang m hsha h2048 hnd hv hL4 hm1 hm2
  refine ⟨(mnemonicIndices sha0 e).map (fun i => (wl lang).getD i []), hnew, ?_⟩
  have hwlen : ((mnemonicIndices sha0 e).map (fun i => (wl lang).getD i [])).length
      = 3 * m := by
    rw [List.length_map, hilen]
  refine ⟨by rw [hwlen]; omega, fun h => by rw [hwlen]; omega,
    fun h => by rw [hwlen]; omega, fun h => by rw [hwlen]; omega,
    fun h => by rw [hwlen]; omega, fun h => by rw [hwlen]; omega, ?_, ?_, hilt, rfl⟩
  · rw [hwlen]
    have h3 : 3 * m / 3 = m := by omega
    unfold checkMask
    rw [h3]
    exact checkMask_val m (by omega) hm1
  · rw [hwlen, mnemonicIndices_eq sha0 e m hL4]
    rfl

/-- C7: after the per-language checksum retain of `from_str`, an empty
survivor set yields `InvalidChecksum`, a singleton succeeds with that
language, the two-element Chinese pair (in either order) collapses to
Simplified Chinese, and any other multi-survivor set yields
`AmbiguousLanguages`. -/
theorem C7_survivor_analysis (sha0 : List Nat → Nat) (wl : Language → List (List Nat))
    (s : List Nat) (hlen : validWordCount (splitWs s).length = true) :
    (survivors sha0 wl (splitWs s) = [] →
      mnemonicFromStr sha0 wl s = .error .invalidChecksum) ∧
    (∀ l, survivors sha0 wl (splitWs s) = [l] →
      mnemonicFromStr sha0 wl s = .ok (splitWs s, l)) ∧
    ((survivors sha0 wl (splitWs s)
          = [.chineseSimplified, .chineseTraditional]
        ∨ survivors sha0 wl (splitWs s)
          = [.chineseTraditional, .chineseSimplified]) →
      mnemonicFromStr sha0 wl s = .ok (splitWs s, .chineseSimplified)) ∧
    (∀ l1 l2 rest, survivors sha0 wl (splitWs s) = l1 :: l2 :: rest →
      ¬(l1 :: l2 :: rest = [.chineseSimplified, .chineseTraditional]
        ∨ l1 :: l2 :: rest = [.chineseTraditional, .chineseSimplified]) →
      mnemonicFromStr sha0 wl s
        = .error (.ambiguousLanguages (l1 :: l2 :: rest))) := by
  have hev := fromStr_eval sha0 wl (splitWs s) s rfl hlen
  refine ⟨?_, ?_, ?_, ?_⟩
  · intro hs
    rw [hev, hs]
  · intro l hs
    rw [hev, hs]
  · intro hs
    rcases hs with hs | hs
    · rw [hev, hs]
      dsimp only
      rw [if_pos (Or.inl rfl)]
    · rw [hev, hs]
      dsimp only
      rw [if_pos (Or.inr rfl)]
  · intro l1 l2 rest hs hne
    rw [hev, hs]
    dsimp only
    rw [if_neg hne]

/-- Witness for C7: a 12-word phrase over empty wordlists has no
surviving language and decodes to `InvalidChecksum`. -/
theorem C7_witness :
    mnemonicFromStr (fun _ => 0) (fun _ => [])
        [97, 32, 97, 32, 97, 32, 97, 32, 97, 32, 97, 32, 97, 32, 97, 32, 97, 32,
         97, 32, 97, 32, 97]
      = .error .invalidChecksum :=
  (C7_survivor_analysis (fun _ => 0) (fun _ => [])
    [97, 32, 97, 32, 97, 32, 97, 32, 97, 32, 97, 32, 97, 32, 97, 32, 97, 32,
     97, 32, 97, 32, 97] (by decide)).1 (by decide)

/-- C10: every index produced by the 11-bit chunking of `Mnemonic::new`
is strictly below 2048, so with a 2048-entry wordlist `word_at` returns
a word for each of them: the `unwrap_or_default` fallback is
unreachable and no lookup panics. -/
theorem C10_word_lookup_total (sha0 : List Nat → Nat) (wl : Language → List (List Nat))
    (e : List Nat) (lang : Language) (h2048 : (wl lang).length = 2048) :
    ∀ i ∈ mnemonicIndices sha0 e, i < 2048 ∧ ∃ w, wordAt (wl lang) i = some w := by
  intro i hi
  have hlt : i < 2048 :=
    xbitsChunks_mem_lt (e ++ [sha0 e &&& checkMask (e.length / 4 * 3)]) 11
      (e.length / 4 * 3) i hi
  refine ⟨hlt, ?_⟩
  unfold wordAt
  rw [if_pos hlt, List.getElem?_eq_getElem (by omega)]
  exact ⟨_, rfl⟩

/-- Witness for C6: the structure evaluated on a concrete 16-byte
entropy over the synthetic wordlists. -/
theorem C6_witness :
    ∃ words,
      mnemonicNew (fun _ => 0x37) toyWl (List.replicate 16 0) .english
        = .ok (words, .english) ∧
      words.length = (List.replicate 16 (0 : Nat)).length / 4 * 3 ∧
      ((List.replicate 16 (0 : Nat)).length = 16 → words.length = 12) ∧
      ((List.replicate 16 (0 : Nat)).length = 20 → words.length = 15) ∧
      ((List.replicate 16 (0 : Nat)).length = 24 → words.length = 18) ∧
      ((List.replicate 16 (0 : Nat)).length = 28 → words.length = 21) ∧
      ((List.replicate 16 (0 : Nat)).length = 32 → words.length = 24) ∧
      checkMask words.length = 256 - 2 ^ (8 - words.length / 3) ∧
      mnemonicIndices (fun _ => 0x37) (List.replicate 16 0)
        = (List.range words.length).map (fun i =>
            sliceVal (List.replicate 16 0
              ++ [(fun (_ : List Nat) => 0x37) (List.replicate 16 0)
                    &&& checkMask words.length]) (i * 11) 11) ∧
      (∀ i ∈ mnemonicIndices (fun _ => 0x37) (List.replicate 16 0), i < 2048) ∧
      words = (mnemonicIndices (fun _ => 0x37) (List.replicate 16 0)).map
        (fun i => (toyWl .english).getD i []) :=
  C6_encode_structure (fun _ => 0x37) toyWl (List.replicate 16 0) .english
    (fun _ => by show (0x37 : Nat) < 256; omega) (toyWl_length _) (toyWl_nodup _)
    (by unfold ByteValid; decide) (Or.inl (by decide))

/-- Witness for C10: the last index of the all-zero 16-byte entropy is
3 and looks up a word. -/
theorem C10_witness :
    (3 : Nat) < 2048 ∧ ∃ w, wordAt (toyWl .english) 3 = some w :=
  C10_word_lookup_total (fun _ => 0x37) toyWl (List.replicate 16 0) .english
    (toyWl_length _) 3 (by decide)

end Artimonist
